import Mathlib

/-
Verification of the "amazing" maze generator/solver.

Shallow embedding of the repository's core:
  * `Cell`, `MazeState`          — the grid/wall data model (a_maze_ing.py, class Cell / Maze)
  * `Maze.make`                  — Maze.__init__ + generate_maze + declare_logo (a_maze_ing.py)
  * `MazeGenerator.make`         — MazeGenerator.__init__ (mazegen/mazegen.py)
  * `Maze.dfs`                   — the recursive backtracker generator (a_maze_ing.py Maze.dfs)
  * `Maze.prime`                 — the Prim-style frontier generator (a_maze_ing.py Maze.prime)
  * `Maze.make_it_imperfect`     — the braid pass (a_maze_ing.py)
  * `Maze.bfs_solver`            — the breadth-first solver (a_maze_ing.py)
  * `create_output_file`         — the hex codec (hexa_output.py)
  * `parse_config_validate`      — the semantic checks of parse_config (parse_config_file.py)

Modelling conventions:
  * Positions are `(row, col)` pairs of naturals, written `(y, x)` as in the source.
  * The grid is a total function `Nat → Nat → Cell`; the Python code only ever
    reads or writes in-bounds positions, and out-of-bounds cells of the model
    simply keep their initial value.
  * Python `random.shuffle` is modelled by an oracle `shuffle : Nat → List Pos → List Pos`
    consuming one index per call; theorems assume each `shuffle k` output is a
    permutation of its input.  `random.choice(list(choices))` is modelled by an
    oracle `pick : Nat → List Pos → Pos` assumed to return a member.
  * Recursion/loops are given explicit fuel; every definition is structurally
    recursive on the fuel so that concrete runs evaluate inside the kernel.
  * Python integer comparisons `a - b > 0`, `a - 1 >= 0` on the (non-negative)
    coordinates are rendered as `b < a`, `1 ≤ a` over `Nat`.
  * Display-only attributes of the Python Cell (`limits`, `in_path`, `solution`)
    and the curses parameters (`stdscr`, colors, sleeps) have no effect on the
    maze state and are omitted.
-/

namespace AMazeIng

/-- A position in the grid: `(row, col)`, i.e. `(y, x)`. -/
abbrev Pos := Nat × Nat

/-- One of the four sides of a cell, the keys of the Python `walls` dict. -/
inductive Side
  | T | B | L | R
deriving DecidableEq, Repr

/-- A grid cell (a_maze_ing.py class Cell): the `walls` dict is flattened into
four Boolean fields, all initially `true`; `logo` and `visited` as in the source. -/
structure Cell where
  wallT : Bool := true
  wallB : Bool := true
  wallL : Bool := true
  wallR : Bool := true
  logo : Bool := false
  visited : Bool := false
deriving DecidableEq, Repr

/-- Read the wall flag of a given side. -/
def Cell.wall (c : Cell) : Side → Bool
  | .T => c.wallT
  | .B => c.wallB
  | .L => c.wallL
  | .R => c.wallR

/-- Write the wall flag of a given side (`cells[y][x].walls[s] = b`). -/
def setW (s : Side) (b : Bool) (c : Cell) : Cell :=
  match s with
  | .T => { c with wallT := b }
  | .B => { c with wallB := b }
  | .L => { c with wallL := b }
  | .R => { c with wallR := b }

/-- The 2D cell array, as a total function from `(row, col)`. -/
abbrev Grid := Nat → Nat → Cell

/-- Point update of the grid at `(y, x)`. -/
def updateAt (g : Grid) (y x : Nat) (f : Cell → Cell) : Grid :=
  fun y' x' => if y' = y ∧ x' = x then f (g y x) else g y' x'

/-- The state of a Maze object (a_maze_ing.py class Maze): `width`, `height`,
`entry`, `exit`, `perfect` and the mutable `cells` / `visited_count`. -/
structure MazeState where
  width : Nat
  height : Nat
  entry : Pos
  exitPos : Pos
  perfect : Bool
  grid : Grid
  visitedCount : Nat

/-- The Python attribute `cells_count`, set once to `width * height` in
`__init__` and never mutated afterwards. -/
def cellsCount (m : MazeState) : Nat := m.width * m.height

/-- A fresh cell: all four walls present, not a logo cell, not visited. -/
def initGrid : Grid := fun _ _ => {}

/-- Maze.generate_maze: rebuild all cells fresh, then mark the entry cell
visited and increment the visited counter. -/
def generate_maze (m : MazeState) : MazeState :=
  { m with
    grid := updateAt initGrid m.entry.1 m.entry.2 (fun c => { c with visited := true })
    visitedCount := m.visitedCount + 1 }

/-- The 18 `(dy, dx)` offsets of the "42" logo pattern, in the order the
source sets them in `declare_logo`. -/
def logoOffsets : List Pos :=
  [(0, 0), (1, 0), (2, 0), (2, 1), (2, 2), (3, 2), (4, 2),
   (4, 4), (4, 5), (4, 6), (3, 4), (2, 4), (2, 5), (2, 6),
   (1, 6), (0, 6), (0, 5), (0, 4)]

/-- Maze.declare_logo: mark the "42" pattern around the grid center.  The
anchors `x = width/2 - 3`, `y = height/2 - 2` use floor division; the method is
only invoked when `width ≥ 7` (resp. `width ≥ 9`) and `height ≥ 7`, so the
natural subtraction here agrees with the Python integer arithmetic. -/
def declare_logo (m : MazeState) : MazeState :=
  let x0 := m.width / 2 - 3
  let y0 := m.height / 2 - 2
  { m with
    grid := logoOffsets.foldl
      (fun g d => updateAt g (y0 + d.1) (x0 + d.2) (fun c => { c with logo := true }))
      m.grid }

/-- Maze.__init__ (a_maze_ing.py): build the grid, mark entry visited, and
declare the logo only when `width >= 7 and height >= 7`; there is no raise
statement on any path, so the result is a plain `MazeState`. -/
def Maze.make (height width : Nat) (entry exitPos : Pos) (perfect : Bool) : MazeState :=
  let m := generate_maze
    { width := width, height := height, entry := entry, exitPos := exitPos,
      perfect := perfect, grid := initGrid, visitedCount := 0 }
  if 7 ≤ width ∧ 7 ≤ height then declare_logo m else m

/-- MazeGenerator.__init__ (mazegen/mazegen.py): same construction, but when
`width >= 9 and height >= 7` fails, it raises
`ValueError("Maze width and height isnt enough" "to show 42 logo")`. -/
def MazeGenerator.make (height width : Nat) (entry exitPos : Pos) (perfect : Bool) :
    Except String MazeState :=
  let m := generate_maze
    { width := width, height := height, entry := entry, exitPos := exitPos,
      perfect := perfect, grid := initGrid, visitedCount := 0 }
  if 9 ≤ width ∧ 7 ≤ height then .ok (declare_logo m)
  else .error "Maze width and height isnt enough to show 42 logo"

/-! ### The recursive backtracker (Maze.dfs) -/

/-- The `choices` list computed at the top of Maze.dfs: grid-adjacent,
unvisited, non-logo neighbours, in source order right, down, up, left. -/
def dfsChoices (m : MazeState) (y x : Nat) : List Pos :=
  (if x + 1 < m.width ∧ ¬(m.grid y (x + 1)).visited ∧ ¬(m.grid y (x + 1)).logo
    then [(y, x + 1)] else []) ++
  (if y + 1 < m.height ∧ ¬(m.grid (y + 1) x).visited ∧ ¬(m.grid (y + 1) x).logo
    then [(y + 1, x)] else []) ++
  (if 1 ≤ y ∧ ¬(m.grid (y - 1) x).visited ∧ ¬(m.grid (y - 1) x).logo
    then [(y - 1, x)] else []) ++
  (if 1 ≤ x ∧ ¬(m.grid y (x - 1)).visited ∧ ¬(m.grid y (x - 1)).logo
    then [(y, x - 1)] else [])

/-- The four wall-opening conditionals of Maze.dfs, in source order
(`ny - y > 0`, `nx - x > 0`, `nx - x < 0`, `ny - y < 0`). -/
def dfsOpenWalls (g : Grid) (y x ny nx : Nat) : Grid :=
  let g1 := if y < ny then updateAt (updateAt g ny nx (setW .T false)) y x (setW .B false) else g
  let g2 := if x < nx then updateAt (updateAt g1 ny nx (setW .L false)) y x (setW .R false) else g1
  let g3 := if nx < x then updateAt (updateAt g2 ny nx (setW .R false)) y x (setW .L false) else g2
  if ny < y then updateAt (updateAt g3 ny nx (setW .B false)) y x (setW .T false) else g3

/-- The mutation Maze.dfs performs for one accepted choice: open the shared
walls, mark `(ny, nx)` visited and increment the counter. -/
def dfsVisit (m : MazeState) (y x ny nx : Nat) : MazeState :=
  { m with
    grid := updateAt (dfsOpenWalls m.grid y x ny nx) ny nx (fun c => { c with visited := true })
    visitedCount := m.visitedCount + 1 }

/-- Maze.dfs as a fuel-indexed function.  The `Option (List Pos)` argument
distinguishes the two phases of the Python function: `none` is function entry
(compute `choices`, return if empty, else shuffle and enter the loop), and
`some cs` is the `for` loop with the still-unprocessed suffix `cs` of the
shuffled choices.  The pair of recursive calls in the carving branch is the
recursive call `self.dfs(..., ny, nx, ...)` followed by the continuation of
the loop; `k` indexes the shuffle oracle. -/
def dfsGo (shuffle : Nat → List Pos → List Pos) :
    Nat → Nat → MazeState → Nat → Nat → Option (List Pos) → MazeState × Nat
  | 0, k, m, _, _, _ => (m, k)
  | fuel + 1, k, m, y, x, none =>
      let cs := dfsChoices m y x
      if cs = [] then (m, k)
      else dfsGo shuffle fuel (k + 1) m y x (some (shuffle k cs))
  | _ + 1, k, m, _, _, some [] => (m, k)
  | fuel + 1, k, m, y, x, some (c :: rest) =>
      if (m.grid c.1 c.2).visited then dfsGo shuffle fuel k m y x (some rest)
      else
        let m1 := dfsVisit m y x c.1 c.2
        if m1.visitedCount < cellsCount m1 then
          let r := dfsGo shuffle fuel k m1 c.1 c.2 none
          dfsGo shuffle fuel r.2 r.1 y x (some rest)
        else dfsGo shuffle fuel k m1 y x (some rest)

/-- Maze.dfs: run the backtracker from `(y, x)`. -/
def Maze.dfs (shuffle : Nat → List Pos → List Pos) (fuel k : Nat)
    (m : MazeState) (y x : Nat) : MazeState × Nat :=
  dfsGo shuffle fuel k m y x none

/-! ### The Prim-style generator (Maze.prime) -/

/-- Addition to the frontier set: Python `set.add` (no duplicates). -/
def insertPos (l : List Pos) (p : Pos) : List Pos :=
  if p ∈ l then l else l ++ [p]

/-- The four `choices.add` statements at the top of the Maze.prime loop, in
source order right, down, up, left. -/
def primeAdds (m : MazeState) (y x : Nat) (f : List Pos) : List Pos :=
  let f1 := if x + 1 < m.width ∧ ¬(m.grid y (x + 1)).visited ∧ ¬(m.grid y (x + 1)).logo
    then insertPos f (y, x + 1) else f
  let f2 := if y + 1 < m.height ∧ ¬(m.grid (y + 1) x).visited ∧ ¬(m.grid (y + 1) x).logo
    then insertPos f1 (y + 1, x) else f1
  let f3 := if 1 ≤ y ∧ ¬(m.grid (y - 1) x).visited ∧ ¬(m.grid (y - 1) x).logo
    then insertPos f2 (y - 1, x) else f2
  if 1 ≤ x ∧ ¬(m.grid y (x - 1)).visited ∧ ¬(m.grid y (x - 1)).logo
    then insertPos f3 (y, x - 1) else f3

/-- The if/elif chain of Maze.prime that connects the selected cell `(ny, nx)`
to one visited neighbour, preferring top, then left, then right, then bottom. -/
def primeConnect (m : MazeState) (ny nx : Nat) : MazeState :=
  if 1 ≤ ny ∧ (m.grid (ny - 1) nx).visited then
    { m with grid := updateAt (updateAt m.grid ny nx (setW .T false)) (ny - 1) nx (setW .B false) }
  else if 1 ≤ nx ∧ (m.grid ny (nx - 1)).visited then
    { m with grid := updateAt (updateAt m.grid ny nx (setW .L false)) ny (nx - 1) (setW .R false) }
  else if nx + 1 < m.width ∧ (m.grid ny (nx + 1)).visited then
    { m with grid := updateAt (updateAt m.grid ny nx (setW .R false)) ny (nx + 1) (setW .L false) }
  else if ny + 1 < m.height ∧ (m.grid (ny + 1) nx).visited then
    { m with grid := updateAt (updateAt m.grid ny nx (setW .B false)) (ny + 1) nx (setW .T false) }
  else m

/-- Mark a cell visited and increment the counter (`cells[ny][nx].visited =
True; self.visited_count += 1`). -/
def markVisited (m : MazeState) (y x : Nat) : MazeState :=
  { m with
    grid := updateAt m.grid y x (fun c => { c with visited := true })
    visitedCount := m.visitedCount + 1 }

/-- Maze.prime as a fuel-indexed loop.  `f` is the frontier (`choices`), `k`
indexes the pick oracle.  In addition to the final state, the run returns a
ghost log of `(state, selection)` pairs, one per loop iteration that selected
a frontier cell; the log has no influence on the computation. -/
def primeAux (pick : Nat → List Pos → Pos) :
    Nat → Nat → MazeState → Nat → Nat → List Pos → List (MazeState × Pos) →
    MazeState × List (MazeState × Pos)
  | 0, _, m, _, _, _, log => (m, log)
  | fuel + 1, k, m, y, x, f, log =>
    if m.visitedCount < cellsCount m then
      match primeAdds m y x f with
      | [] => (m, log)
      | p :: f1 =>
        let sel := pick k (p :: f1)
        let f2 := (p :: f1).erase sel
        let m1 := markVisited (primeConnect m sel.1 sel.2) sel.1 sel.2
        primeAux pick fuel (k + 1) m1 sel.1 sel.2 f2 (log ++ [(m, sel)])
    else (m, log)

/-- Maze.prime: run the frontier generator from `(y, x)`. -/
def Maze.prime (pick : Nat → List Pos → Pos) (fuel : Nat)
    (m : MazeState) (y x : Nat) : MazeState × List (MazeState × Pos) :=
  primeAux pick fuel 0 m y x [] []

/-! ### The braid pass (Maze.make_it_imperfect) -/

/-- The first inner conditional of the Maze.make_it_imperfect body: open the
top wall pair of `(y, x)` when the ad hoc bypass condition holds. -/
def imperfectOpenT (m : MazeState) (y x : Nat) : MazeState :=
  if (m.grid y x).wallT
      ∧ ((m.grid y (x + 1)).wallT ∨ (m.grid (y - 1) (x + 1)).wallL)
      ∧ ((m.grid y (x - 1)).wallT ∨ (m.grid (y - 1) (x - 1)).wallR) then
    { m with grid := updateAt (updateAt m.grid y x (setW .T false)) (y - 1) x (setW .B false) }
  else m

/-- The second inner conditional of the Maze.make_it_imperfect body: open the
left wall pair of `(y, x)` when the ad hoc bypass condition holds; it reads
the state left by the top-wall conditional. -/
def imperfectOpenL (m : MazeState) (y x : Nat) : MazeState :=
  if (m.grid y x).wallL
      ∧ ((m.grid (y + 1) x).wallL ∨ (m.grid (y + 1) (x - 1)).wallT)
      ∧ ((m.grid (y - 1) x).wallL ∨ (m.grid (y - 1) (x - 1)).wallB) then
    { m with grid := updateAt (updateAt m.grid y x (setW .L false)) y (x - 1) (setW .R false) }
  else m

/-- The loop body of Maze.make_it_imperfect for one cell `(y, x)`: on interior
cells which are non-logo together with their four neighbours (the logo flags
are unchanged by the two wall openings, so evaluating the guard once up front
agrees with the source), open the top wall and then the left wall when the
respective bypass condition holds. -/
def imperfectBody (m : MazeState) (y x : Nat) : MazeState :=
  if x + 1 < m.width ∧ 1 ≤ x ∧ y + 1 < m.height ∧ 1 ≤ y
      ∧ ¬(m.grid y x).logo ∧ ¬(m.grid y (x + 1)).logo ∧ ¬(m.grid y (x - 1)).logo
      ∧ ¬(m.grid (y + 1) x).logo ∧ ¬(m.grid (y - 1) x).logo then
    imperfectOpenL (imperfectOpenT m y x) y x
  else m

/-- Maze.make_it_imperfect: scan all cells in row-major order. -/
def Maze.make_it_imperfect (m : MazeState) : MazeState :=
  (List.range m.height).foldl
    (fun acc y => (List.range m.width).foldl (fun acc2 x => imperfectBody acc2 y x) acc) m

/-! ### The BFS solver (Maze.bfs_solver) -/

/-- Maze.get_neighbors: walkable neighbours (no wall on the corresponding
side, and in bounds), in source order right, down, left, up. -/
def get_neighbors (m : MazeState) (y x : Nat) : List Pos :=
  (if ¬(m.grid y x).wallR ∧ x + 1 < m.width then [(y, x + 1)] else []) ++
  (if ¬(m.grid y x).wallB ∧ y + 1 < m.height then [(y + 1, x)] else []) ++
  (if ¬(m.grid y x).wallL ∧ 1 ≤ x then [(y, x - 1)] else []) ++
  (if ¬(m.grid y x).wallT ∧ 1 ≤ y then [(y - 1, x)] else [])

/-- Reset every cell's visited flag (the double loop at the top of bfs_solver). -/
def resetVisited (m : MazeState) : MazeState :=
  { m with grid := fun y x => { m.grid y x with visited := false } }

/-- Set one cell's visited flag without touching the generation counter (the
solver only writes `cell.visited`). -/
def setVisitedFlag (m : MazeState) (y x : Nat) : MazeState :=
  { m with grid := updateAt m.grid y x (fun c => { c with visited := true }) }

/-- Path reconstruction: follow parent links from a node (`while node is not
None`).  In Python the dict lookup chain is finite because parents were
assigned in BFS order; here the recursion carries fuel, always at least the
chain length at every call site that matters. -/
def chainToStart (parent : Pos → Option Pos) : Nat → Pos → List Pos
  | 0, p => [p]
  | fuel + 1, p =>
    p :: (match parent p with
          | none => []
          | some q => chainToStart parent fuel q)

/-- One neighbour inspection of the BFS inner loop: if unvisited, mark it,
record its parent, and append it to the queue. -/
def bfsExpandStep (curr : Pos) :
    MazeState × (Pos → Option Pos) × List Pos → Pos →
    MazeState × (Pos → Option Pos) × List Pos :=
  fun st n =>
    if ((st.1.grid n.1 n.2).visited : Bool) then st
    else
      (setVisitedFlag st.1 n.1 n.2,
       fun p => if p = n then some curr else st.2.1 p,
       st.2.2 ++ [n])

/-- The `while child:` loop of bfs_solver.  Python dict misses and `None`
values are identified: the initial parent map is constantly `none`. -/
def bfsLoop (endP : Pos) :
    Nat → MazeState → (Pos → Option Pos) → List Pos → Option (List Pos)
  | 0, _, _, _ => none
  | fuel + 1, m, parent, q =>
    match q with
    | [] => none
    | curr :: rest =>
      if curr = endP then
        some ((chainToStart parent (cellsCount m + 1) endP).reverse)
      else
        let st := (get_neighbors m curr.1 curr.2).foldl (bfsExpandStep curr) (m, parent, rest)
        bfsLoop endP fuel st.1 st.2.1 st.2.2

/-- Maze.bfs_solver: reset visited flags, seed the queue and parent map with
the start, and run the loop.  The fuel `cellsCount m + 1` strictly exceeds
the possible number of dequeues (each dequeue consumes an enqueue, and each
enqueue marks a distinct cell visited). -/
def Maze.bfs_solver (m : MazeState) (entry endP : Pos) : Option (List Pos) :=
  let m0 := setVisitedFlag (resetVisited m) entry.1 entry.2
  bfsLoop endP (cellsCount m + 1) m0 (fun _ => none) [entry]

/-! ### The hex codec (hexa_output.py) -/

/-- The per-cell wall bitmask of create_output_file: `T=1, R=2, B=4, L=8`. -/
def cellDigit (c : Cell) : Nat :=
  (if c.wallT then 1 else 0) + (if c.wallR then 2 else 0) +
  (if c.wallB then 4 else 0) + (if c.wallL then 8 else 0)

/-- The `hexa` digit table of create_output_file. -/
def hexa : List Char :=
  ['0', '1', '2', '3', '4', '5', '6', '7', '8', '9', 'A', 'B', 'C', 'D', 'E', 'F']

/-- Decimal digits of a coordinate, as Python `str(int)` writes them. -/
def natChars (n : Nat) : List Char := Nat.toDigits 10 n

/-- create_output_file, with the file contents modelled as the list of
characters written: the hex rows each ending in a newline, a blank line, the
entry and exit as `column,row` lines, and, when a solution is supplied, one
direction letter per displacement step followed by a newline. -/
def create_output_file (m : MazeState) (entry exitPos : Pos)
    (solution : Option (List Pos)) : List Char :=
  let rows := (List.range m.height).foldl
    (fun acc y =>
      ((List.range m.width).foldl
        (fun a2 x => a2 ++ [hexa.getD (cellDigit (m.grid y x)) '0']) acc) ++ ['\n'])
    []
  let header := rows ++ ['\n'] ++ natChars entry.2 ++ [','] ++ natChars entry.1 ++ ['\n']
      ++ natChars exitPos.2 ++ [','] ++ natChars exitPos.1 ++ ['\n']
  match solution with
  | none => header
  | some path =>
    let final := path.foldl
      (fun st cel =>
        let acc :=
          if st.2.1 < cel.2 then st.1 ++ ['E']
          else if cel.2 < st.2.1 then st.1 ++ ['W']
          else if st.2.2 < cel.1 then st.1 ++ ['S']
          else if cel.1 < st.2.2 then st.1 ++ ['N']
          else st.1
        (acc, cel.2, cel.1))
      (header, entry.2, entry.1)
    final.1 ++ ['\n']

/-! ### The config validation (parse_config_file.py) -/

/-- The record parse_config returns (file name, algo and seed omitted: they
take no part in the validation the claims are about). -/
structure PCfg where
  width : Int
  height : Int
  entry : Int × Int
  exitPos : Int × Int
  perfect : Bool
deriving DecidableEq, Repr

/-- Python's `s.split(".", 1)` on the character list of `s`: at most one
split, at the first dot. -/
def splitDot1 : List Char → List (List Char)
  | [] => [[]]
  | c :: rest =>
    if c = '.' then [[], rest]
    else
      match splitDot1 rest with
      | [] => [[c]]
      | h :: t => (c :: h) :: t

/-- The semantic validation chain of parse_config (parse_config_file.py,
after the key/value parsing): the OUTPUT_FILE extension check
(`output_file.split(".", 1)` must have two parts with second part `txt`),
positivity of the dimensions, bounds of ENTRY and EXIT, the PERFECT literal,
and the ENTRY ≠ EXIT check, each raising in source order. -/
def parse_config_validate (width height entry_x entry_y exit_x exit_y : Int)
    (output_file perfect : String) : Except String PCfg :=
  if ¬((splitDot1 output_file.data).length = 2 ∧
       (splitDot1 output_file.data).getD 1 [] = "txt".data) then
    .error "OUT_PUT file must be txt extention."
  else if width ≤ 0 ∨ height ≤ 0 then
    .error "WIDTH and HEIGHT must be positive greater then 0."
  else if ¬(0 ≤ entry_x ∧ entry_x < width ∧ 0 ≤ entry_y ∧ entry_y < height) then
    .error "ENTRY out of bounds"
  else if ¬(0 ≤ exit_x ∧ exit_x < width ∧ 0 ≤ exit_y ∧ exit_y < height) then
    .error "EXIT out of bounds"
  else if ¬(perfect = "True" ∨ perfect = "False") then
    .error "Perfect should be True or False."
  else if entry_x = exit_x ∧ entry_y = exit_y then
    .error "Entry and Exit must be separated or make the maze abit bigger"
  else
    .ok { width := width, height := height, entry := (entry_y, entry_x),
          exitPos := (exit_y, exit_x), perfect := perfect = "True" }

end AMazeIng


namespace AMazeIng

/-! ### C8: the per-cell hex encoding round-trips -/

/-- The wall bitmask of create_output_file on four explicit wall flags
(`T=1, R=2, B=4, L=8`), the function `cellDigit` computes. -/
def encodeWalls (t r b l : Bool) : Nat :=
  (if t then 1 else 0) + (if r then 2 else 0) + (if b then 4 else 0) + (if l then 8 else 0)

/-- Modelled from the spec: no decoder exists under src/; the specification
describes it as the exact inverse of the encoder, reading the four wall
booleans off the digit via the same bitmask `T=1, R=2, B=4, L=8`. -/
def decodeWalls (d : Nat) : Bool × Bool × Bool × Bool :=
  (d.testBit 0, d.testBit 1, d.testBit 2, d.testBit 3)

/-- C8: the digit create_output_file emits for a cell is the `T=1,R=2,B=4,L=8`
bitmask of its walls; decoding that digit with the same bitmask recovers the
four wall booleans exactly, and the encoding is injective. -/
theorem hex_digit_roundtrip :
    (∀ c : Cell, cellDigit c = encodeWalls c.wallT c.wallR c.wallB c.wallL) ∧
    (∀ t r b l : Bool, decodeWalls (encodeWalls t r b l) = (t, r, b, l)) ∧
    (∀ a b : Bool × Bool × Bool × Bool,
      encodeWalls a.1 a.2.1 a.2.2.1 a.2.2.2 = encodeWalls b.1 b.2.1 b.2.2.1 b.2.2.2 → a = b) :=
  ⟨fun _ => rfl, by decide, by decide⟩

/-- Concrete instance of C8 at an explicit wall assignment. -/
theorem hex_digit_roundtrip_witness :
    decodeWalls (encodeWalls true false true false) = (true, false, true, false) ∧
    ((true, false, false, true) : Bool × Bool × Bool × Bool) = (true, false, false, true) :=
  ⟨hex_digit_roundtrip.2.1 true false true false,
   hex_digit_roundtrip.2.2 (true, false, false, true) (true, false, false, true) rfl⟩

/-! ### C10: bfs_solver on equal start and end -/

/-- C10: for every maze and in-bounds position `p`, `bfs_solver p p` returns
the one-element path `[p]`: the start is dequeued first, immediately equals
the end, and the parent chain stops at the start. -/
theorem bfs_solver_self (m : MazeState) (p : Pos)
    (_hy : p.1 < m.height) (_hx : p.2 < m.width) :
    Maze.bfs_solver m p p = some [p] := by
  simp [Maze.bfs_solver, bfsLoop, chainToStart]

/-- Concrete instance of C10 on a freshly constructed 2×2 maze. -/
theorem bfs_solver_self_witness :
    (0 : Nat) < (Maze.make 2 2 (0, 0) (1, 1) true).height ∧
    (0 : Nat) < (Maze.make 2 2 (0, 0) (1, 1) true).width ∧
    Maze.bfs_solver (Maze.make 2 2 (0, 0) (1, 1) true) (0, 0) (0, 0) = some [(0, 0)] :=
  ⟨by decide, by decide,
   bfs_solver_self (Maze.make 2 2 (0, 0) (1, 1) true) (0, 0) (by decide) (by decide)⟩

/-! ### C4: dimension threshold for the reserved region -/

/-- C4 counterexample: constructing a 3×3 maze through a_maze_ing's
`Maze.__init__` raises nothing at all — the result is a fully built maze
(entry visited, counter 1) in which no cell is reserved, because the logo
declaration is silently skipped below 7×7 rather than rejected. -/
theorem small_maze_construction_succeeds :
    (Maze.make 3 3 (0, 0) (2, 2) true).visitedCount = 1 ∧
    ((List.range 3).all (fun y => (List.range 3).all (fun x =>
      !((Maze.make 3 3 (0, 0) (2, 2) true).grid y x).logo))) = true :=
  ⟨rfl, by decide⟩

/-- C4 (amended): only mazegen's MazeGenerator rejects small grids:
its constructor succeeds exactly when `width ≥ 9` and `height ≥ 7`, raising a
ValueError otherwise; a_maze_ing's Maze constructor never fails — it always
produces a maze (entry visited, counter 1) and simply declares no logo cells
whenever `width < 7` or `height < 7`. -/
theorem construction_size_threshold :
    (∀ h w e ex p, (∃ m, MazeGenerator.make h w e ex p = .ok m) ↔ (9 ≤ w ∧ 7 ≤ h)) ∧
    (∀ h w e ex p, (Maze.make h w e ex p).visitedCount = 1) ∧
    (∀ h w e ex p y x, ¬(7 ≤ w ∧ 7 ≤ h) → ((Maze.make h w e ex p).grid y x).logo = false) := by
  refine ⟨fun h w e ex p => ?_, fun h w e ex p => ?_, fun h w e ex p y x hc => ?_⟩
  · constructor
    · rintro ⟨m, hm⟩
      by_contra hcond
      simp [MazeGenerator.make, hcond] at hm
    · intro hcond
      exact ⟨_, by unfold MazeGenerator.make; rw [if_pos hcond]⟩
  · unfold Maze.make
    split
    · rfl
    · rfl
  · simp only [Maze.make, hc, if_false]
    simp [generate_maze, updateAt, initGrid]
    split <;> rfl

/-- Concrete instances of C4 (amended) at explicit dimensions. -/
theorem construction_size_threshold_witness :
    (¬(7 ≤ 3 ∧ 7 ≤ 3) ∧ ((Maze.make 3 3 (0, 0) (1, 1) true).grid 2 2).logo = false) ∧
    (Maze.make 5 5 (0, 0) (1, 1) false).visitedCount = 1 ∧
    (∃ m, MazeGenerator.make 7 9 (0, 0) (1, 1) true = .ok m) :=
  ⟨⟨by decide, construction_size_threshold.2.2 3 3 (0, 0) (1, 1) true 2 2 (by decide)⟩,
   construction_size_threshold.2.1 5 5 (0, 0) (1, 1) false,
   (construction_size_threshold.1 7 9 (0, 0) (1, 1) true).mpr (by decide)⟩

/-! ### C9: endpoints on reserved cells -/

/-- C9 counterexample: a 9-wide, 7-high configuration whose entry `(1, 1)`
is exactly a logo cell of the constructed maze passes every validation check
of parse_config, and Maze.__init__ then builds the maze without any error:
the reserved-cell condition is never checked anywhere. -/
theorem logo_entry_passes_validation :
    parse_config_validate 9 7 1 1 0 0 "maze.txt" "True" =
      .ok { width := 9, height := 7, entry := (1, 1), exitPos := (0, 0), perfect := true } ∧
    ((Maze.make 7 9 (1, 1) (0, 0) true).grid 1 1).logo = true ∧
    (Maze.make 7 9 (1, 1) (0, 0) true).visitedCount = 1 :=
  ⟨rfl, rfl, rfl⟩

/-- C9 (amended): parse_config accepts a configuration exactly when the
output file name is well formed, the dimensions are positive, entry and exit
are in bounds, PERFECT is a boolean literal, and entry differs from exit —
whether an endpoint lies on a reserved cell plays no part, so such
configurations pass validation and construct with the entry reserved. -/
theorem validation_accepts_iff
    (width height entry_x entry_y exit_x exit_y : Int) (output_file perfect : String) :
    (∃ c, parse_config_validate width height entry_x entry_y exit_x exit_y
        output_file perfect = .ok c) ↔
    (((splitDot1 output_file.data).length = 2 ∧
        (splitDot1 output_file.data).getD 1 [] = "txt".data) ∧
     ¬(width ≤ 0 ∨ height ≤ 0) ∧
     (0 ≤ entry_x ∧ entry_x < width ∧ 0 ≤ entry_y ∧ entry_y < height) ∧
     (0 ≤ exit_x ∧ exit_x < width ∧ 0 ≤ exit_y ∧ exit_y < height) ∧
     (perfect = "True" ∨ perfect = "False") ∧
     ¬(entry_x = exit_x ∧ entry_y = exit_y)) := by
  constructor
  · rintro ⟨c, hc⟩
    unfold parse_config_validate at hc
    split_ifs at hc with h1 h2 h3 h4 h5 h6
    tauto
  · rintro ⟨hA, hB, hC, hD, hE, hF⟩
    exact ⟨_, by
      unfold parse_config_validate
      rw [if_neg (not_not.mpr hA), if_neg hB, if_neg (not_not.mpr hC),
        if_neg (not_not.mpr hD), if_neg (not_not.mpr hE), if_neg hF]⟩

/-- Concrete instance of C9 (amended): the counterexample configuration is
accepted. -/
theorem validation_accepts_iff_witness :
    ∃ c, parse_config_validate 9 7 1 1 0 0 "maze.txt" "True" = .ok c :=
  (validation_accepts_iff 9 7 1 1 0 0 "maze.txt" "True").mpr
    (by exact ⟨by decide, by decide, by decide, by decide, .inl rfl, by decide⟩)

end AMazeIng

namespace AMazeIng

/-! ### Shared infrastructure: pointwise facts about grid updates -/

theorem setW_wallT_T (b : Bool) (c : Cell) : (setW .T b c).wallT = b := rfl

theorem setW_wallB_T (b : Bool) (c : Cell) : (setW .T b c).wallB = c.wallB := rfl

theorem setW_wallL_T (b : Bool) (c : Cell) : (setW .T b c).wallL = c.wallL := rfl

theorem setW_wallR_T (b : Bool) (c : Cell) : (setW .T b c).wallR = c.wallR := rfl

theorem setW_wallT_B (b : Bool) (c : Cell) : (setW .B b c).wallT = c.wallT := rfl

theorem setW_wallB_B (b : Bool) (c : Cell) : (setW .B b c).wallB = b := rfl

theorem setW_wallL_B (b : Bool) (c : Cell) : (setW .B b c).wallL = c.wallL := rfl

theorem setW_wallR_B (b : Bool) (c : Cell) : (setW .B b c).wallR = c.wallR := rfl

theorem setW_wallT_L (b : Bool) (c : Cell) : (setW .L b c).wallT = c.wallT := rfl

theorem setW_wallB_L (b : Bool) (c : Cell) : (setW .L b c).wallB = c.wallB := rfl

theorem setW_wallL_L (b : Bool) (c : Cell) : (setW .L b c).wallL = b := rfl

theorem setW_wallR_L (b : Bool) (c : Cell) : (setW .L b c).wallR = c.wallR := rfl

theorem setW_wallT_R (b : Bool) (c : Cell) : (setW .R b c).wallT = c.wallT := rfl

theorem setW_wallB_R (b : Bool) (c : Cell) : (setW .R b c).wallB = c.wallB := rfl

theorem setW_wallL_R (b : Bool) (c : Cell) : (setW .R b c).wallL = c.wallL := rfl

theorem setW_wallR_R (b : Bool) (c : Cell) : (setW .R b c).wallR = b := rfl

theorem setW_logo (s : Side) (b : Bool) (c : Cell) : (setW s b c).logo = c.logo := by
  cases s <;> rfl

theorem setW_visited (s : Side) (b : Bool) (c : Cell) : (setW s b c).visited = c.visited := by
  cases s <;> rfl

theorem updateAt_eval (g : Grid) (y x : Nat) (f : Cell → Cell) (a b : Nat) :
    updateAt g y x f a b = if a = y ∧ b = x then f (g y x) else g a b := rfl

/-- A point update with a field-preserving mutation leaves that field unchanged
everywhere. -/
theorem updateAt1_field (g : Grid) (y x : Nat) (f : Cell → Cell)
    (F : Cell → Bool) (hf : ∀ c, F (f c) = F c) (a b : Nat) :
    F (updateAt g y x f a b) = F (g a b) := by
  rw [updateAt_eval]
  split_ifs with hA
  · obtain ⟨rfl, rfl⟩ := hA
    exact hf _
  · rfl

/-- Two point updates with field-preserving mutations leave that field
unchanged everywhere. -/
theorem updateAt2_field (g : Grid) (y1 x1 y2 x2 : Nat) (f1 f2 : Cell → Cell)
    (F : Cell → Bool) (h1 : ∀ c, F (f1 c) = F c) (h2 : ∀ c, F (f2 c) = F c) (a b : Nat) :
    F ((updateAt (updateAt g y1 x1 f1) y2 x2 f2) a b) = F (g a b) := by
  rw [updateAt_eval]
  split_ifs with hA
  · obtain ⟨rfl, rfl⟩ := hA
    rw [h2]
    exact updateAt1_field g y1 x1 f1 F h1 a b
  · exact updateAt1_field g y1 x1 f1 F h1 a b

/-- Point updates at distinct positions commute. -/
theorem updateAt_comm (g : Grid) (y1 x1 y2 x2 : Nat) (f1 f2 : Cell → Cell)
    (hne : ¬(y1 = y2 ∧ x1 = x2)) :
    updateAt (updateAt g y1 x1 f1) y2 x2 f2 = updateAt (updateAt g y2 x2 f2) y1 x1 f1 := by
  funext a b
  simp only [updateAt_eval]
  split_ifs <;> (try casesm* _ ∧ _) <;> subst_vars <;> first | rfl | omega

/-- Folding a predicate-preserving step preserves the predicate. -/
theorem foldl_preserve {α β : Type} (P : α → Prop) (f : α → β → α)
    (h : ∀ a b, P a → P (f a b)) : ∀ (l : List β) (a : α), P a → P (l.foldl f a) := by
  intro l
  induction l with
  | nil => intro a ha; exact ha
  | cons b t ih => intro a ha; exact ih (f a b) (h a b ha)

/-! ### C1: wall symmetry -/

/-- Wall symmetry: the flag a cell stores for the side facing a neighbour
equals the flag the neighbour stores for the facing side.  Out-of-bounds
cells of the model always keep all walls, so the property can be stated for
every pair of vertically or horizontally adjacent positions. -/
def WallSym (g : Grid) : Prop :=
  ∀ y x, (g y x).wallR = (g y (x + 1)).wallL ∧ (g y x).wallB = (g (y + 1) x).wallT

theorem wallSym_initGrid : WallSym initGrid := fun _ _ => ⟨rfl, rfl⟩

/-- Opening the vertical wall pair between `(y, x)` and `(y + 1, x)` by the
two writes the source performs keeps the grid symmetric. -/
theorem wallSym_openV (g : Grid) (hg : WallSym g) (y x : Nat) :
    WallSym (updateAt (updateAt g (y + 1) x (setW .T false)) y x (setW .B false)) := by
  intro a b
  constructor
  · rw [updateAt2_field g (y + 1) x y x (setW .T false) (setW .B false) Cell.wallR
        (fun _ => rfl) (fun _ => rfl),
      updateAt2_field g (y + 1) x y x (setW .T false) (setW .B false) Cell.wallL
        (fun _ => rfl) (fun _ => rfl)]
    exact (hg a b).1
  · simp only [updateAt_eval]
    split_ifs <;>
      (try simp only [setW_wallT_T, setW_wallB_T, setW_wallT_B, setW_wallB_B]) <;>
      (try casesm* _ ∧ _) <;>
      (try subst_vars) <;>
      first
        | rfl
        | omega
        | exact (hg _ _).2

/-- Opening the horizontal wall pair between `(y, x)` and `(y, x + 1)` by the
two writes the source performs keeps the grid symmetric. -/
theorem wallSym_openH (g : Grid) (hg : WallSym g) (y x : Nat) :
    WallSym (updateAt (updateAt g y (x + 1) (setW .L false)) y x (setW .R false)) := by
  intro a b
  constructor
  · simp only [updateAt_eval]
    split_ifs <;>
      (try simp only [setW_wallL_L, setW_wallR_L, setW_wallL_R, setW_wallR_R]) <;>
      (try casesm* _ ∧ _) <;>
      (try subst_vars) <;>
      first
        | rfl
        | omega
        | exact (hg _ _).1
  · rw [updateAt2_field g y (x + 1) y x (setW .L false) (setW .R false) Cell.wallB
        (fun _ => rfl) (fun _ => rfl),
      updateAt2_field g y (x + 1) y x (setW .L false) (setW .R false) Cell.wallT
        (fun _ => rfl) (fun _ => rfl)]
    exact (hg a b).2

end AMazeIng

namespace AMazeIng

/-- The shape of a dfs/prime neighbour choice relative to the current cell:
one step right, down, up or left.  This is a pure arithmetic relation, so it
is stable under any grid mutation. -/
def AdjShape (y x ny nx : Nat) : Prop :=
  (ny = y ∧ nx = x + 1) ∨ (ny = y + 1 ∧ nx = x) ∨
  (ny + 1 = y ∧ nx = x) ∨ (ny = y ∧ nx + 1 = x)

/-- Every choice Maze.dfs collects is one grid step away from the current
cell. -/
theorem dfsChoices_shape (m : MazeState) (y x : Nat) :
    ∀ c ∈ dfsChoices m y x, AdjShape y x c.1 c.2 := by
  intro c hc
  unfold dfsChoices at hc
  simp only [List.mem_append] at hc
  rcases hc with ((h | h) | h) | h <;>
    (split_ifs at h with hcond <;>
      simp only [List.mem_singleton, List.not_mem_nil] at h) <;>
    first
      | (subst h; have := hcond.1; simp only [AdjShape, Prod.mk.injEq]; omega)
      | (subst h; have := hcond.1; simp [AdjShape]; omega)
      | (subst h; have := hcond.1; simp [AdjShape])

end AMazeIng

namespace AMazeIng

/-- A point update that keeps all four wall flags preserves wall symmetry. -/
theorem wallSym_updateAt (g : Grid) (y x : Nat) (f : Cell → Cell)
    (hT : ∀ c, (f c).wallT = c.wallT) (hB : ∀ c, (f c).wallB = c.wallB)
    (hL : ∀ c, (f c).wallL = c.wallL) (hR : ∀ c, (f c).wallR = c.wallR)
    (hg : WallSym g) : WallSym (updateAt g y x f) := by
  intro a b
  constructor
  · rw [updateAt1_field g y x f Cell.wallR hR, updateAt1_field g y x f Cell.wallL hL]
    exact (hg a b).1
  · rw [updateAt1_field g y x f Cell.wallB hB, updateAt1_field g y x f Cell.wallT hT]
    exact (hg a b).2

theorem wallSym_generate_maze (m : MazeState) : WallSym (generate_maze m).grid :=
  wallSym_updateAt initGrid m.entry.1 m.entry.2 _
    (fun _ => rfl) (fun _ => rfl) (fun _ => rfl) (fun _ => rfl) wallSym_initGrid

theorem wallSym_declare_logo (m : MazeState) (hg : WallSym m.grid) :
    WallSym (declare_logo m).grid :=
  foldl_preserve WallSym
    (fun g (d : Pos) => updateAt g (m.height / 2 - 2 + d.1) (m.width / 2 - 3 + d.2)
      (fun c => { c with logo := true }))
    (fun g d hgg => wallSym_updateAt g _ _ _
      (fun _ => rfl) (fun _ => rfl) (fun _ => rfl) (fun _ => rfl) hgg)
    logoOffsets m.grid hg

theorem wallSym_make (h w : Nat) (e ex : Pos) (p : Bool) :
    WallSym (Maze.make h w e ex p).grid := by
  unfold Maze.make
  split
  · exact wallSym_declare_logo _ (wallSym_generate_maze _)
  · exact wallSym_generate_maze _

/-- The four conditional writes of Maze.dfs on an adjacent choice open one
symmetric pair, hence preserve wall symmetry. -/
theorem wallSym_dfsOpenWalls (g : Grid) (hg : WallSym g) (y x ny nx : Nat)
    (hs : AdjShape y x ny nx) : WallSym (dfsOpenWalls g y x ny nx) := by
  unfold dfsOpenWalls
  rcases hs with ⟨h1, h2⟩ | ⟨h1, h2⟩ | ⟨h1, h2⟩ | ⟨h1, h2⟩
  · have c1 : ¬(y < ny) := by omega
    have c2 : x < nx := by omega
    have c3 : ¬(nx < x) := by omega
    have c4 : ¬(ny < y) := by omega
    simp only [c1, c2, c3, c4, if_true, if_false, ite_true, ite_false]
    rw [h1, h2]
    exact wallSym_openH g hg y x
  · have c1 : y < ny := by omega
    have c2 : ¬(x < nx) := by omega
    have c3 : ¬(nx < x) := by omega
    have c4 : ¬(ny < y) := by omega
    simp only [c1, c2, c3, c4, if_true, if_false, ite_true, ite_false]
    rw [h1, h2]
    exact wallSym_openV g hg y x
  · have c1 : ¬(y < ny) := by omega
    have c2 : ¬(x < nx) := by omega
    have c3 : ¬(nx < x) := by omega
    have c4 : ny < y := by omega
    simp only [c1, c2, c3, c4, if_true, if_false, ite_true, ite_false]
    rw [h2, ← h1]
    rw [updateAt_comm g ny x (ny + 1) x (setW .B false) (setW .T false) (by omega)]
    exact wallSym_openV g hg ny x
  · have c1 : ¬(y < ny) := by omega
    have c2 : ¬(x < nx) := by omega
    have c3 : nx < x := by omega
    have c4 : ¬(ny < y) := by omega
    simp only [c1, c2, c3, c4, if_true, if_false, ite_true, ite_false]
    rw [h1, ← h2]
    rw [updateAt_comm g y nx y (nx + 1) (setW .R false) (setW .L false) (by omega)]
    exact wallSym_openH g hg y nx

theorem wallSym_dfsVisit (m : MazeState) (hg : WallSym m.grid) (y x ny nx : Nat)
    (hs : AdjShape y x ny nx) : WallSym (dfsVisit m y x ny nx).grid :=
  wallSym_updateAt _ ny nx _ (fun _ => rfl) (fun _ => rfl) (fun _ => rfl) (fun _ => rfl)
    (wallSym_dfsOpenWalls m.grid hg y x ny nx hs)

/-- Wall symmetry is preserved by the whole backtracker run, for any
permutation-valued shuffle oracle. -/
theorem wallSym_dfsGo (shuffle : Nat → List Pos → List Pos)
    (hsh : ∀ k l, (shuffle k l).Perm l) :
    ∀ fuel k m y x pending,
      WallSym m.grid →
      (∀ cs, pending = some cs → ∀ c ∈ cs, AdjShape y x c.1 c.2) →
      WallSym (dfsGo shuffle fuel k m y x pending).1.grid := by
  intro fuel
  induction fuel with
  | zero => intro k m y x pending hg _; exact hg
  | succ fuel ih =>
    intro k m y x pending hg hpend
    match pending with
    | none =>
      rw [dfsGo]
      split
      · exact hg
      · exact ih (k + 1) m y x (some (shuffle k (dfsChoices m y x))) hg
          (fun cs hcs2 c hc => by
            cases hcs2
            exact dfsChoices_shape m y x c ((hsh k _).mem_iff.mp hc))
    | some [] =>
      rw [dfsGo]
      exact hg
    | some (c :: rest) =>
      rw [dfsGo]
      have hshape := hpend (c :: rest) rfl c (List.mem_cons_self c rest)
      have hrest : ∀ cs, some rest = some cs → ∀ d ∈ cs, AdjShape y x d.1 d.2 :=
        fun cs hcs d hd => by
          cases hcs
          exact hpend (c :: rest) rfl d (List.mem_cons_of_mem c hd)
      split
      · exact ih k m y x (some rest) hg hrest
      · dsimp only
        split
        · exact ih _ _ y x (some rest)
            (ih k (dfsVisit m y x c.1 c.2) c.1 c.2 none
              (wallSym_dfsVisit m hg y x c.1 c.2 hshape) (by intro cs hcs; cases hcs))
            hrest
        · exact ih k (dfsVisit m y x c.1 c.2) y x (some rest)
            (wallSym_dfsVisit m hg y x c.1 c.2 hshape) hrest

/-- The connect step of Maze.prime always opens one symmetric pair (or
nothing), hence preserves wall symmetry for any selected cell. -/
theorem wallSym_primeConnect (m : MazeState) (hg : WallSym m.grid) (ny nx : Nat) :
    WallSym (primeConnect m ny nx).grid := by
  unfold primeConnect
  split_ifs with h1 h2 h3 h4
  · obtain ⟨y', rfl⟩ : ∃ y', ny = y' + 1 := ⟨ny - 1, by have := h1.1; omega⟩
    simp only [Nat.add_sub_cancel]
    exact wallSym_openV m.grid hg y' nx
  · obtain ⟨x', rfl⟩ : ∃ x', nx = x' + 1 := ⟨nx - 1, by have := h2.1; omega⟩
    simp only [Nat.add_sub_cancel]
    exact wallSym_openH m.grid hg ny x'
  · rw [updateAt_comm m.grid ny nx ny (nx + 1) _ _ (by omega)]
    exact wallSym_openH m.grid hg ny nx
  · rw [updateAt_comm m.grid ny nx (ny + 1) nx _ _ (by omega)]
    exact wallSym_openV m.grid hg ny nx
  · exact hg

theorem wallSym_markVisited (m : MazeState) (hg : WallSym m.grid) (y x : Nat) :
    WallSym (markVisited m y x).grid :=
  wallSym_updateAt m.grid y x _ (fun _ => rfl) (fun _ => rfl) (fun _ => rfl) (fun _ => rfl) hg

/-- Wall symmetry is preserved by the whole Maze.prime run, for any pick
oracle. -/
theorem wallSym_primeAux (pick : Nat → List Pos → Pos) :
    ∀ fuel k m y x f log, WallSym m.grid →
      WallSym (primeAux pick fuel k m y x f log).1.grid := by
  intro fuel
  induction fuel with
  | zero => intro k m y x f log hg; exact hg
  | succ fuel ih =>
    intro k m y x f log hg
    rw [primeAux]
    split_ifs with hcount
    · split
      · exact hg
      · exact ih _ _ _ _ _ _
          (wallSym_markVisited _ (wallSym_primeConnect m hg _ _) _ _)
    · exact hg

theorem wallSym_imperfectOpenT (m : MazeState) (hg : WallSym m.grid) (y x : Nat)
    (hy : 1 ≤ y) : WallSym (imperfectOpenT m y x).grid := by
  unfold imperfectOpenT
  split_ifs with hc
  · obtain ⟨y', rfl⟩ : ∃ y', y = y' + 1 := ⟨y - 1, by omega⟩
    simp only [Nat.add_sub_cancel]
    exact wallSym_openV m.grid hg y' x
  · exact hg

theorem wallSym_imperfectOpenL (m : MazeState) (hg : WallSym m.grid) (y x : Nat)
    (hx : 1 ≤ x) : WallSym (imperfectOpenL m y x).grid := by
  unfold imperfectOpenL
  split_ifs with hc
  · obtain ⟨x', rfl⟩ : ∃ x', x = x' + 1 := ⟨x - 1, by omega⟩
    simp only [Nat.add_sub_cancel]
    exact wallSym_openH m.grid hg y x'
  · exact hg

theorem wallSym_imperfectBody (m : MazeState) (hg : WallSym m.grid) (y x : Nat) :
    WallSym (imperfectBody m y x).grid := by
  unfold imperfectBody
  split_ifs with hc
  · exact wallSym_imperfectOpenL _
      (wallSym_imperfectOpenT m hg y x hc.2.2.2.1) y x hc.2.1
  · exact hg

theorem wallSym_make_it_imperfect (m : MazeState) (hg : WallSym m.grid) :
    WallSym (Maze.make_it_imperfect m).grid := by
  unfold Maze.make_it_imperfect
  exact foldl_preserve (fun ms => WallSym ms.grid) _
    (fun acc y hacc => foldl_preserve (fun ms => WallSym ms.grid) _
      (fun acc2 x hacc2 => wallSym_imperfectBody acc2 hacc2 y x) _ acc hacc)
    _ m hg

/-- C1: wall symmetry is an invariant.  A freshly constructed maze is
symmetric (all walls present); each single wall mutation of the generators —
a dfs carve on a chosen adjacent neighbour, a prime connect, a braid-body
opening — preserves symmetry, and so do the complete dfs, prime and braid
runs for every permutation shuffle oracle and every pick oracle. -/
theorem wall_symmetry_invariant :
    (∀ h w e ex p, WallSym (Maze.make h w e ex p).grid) ∧
    (∀ m y x ny nx, WallSym m.grid → (ny, nx) ∈ dfsChoices m y x →
      WallSym (dfsVisit m y x ny nx).grid) ∧
    (∀ m ny nx, WallSym m.grid → WallSym (primeConnect m ny nx).grid) ∧
    (∀ m y x, WallSym m.grid → WallSym (imperfectBody m y x).grid) ∧
    (∀ shuffle, (∀ k l, (shuffle k l).Perm l) → ∀ fuel k m y x, WallSym m.grid →
      WallSym (Maze.dfs shuffle fuel k m y x).1.grid) ∧
    (∀ pick fuel m y x, WallSym m.grid →
      WallSym (Maze.prime pick fuel m y x).1.grid) ∧
    (∀ m, WallSym m.grid → WallSym (Maze.make_it_imperfect m).grid) := by
  refine ⟨wallSym_make, ?_, fun m ny nx hg => wallSym_primeConnect m hg ny nx,
    fun m y x hg => wallSym_imperfectBody m hg y x, ?_, ?_, wallSym_make_it_imperfect⟩
  · intro m y x ny nx hg hmem
    exact wallSym_dfsVisit m hg y x ny nx (dfsChoices_shape m y x (ny, nx) hmem)
  · intro shuffle hsh fuel k m y x hg
    exact wallSym_dfsGo shuffle hsh fuel k m y x none hg (by intro cs hcs; cases hcs)
  · intro pick fuel m y x hg
    exact wallSym_primeAux pick fuel 0 m y x [] [] hg

/-- Concrete instance of C1: a 7×7 construction is symmetric, and remains so
after a dfs run, a prime run and the braid pass with explicit oracles. -/
theorem wall_symmetry_invariant_witness :
    (∀ k l, ((fun (_ : Nat) (l : List Pos) => l) k l).Perm l) ∧
    WallSym (Maze.make 7 7 (0, 0) (1, 1) false).grid ∧
    WallSym (Maze.dfs (fun _ l => l) 50 0 (Maze.make 7 7 (0, 0) (1, 1) false) 0 0).1.grid ∧
    WallSym (Maze.prime (fun _ l => l.headD (0, 0)) 50
      (Maze.make 7 7 (0, 0) (1, 1) false) 0 0).1.grid ∧
    WallSym (Maze.make_it_imperfect (Maze.make 7 7 (0, 0) (1, 1) false)).grid :=
  ⟨fun _ l => List.Perm.refl l,
   wall_symmetry_invariant.1 7 7 (0, 0) (1, 1) false,
   wall_symmetry_invariant.2.2.2.2.1 (fun _ l => l) (fun _ l => List.Perm.refl l) 50 0 _ 0 0
     (wall_symmetry_invariant.1 7 7 (0, 0) (1, 1) false),
   wall_symmetry_invariant.2.2.2.2.2.1 (fun _ l => l.headD (0, 0)) 50 _ 0 0
     (wall_symmetry_invariant.1 7 7 (0, 0) (1, 1) false),
   wall_symmetry_invariant.2.2.2.2.2.2 _
     (wall_symmetry_invariant.1 7 7 (0, 0) (1, 1) false)⟩

end AMazeIng

namespace AMazeIng

/-! ### C3 infrastructure: logo flags are never changed by the generators -/

theorem updateAt2_logo (g : Grid) (y1 x1 y2 x2 : Nat) (s1 s2 : Side) (b1 b2 : Bool) (a b : Nat) :
    ((updateAt (updateAt g y1 x1 (setW s1 b1)) y2 x2 (setW s2 b2)) a b).logo = (g a b).logo :=
  updateAt2_field g y1 x1 y2 x2 _ _ Cell.logo
    (fun c => setW_logo s1 b1 c) (fun c => setW_logo s2 b2 c) a b

theorem updateAt_visited_logo (g : Grid) (y x a b : Nat) :
    ((updateAt g y x (fun c => { c with visited := true })) a b).logo = (g a b).logo :=
  updateAt1_field g y x (fun c => { c with visited := true }) Cell.logo (fun _ => rfl) a b

theorem dfsOpenWalls_logo (g : Grid) (y x ny nx a b : Nat) :
    ((dfsOpenWalls g y x ny nx) a b).logo = (g a b).logo := by
  unfold dfsOpenWalls
  split_ifs <;> (try simp only [updateAt2_logo]) <;> rfl

theorem dfsVisit_logo (m : MazeState) (y x ny nx a b : Nat) :
    ((dfsVisit m y x ny nx).grid a b).logo = (m.grid a b).logo := by
  unfold dfsVisit
  rw [updateAt_visited_logo, dfsOpenWalls_logo]

theorem dfsGo_logo (shuffle : Nat → List Pos → List Pos) :
    ∀ fuel k m y x pending a b,
      ((dfsGo shuffle fuel k m y x pending).1.grid a b).logo = (m.grid a b).logo := by
  intro fuel
  induction fuel with
  | zero => intro k m y x pending a b; rfl
  | succ fuel ih =>
    intro k m y x pending a b
    match pending with
    | none =>
      rw [dfsGo]
      split
      · rfl
      · rw [ih]
    | some [] => rw [dfsGo]
    | some (c :: rest) =>
      rw [dfsGo]
      split
      · rw [ih]
      · dsimp only
        split
        · rw [ih, ih, dfsVisit_logo]
        · rw [ih, dfsVisit_logo]

theorem primeConnect_logo (m : MazeState) (ny nx a b : Nat) :
    ((primeConnect m ny nx).grid a b).logo = (m.grid a b).logo := by
  unfold primeConnect
  split_ifs <;> (try rw [updateAt2_logo]) <;> rfl

theorem markVisited_logo (m : MazeState) (y x a b : Nat) :
    ((markVisited m y x).grid a b).logo = (m.grid a b).logo :=
  updateAt_visited_logo m.grid y x a b

theorem primeAux_logo (pick : Nat → List Pos → Pos) :
    ∀ fuel k m y x f log a b,
      ((primeAux pick fuel k m y x f log).1.grid a b).logo = (m.grid a b).logo := by
  intro fuel
  induction fuel with
  | zero => intro k m y x f log a b; rfl
  | succ fuel ih =>
    intro k m y x f log a b
    rw [primeAux]
    split_ifs with hcount
    · split
      · rfl
      · rw [ih, markVisited_logo, primeConnect_logo]
    · rfl

theorem imperfectOpenT_logo (m : MazeState) (y x a b : Nat) :
    ((imperfectOpenT m y x).grid a b).logo = (m.grid a b).logo := by
  unfold imperfectOpenT
  split_ifs <;> (try rw [updateAt2_logo]) <;> rfl

theorem imperfectOpenL_logo (m : MazeState) (y x a b : Nat) :
    ((imperfectOpenL m y x).grid a b).logo = (m.grid a b).logo := by
  unfold imperfectOpenL
  split_ifs <;> (try rw [updateAt2_logo]) <;> rfl

theorem imperfectBody_logo (m : MazeState) (y x a b : Nat) :
    ((imperfectBody m y x).grid a b).logo = (m.grid a b).logo := by
  unfold imperfectBody
  split_ifs
  · rw [imperfectOpenL_logo, imperfectOpenT_logo]
  · rfl

theorem make_it_imperfect_logo (m : MazeState) (a b : Nat) :
    ((Maze.make_it_imperfect m).grid a b).logo = (m.grid a b).logo := by
  unfold Maze.make_it_imperfect
  exact foldl_preserve (fun ms => (ms.grid a b).logo = (m.grid a b).logo) _
    (fun acc y hacc => foldl_preserve (fun ms => (ms.grid a b).logo = (m.grid a b).logo) _
      (fun acc2 x hacc2 => (imperfectBody_logo acc2 y x a b).trans hacc2) _ acc hacc)
    _ m rfl

end AMazeIng

namespace AMazeIng

/-- All walls around every reserved cell are present: the cell's own four
walls, the top wall of the cell below it, the left wall of the cell right of
it, and — quantified from the lower/left neighbour so that no truncated
subtraction appears — the bottom wall of the cell above it and the right wall
of the cell left of it. -/
def LogoSealed (g : Grid) : Prop :=
  ∀ y x,
    ((g y x).logo = true →
      (g y x).wallT = true ∧ (g y x).wallB = true ∧ (g y x).wallL = true ∧ (g y x).wallR = true ∧
      (g (y + 1) x).wallT = true ∧ (g y (x + 1)).wallL = true) ∧
    ((g (y + 1) x).logo = true → (g y x).wallB = true) ∧
    ((g y (x + 1)).logo = true → (g y x).wallR = true)

/-- Opening the vertical pair between two non-logo cells never touches a wall
adjacent to a logo cell. -/
theorem logoSealed_openV (g : Grid) (hs : LogoSealed g) (y x : Nat)
    (hl : (g y x).logo = false) (hu : (g (y + 1) x).logo = false) :
    LogoSealed (updateAt (updateAt g (y + 1) x (setW .T false)) y x (setW .B false)) := by
  intro a b
  refine ⟨fun hab => ?_, fun hab => ?_, fun hab => ?_⟩ <;>
    rw [updateAt2_logo] at hab
  · obtain ⟨o1, o2, o3, o4, o5, o6⟩ := (hs a b).1 hab
    clear hs
    refine ⟨?_, ?_, ?_, ?_, ?_, ?_⟩ <;>
      simp only [updateAt_eval] <;>
      split_ifs <;>
      (try simp only [add_left_inj] at *) <;>
      (try casesm* _ ∧ _) <;>
      (try subst_vars) <;>
      (try simp only [setW_wallT_T, setW_wallB_T, setW_wallL_T, setW_wallR_T,
        setW_wallT_B, setW_wallB_B, setW_wallL_B, setW_wallR_B]) <;>
      first
        | assumption
        | omega
        | (simp only [hl] at hab; exact Bool.noConfusion hab)
        | (simp only [hu] at hab; exact Bool.noConfusion hab)
  · have o := (hs a b).2.1 hab
    clear hs
    simp only [updateAt_eval]
    split_ifs <;>
      (try simp only [add_left_inj] at *) <;>
      (try casesm* _ ∧ _) <;>
      (try subst_vars) <;>
      (try simp only [setW_wallT_T, setW_wallB_T, setW_wallT_B, setW_wallB_B]) <;>
      first
        | assumption
        | omega
        | (simp only [hl] at hab; exact Bool.noConfusion hab)
        | (simp only [hu] at hab; exact Bool.noConfusion hab)
  · have o := (hs a b).2.2 hab
    clear hs
    simp only [updateAt_eval]
    split_ifs <;>
      (try simp only [add_left_inj] at *) <;>
      (try casesm* _ ∧ _) <;>
      (try subst_vars) <;>
      (try simp only [setW_wallL_T, setW_wallR_T, setW_wallL_B, setW_wallR_B]) <;>
      first
        | assumption
        | omega
        | (simp only [hl] at hab; exact Bool.noConfusion hab)
        | (simp only [hu] at hab; exact Bool.noConfusion hab)

/-- Opening the horizontal pair between two non-logo cells never touches a
wall adjacent to a logo cell. -/
theorem logoSealed_openH (g : Grid) (hs : LogoSealed g) (y x : Nat)
    (hl : (g y x).logo = false) (hr : (g y (x + 1)).logo = false) :
    LogoSealed (updateAt (updateAt g y (x + 1) (setW .L false)) y x (setW .R false)) := by
  intro a b
  refine ⟨fun hab => ?_, fun hab => ?_, fun hab => ?_⟩ <;>
    rw [updateAt2_logo] at hab
  · obtain ⟨o1, o2, o3, o4, o5, o6⟩ := (hs a b).1 hab
    clear hs
    refine ⟨?_, ?_, ?_, ?_, ?_, ?_⟩ <;>
      simp only [updateAt_eval] <;>
      split_ifs <;>
      (try simp only [add_left_inj] at *) <;>
      (try casesm* _ ∧ _) <;>
      (try subst_vars) <;>
      (try simp only [setW_wallT_L, setW_wallB_L, setW_wallL_L, setW_wallR_L,
        setW_wallT_R, setW_wallB_R, setW_wallL_R, setW_wallR_R]) <;>
      first
        | assumption
        | omega
        | (simp only [hl] at hab; exact Bool.noConfusion hab)
        | (simp only [hr] at hab; exact Bool.noConfusion hab)
  · have o := (hs a b).2.1 hab
    clear hs
    simp only [updateAt_eval]
    split_ifs <;>
      (try simp only [add_left_inj] at *) <;>
      (try casesm* _ ∧ _) <;>
      (try subst_vars) <;>
      (try simp only [setW_wallT_L, setW_wallB_L, setW_wallT_R, setW_wallB_R]) <;>
      first
        | assumption
        | omega
        | (simp only [hl] at hab; exact Bool.noConfusion hab)
        | (simp only [hr] at hab; exact Bool.noConfusion hab)
  · have o := (hs a b).2.2 hab
    clear hs
    simp only [updateAt_eval]
    split_ifs <;>
      (try simp only [add_left_inj] at *) <;>
      (try casesm* _ ∧ _) <;>
      (try subst_vars) <;>
      (try simp only [setW_wallL_L, setW_wallR_L, setW_wallL_R, setW_wallR_R]) <;>
      first
        | assumption
        | omega
        | (simp only [hl] at hab; exact Bool.noConfusion hab)
        | (simp only [hr] at hab; exact Bool.noConfusion hab)

/-- Sealing transports along any grid transformation that keeps all wall and
logo flags pointwise. -/
theorem logoSealed_pointwise (g g' : Grid)
    (hT : ∀ a b, (g' a b).wallT = (g a b).wallT)
    (hB : ∀ a b, (g' a b).wallB = (g a b).wallB)
    (hL : ∀ a b, (g' a b).wallL = (g a b).wallL)
    (hR : ∀ a b, (g' a b).wallR = (g a b).wallR)
    (hlg : ∀ a b, (g' a b).logo = (g a b).logo)
    (hs : LogoSealed g) : LogoSealed g' := by
  intro a b
  refine ⟨fun hab => ?_, fun hab => ?_, fun hab => ?_⟩
  · rw [hlg] at hab
    obtain ⟨o1, o2, o3, o4, o5, o6⟩ := (hs a b).1 hab
    exact ⟨by rw [hT]; exact o1, by rw [hB]; exact o2, by rw [hL]; exact o3,
      by rw [hR]; exact o4, by rw [hT]; exact o5, by rw [hL]; exact o6⟩
  · rw [hlg] at hab
    rw [hB]
    exact (hs a b).2.1 hab
  · rw [hlg] at hab
    rw [hR]
    exact (hs a b).2.2 hab

theorem logoSealed_updateAt_visited (g : Grid) (y x : Nat) (hs : LogoSealed g) :
    LogoSealed (updateAt g y x (fun c => { c with visited := true })) :=
  logoSealed_pointwise g _
    (fun a b => updateAt1_field g y x (fun c => { c with visited := true })
      Cell.wallT (fun _ => rfl) a b)
    (fun a b => updateAt1_field g y x (fun c => { c with visited := true })
      Cell.wallB (fun _ => rfl) a b)
    (fun a b => updateAt1_field g y x (fun c => { c with visited := true })
      Cell.wallL (fun _ => rfl) a b)
    (fun a b => updateAt1_field g y x (fun c => { c with visited := true })
      Cell.wallR (fun _ => rfl) a b)
    (fun a b => updateAt_visited_logo g y x a b) hs

end AMazeIng

namespace AMazeIng

theorem updateAt2_visited (g : Grid) (y1 x1 y2 x2 : Nat) (s1 s2 : Side) (b1 b2 : Bool)
    (a b : Nat) :
    ((updateAt (updateAt g y1 x1 (setW s1 b1)) y2 x2 (setW s2 b2)) a b).visited =
      (g a b).visited :=
  updateAt2_field g y1 x1 y2 x2 _ _ Cell.visited
    (fun c => setW_visited s1 b1 c) (fun c => setW_visited s2 b2 c) a b

theorem primeConnect_visited (m : MazeState) (ny nx a b : Nat) :
    ((primeConnect m ny nx).grid a b).visited = (m.grid a b).visited := by
  unfold primeConnect
  split_ifs <;> (try rw [updateAt2_visited]) <;> rfl

theorem markVisited_visited_eval (m : MazeState) (y x a b : Nat) :
    ((markVisited m y x).grid a b).visited =
      if a = y ∧ b = x then true else (m.grid a b).visited := by
  unfold markVisited
  dsimp only
  rw [updateAt_eval]
  split_ifs <;> rfl

theorem dfsChoices_nonlogo (m : MazeState) (y x : Nat) :
    ∀ c ∈ dfsChoices m y x, (m.grid c.1 c.2).logo = false := by
  intro c hc
  unfold dfsChoices at hc
  simp only [List.mem_append] at hc
  rcases hc with ((h | h) | h) | h <;>
    (split_ifs at h with hcond <;>
      simp only [List.mem_singleton, List.not_mem_nil] at h) <;>
    (subst h; exact Bool.eq_false_iff.mpr hcond.2.2)

theorem logoSealed_dfsOpenWalls (g : Grid) (hs : LogoSealed g) (y x ny nx : Nat)
    (hshape : AdjShape y x ny nx)
    (hcur : (g y x).logo = false) (hnb : (g ny nx).logo = false) :
    LogoSealed (dfsOpenWalls g y x ny nx) := by
  unfold dfsOpenWalls
  rcases hshape with ⟨h1, h2⟩ | ⟨h1, h2⟩ | ⟨h1, h2⟩ | ⟨h1, h2⟩
  · have c1 : ¬(y < ny) := by omega
    have c2 : x < nx := by omega
    have c3 : ¬(nx < x) := by omega
    have c4 : ¬(ny < y) := by omega
    simp only [c1, c2, c3, c4, if_true, if_false, ite_true, ite_false]
    rw [h1, h2]
    rw [h1, h2] at hnb
    exact logoSealed_openH g hs y x hcur hnb
  · have c1 : y < ny := by omega
    have c2 : ¬(x < nx) := by omega
    have c3 : ¬(nx < x) := by omega
    have c4 : ¬(ny < y) := by omega
    simp only [c1, c2, c3, c4, if_true, if_false, ite_true, ite_false]
    rw [h1, h2]
    rw [h1, h2] at hnb
    exact logoSealed_openV g hs y x hcur hnb
  · have c1 : ¬(y < ny) := by omega
    have c2 : ¬(x < nx) := by omega
    have c3 : ¬(nx < x) := by omega
    have c4 : ny < y := by omega
    simp only [c1, c2, c3, c4, if_true, if_false, ite_true, ite_false]
    rw [h2, ← h1]
    rw [h2] at hnb
    rw [← h1] at hcur
    rw [updateAt_comm g ny x (ny + 1) x (setW .B false) (setW .T false) (by omega)]
    exact logoSealed_openV g hs ny x hnb hcur
  · have c1 : ¬(y < ny) := by omega
    have c2 : ¬(x < nx) := by omega
    have c3 : nx < x := by omega
    have c4 : ¬(ny < y) := by omega
    simp only [c1, c2, c3, c4, if_true, if_false, ite_true, ite_false]
    rw [h1, ← h2]
    rw [h1] at hnb
    rw [← h2] at hcur
    rw [updateAt_comm g y nx y (nx + 1) (setW .R false) (setW .L false) (by omega)]
    exact logoSealed_openH g hs y nx hnb hcur

theorem logoSealed_dfsVisit (m : MazeState) (hs : LogoSealed m.grid) (y x ny nx : Nat)
    (hshape : AdjShape y x ny nx)
    (hcur : (m.grid y x).logo = false) (hnb : (m.grid ny nx).logo = false) :
    LogoSealed (dfsVisit m y x ny nx).grid :=
  logoSealed_updateAt_visited _ ny nx
    (logoSealed_dfsOpenWalls m.grid hs y x ny nx hshape hcur hnb)

/-- All walls adjacent to logo cells stay intact through a dfs run whose
start cell is not a logo cell. -/
theorem logoSealed_dfsGo (shuffle : Nat → List Pos → List Pos)
    (hsh : ∀ k l, (shuffle k l).Perm l) :
    ∀ fuel k m y x pending,
      LogoSealed m.grid → (m.grid y x).logo = false →
      (∀ cs, pending = some cs → ∀ c ∈ cs,
        AdjShape y x c.1 c.2 ∧ (m.grid c.1 c.2).logo = false) →
      LogoSealed (dfsGo shuffle fuel k m y x pending).1.grid := by
  intro fuel
  induction fuel with
  | zero => intro k m y x pending hs _ _; exact hs
  | succ fuel ih =>
    intro k m y x pending hs hcur hpend
    match pending with
    | none =>
      rw [dfsGo]
      split
      · exact hs
      · exact ih (k + 1) m y x _ hs hcur
          (fun cs hcs2 c hc => by
            cases hcs2
            have hmem := (hsh k _).mem_iff.mp hc
            exact ⟨dfsChoices_shape m y x c hmem, dfsChoices_nonlogo m y x c hmem⟩)
    | some [] =>
      rw [dfsGo]
      exact hs
    | some (c :: rest) =>
      rw [dfsGo]
      have hc := hpend (c :: rest) rfl c (List.mem_cons_self c rest)
      have hrest : ∀ cs, some rest = some cs → ∀ d ∈ cs,
          AdjShape y x d.1 d.2 ∧ (m.grid d.1 d.2).logo = false :=
        fun cs hcs d hd => by
          cases hcs
          exact hpend (c :: rest) rfl d (List.mem_cons_of_mem c hd)
      split
      · exact ih k m y x (some rest) hs hcur hrest
      · dsimp only
        split
        · refine ih _ _ y x (some rest) ?_ ?_ ?_
          · exact ih k (dfsVisit m y x c.1 c.2) c.1 c.2 none
              (logoSealed_dfsVisit m hs y x c.1 c.2 hc.1 hcur hc.2)
              (by rw [dfsVisit_logo]; exact hc.2)
              (by intro cs hcs; cases hcs)
          · rw [dfsGo_logo, dfsVisit_logo]; exact hcur
          · intro cs hcs d hd
            cases hcs
            refine ⟨(hrest rest rfl d hd).1, ?_⟩
            rw [dfsGo_logo, dfsVisit_logo]
            exact (hrest rest rfl d hd).2
        · refine ih k (dfsVisit m y x c.1 c.2) y x (some rest) ?_ ?_ ?_
          · exact logoSealed_dfsVisit m hs y x c.1 c.2 hc.1 hcur hc.2
          · rw [dfsVisit_logo]; exact hcur
          · intro cs hcs d hd
            cases hcs
            refine ⟨(hrest rest rfl d hd).1, ?_⟩
            rw [dfsVisit_logo]
            exact (hrest rest rfl d hd).2

end AMazeIng

namespace AMazeIng

/-- No visited cell is a logo cell — the prime invariant seeded by a
non-reserved entry. -/
def VisitedNonLogo (m : MazeState) : Prop :=
  ∀ a b, (m.grid a b).visited = true → (m.grid a b).logo = false

theorem visitedNonLogo_primeStep (m : MazeState) (h : VisitedNonLogo m) (ny nx : Nat)
    (hsel : (m.grid ny nx).logo = false) :
    VisitedNonLogo (markVisited (primeConnect m ny nx) ny nx) := by
  intro a b hab
  rw [markVisited_logo, primeConnect_logo]
  rw [markVisited_visited_eval] at hab
  split_ifs at hab with hh
  · obtain ⟨rfl, rfl⟩ := hh
    exact hsel
  · rw [primeConnect_visited] at hab
    exact h a b hab

theorem logoSealed_primeStep (m : MazeState) (hs : LogoSealed m.grid)
    (hv : VisitedNonLogo m) (ny nx : Nat) (hsel : (m.grid ny nx).logo = false) :
    LogoSealed (markVisited (primeConnect m ny nx) ny nx).grid := by
  apply logoSealed_updateAt_visited
  unfold primeConnect
  split_ifs with h1 h2 h3 h4
  · obtain ⟨y', rfl⟩ : ∃ y', ny = y' + 1 := ⟨ny - 1, by have := h1.1; omega⟩
    simp only [Nat.add_sub_cancel] at h1 ⊢
    exact logoSealed_openV m.grid hs y' nx (hv _ _ h1.2) hsel
  · obtain ⟨x', rfl⟩ : ∃ x', nx = x' + 1 := ⟨nx - 1, by have := h2.1; omega⟩
    simp only [Nat.add_sub_cancel] at h2 ⊢
    exact logoSealed_openH m.grid hs ny x' (hv _ _ h2.2) hsel
  · rw [updateAt_comm m.grid ny nx ny (nx + 1) _ _ (by omega)]
    exact logoSealed_openH m.grid hs ny nx hsel (hv _ _ h3.2)
  · rw [updateAt_comm m.grid ny nx (ny + 1) nx _ _ (by omega)]
    exact logoSealed_openV m.grid hs ny nx hsel (hv _ _ h4.2)
  · exact hs

theorem insertPos_mem_iff (l : List Pos) (p c : Pos) :
    c ∈ insertPos l p ↔ c ∈ l ∨ c = p := by
  unfold insertPos
  split_ifs with h
  · constructor
    · exact fun hc => Or.inl hc
    · rintro (hc | rfl)
      · exact hc
      · exact h
  · simp [List.mem_append]

theorem mem_cond_insert (cond : Prop) [Decidable cond] (f : List Pos) (p c : Pos)
    (hc : c ∈ (if cond then insertPos f p else f)) :
    c ∈ f ∨ (cond ∧ c = p) := by
  split_ifs at hc with h
  · rcases (insertPos_mem_iff f p c).mp hc with h' | rfl
    · exact Or.inl h'
    · exact Or.inr ⟨h, rfl⟩
  · exact Or.inl hc

/-- Everything the prime loop adds to the frontier is a specific one-step
neighbour of the current cell satisfying the corresponding bounds guard,
unvisited, and not a logo cell. -/
theorem primeAdds_sub (m : MazeState) (y x : Nat) (f : List Pos) :
    ∀ c ∈ primeAdds m y x f,
      c ∈ f ∨ ((m.grid c.1 c.2).logo = false ∧ (m.grid c.1 c.2).visited = false ∧
        ((c = (y, x + 1) ∧ x + 1 < m.width) ∨ (c = (y + 1, x) ∧ y + 1 < m.height) ∨
         (c = (y - 1, x) ∧ 1 ≤ y) ∨ (c = (y, x - 1) ∧ 1 ≤ x))) := by
  intro c hc
  unfold primeAdds at hc
  rcases mem_cond_insert _ _ _ _ hc with hc | ⟨h4, rfl⟩
  · rcases mem_cond_insert _ _ _ _ hc with hc | ⟨h3, rfl⟩
    · rcases mem_cond_insert _ _ _ _ hc with hc | ⟨h2, rfl⟩
      · rcases mem_cond_insert _ _ _ _ hc with hc | ⟨h1, rfl⟩
        · exact Or.inl hc
        · exact Or.inr ⟨Bool.eq_false_iff.mpr h1.2.2, Bool.eq_false_iff.mpr h1.2.1,
            Or.inl ⟨rfl, h1.1⟩⟩
      · exact Or.inr ⟨Bool.eq_false_iff.mpr h2.2.2, Bool.eq_false_iff.mpr h2.2.1,
          Or.inr (Or.inl ⟨rfl, h2.1⟩)⟩
    · exact Or.inr ⟨Bool.eq_false_iff.mpr h3.2.2, Bool.eq_false_iff.mpr h3.2.1,
        Or.inr (Or.inr (Or.inl ⟨rfl, h3.1⟩))⟩
  · exact Or.inr ⟨Bool.eq_false_iff.mpr h4.2.2, Bool.eq_false_iff.mpr h4.2.1,
      Or.inr (Or.inr (Or.inr ⟨rfl, h4.1⟩))⟩

/-- All walls adjacent to logo cells stay intact through a prime run in which
every visited cell and every frontier cell is non-logo. -/
theorem logoSealed_primeAux (pick : Nat → List Pos → Pos)
    (hpick : ∀ k l, l ≠ [] → pick k l ∈ l) :
    ∀ fuel k m y x f log,
      LogoSealed m.grid → VisitedNonLogo m →
      (∀ c ∈ f, (m.grid c.1 c.2).logo = false) →
      LogoSealed (primeAux pick fuel k m y x f log).1.grid := by
  intro fuel
  induction fuel with
  | zero => intro k m y x f log hs _ _; exact hs
  | succ fuel ih =>
    intro k m y x f log hs hv hf
    rw [primeAux]
    split_ifs with hcount
    · have hadds : ∀ c ∈ primeAdds m y x f, (m.grid c.1 c.2).logo = false := by
        intro c hc
        rcases primeAdds_sub m y x f c hc with hin | ⟨hlg, _, _⟩
        · exact hf c hin
        · exact hlg
      split
      · exact hs
      · rename_i p f1 heq
        have hsel : pick k (p :: f1) ∈ p :: f1 := hpick k _ (List.cons_ne_nil p f1)
        have hsellogo : (m.grid (pick k (p :: f1)).1 (pick k (p :: f1)).2).logo = false := by
          have := hadds (pick k (p :: f1)) (heq ▸ hsel)
          exact this
        refine ih _ _ _ _ _ _ ?_ ?_ ?_
        · exact logoSealed_primeStep m hs hv _ _ hsellogo
        · exact visitedNonLogo_primeStep m hv _ _ hsellogo
        · intro c hc
          rw [markVisited_logo, primeConnect_logo]
          exact hadds c (heq ▸ List.mem_of_mem_erase hc)
    · exact hs

theorem logoSealed_imperfectOpenT (m : MazeState) (hs : LogoSealed m.grid) (y x : Nat)
    (hy : 1 ≤ y) (hcur : (m.grid y x).logo = false)
    (hup : (m.grid (y - 1) x).logo = false) :
    LogoSealed (imperfectOpenT m y x).grid := by
  unfold imperfectOpenT
  split_ifs with hc
  · obtain ⟨y', rfl⟩ : ∃ y', y = y' + 1 := ⟨y - 1, by omega⟩
    simp only [Nat.add_sub_cancel] at hup ⊢
    exact logoSealed_openV m.grid hs y' x hup hcur
  · exact hs

theorem logoSealed_imperfectOpenL (m : MazeState) (hs : LogoSealed m.grid) (y x : Nat)
    (hx : 1 ≤ x) (hcur : (m.grid y x).logo = false)
    (hleft : (m.grid y (x - 1)).logo = false) :
    LogoSealed (imperfectOpenL m y x).grid := by
  unfold imperfectOpenL
  split_ifs with hc
  · obtain ⟨x', rfl⟩ : ∃ x', x = x' + 1 := ⟨x - 1, by omega⟩
    simp only [Nat.add_sub_cancel] at hleft ⊢
    exact logoSealed_openH m.grid hs y x' hleft hcur
  · exact hs

theorem logoSealed_imperfectBody (m : MazeState) (hs : LogoSealed m.grid) (y x : Nat) :
    LogoSealed (imperfectBody m y x).grid := by
  unfold imperfectBody
  split_ifs with hc
  · refine logoSealed_imperfectOpenL _ ?_ y x hc.2.1 ?_ ?_
    · exact logoSealed_imperfectOpenT m hs y x hc.2.2.2.1
        (Bool.eq_false_iff.mpr hc.2.2.2.2.1) (Bool.eq_false_iff.mpr hc.2.2.2.2.2.2.2.2)
    · rw [imperfectOpenT_logo]
      exact Bool.eq_false_iff.mpr hc.2.2.2.2.1
    · rw [imperfectOpenT_logo]
      exact Bool.eq_false_iff.mpr hc.2.2.2.2.2.2.1
  · exact hs

theorem logoSealed_make_it_imperfect (m : MazeState) (hs : LogoSealed m.grid) :
    LogoSealed (Maze.make_it_imperfect m).grid := by
  unfold Maze.make_it_imperfect
  exact foldl_preserve (fun ms => LogoSealed ms.grid) _
    (fun acc y hacc => foldl_preserve (fun ms => LogoSealed ms.grid) _
      (fun acc2 x hacc2 => logoSealed_imperfectBody acc2 hacc2 y x) _ acc hacc)
    _ m hs

end AMazeIng

namespace AMazeIng

theorem generate_maze_walls (m : MazeState) (a b : Nat) :
    ((generate_maze m).grid a b).wallT = true ∧ ((generate_maze m).grid a b).wallB = true ∧
    ((generate_maze m).grid a b).wallL = true ∧ ((generate_maze m).grid a b).wallR = true := by
  unfold generate_maze
  dsimp only
  rw [updateAt_eval]
  split_ifs <;> exact ⟨rfl, rfl, rfl, rfl⟩

theorem declare_logo_cell (m : MazeState) (a b : Nat) :
    ((declare_logo m).grid a b).wallT = (m.grid a b).wallT ∧
    ((declare_logo m).grid a b).wallB = (m.grid a b).wallB ∧
    ((declare_logo m).grid a b).wallL = (m.grid a b).wallL ∧
    ((declare_logo m).grid a b).wallR = (m.grid a b).wallR ∧
    ((declare_logo m).grid a b).visited = (m.grid a b).visited := by
  unfold declare_logo
  exact foldl_preserve
    (fun g : Grid => (g a b).wallT = (m.grid a b).wallT ∧ (g a b).wallB = (m.grid a b).wallB ∧
      (g a b).wallL = (m.grid a b).wallL ∧ (g a b).wallR = (m.grid a b).wallR ∧
      (g a b).visited = (m.grid a b).visited)
    (fun g (d : Pos) => updateAt g (m.height / 2 - 2 + d.1) (m.width / 2 - 3 + d.2)
      (fun c => { c with logo := true }))
    (fun g d hg => by
      obtain ⟨p1, p2, p3, p4, p5⟩ := hg
      refine ⟨?_, ?_, ?_, ?_, ?_⟩
      · rw [updateAt1_field g _ _ (fun c => { c with logo := true }) Cell.wallT
          (fun _ => rfl) a b]
        exact p1
      · rw [updateAt1_field g _ _ (fun c => { c with logo := true }) Cell.wallB
          (fun _ => rfl) a b]
        exact p2
      · rw [updateAt1_field g _ _ (fun c => { c with logo := true }) Cell.wallL
          (fun _ => rfl) a b]
        exact p3
      · rw [updateAt1_field g _ _ (fun c => { c with logo := true }) Cell.wallR
          (fun _ => rfl) a b]
        exact p4
      · rw [updateAt1_field g _ _ (fun c => { c with logo := true }) Cell.visited
          (fun _ => rfl) a b]
        exact p5)
    logoOffsets m.grid ⟨rfl, rfl, rfl, rfl, rfl⟩

theorem make_walls (h w : Nat) (e ex : Pos) (p : Bool) (a b : Nat) :
    ((Maze.make h w e ex p).grid a b).wallT = true ∧
    ((Maze.make h w e ex p).grid a b).wallB = true ∧
    ((Maze.make h w e ex p).grid a b).wallL = true ∧
    ((Maze.make h w e ex p).grid a b).wallR = true := by
  unfold Maze.make
  split
  · obtain ⟨d1, d2, d3, d4, _⟩ := declare_logo_cell (generate_maze
      { width := w, height := h, entry := e, exitPos := ex, perfect := p,
        grid := initGrid, visitedCount := 0 }) a b
    obtain ⟨g1, g2, g3, g4⟩ := generate_maze_walls
      { width := w, height := h, entry := e, exitPos := ex, perfect := p,
        grid := initGrid, visitedCount := 0 } a b
    exact ⟨d1.trans g1, d2.trans g2, d3.trans g3, d4.trans g4⟩
  · exact generate_maze_walls _ a b

theorem logoSealed_make (h w : Nat) (e ex : Pos) (p : Bool) :
    LogoSealed (Maze.make h w e ex p).grid := fun y x => by
  obtain ⟨t1, t2, t3, t4⟩ := make_walls h w e ex p y x
  obtain ⟨b1, _, _, _⟩ := make_walls h w e ex p (y + 1) x
  obtain ⟨_, _, l3, _⟩ := make_walls h w e ex p y (x + 1)
  exact ⟨fun _ => ⟨t1, t2, t3, t4, b1, l3⟩, fun _ => t2, fun _ => t4⟩

theorem generate_maze_visited (m : MazeState) (a b : Nat) :
    ((generate_maze m).grid a b).visited = true ↔ (a = m.entry.1 ∧ b = m.entry.2) := by
  unfold generate_maze
  dsimp only
  rw [updateAt_eval]
  split_ifs with hh
  · simp [hh]
  · simp [initGrid, hh]

theorem make_visited (h w : Nat) (e ex : Pos) (p : Bool) (a b : Nat) :
    ((Maze.make h w e ex p).grid a b).visited = true ↔ (a = e.1 ∧ b = e.2) := by
  unfold Maze.make
  split
  · rw [(declare_logo_cell _ a b).2.2.2.2]
    exact generate_maze_visited _ a b
  · exact generate_maze_visited _ a b

set_option maxHeartbeats 4000000 in
/-- C3 counterexample: a 7×7 maze built with its entry on a logo cell.  The
entry `(1, 0)` of the constructed maze is reserved, yet after running
Maze.dfs from it (identity shuffle), the right wall of that logo cell is
open: generation did open a wall adjacent to a reserved cell, and the cell
no longer has all four walls. -/
theorem dfs_opens_wall_of_logo_cell :
    ((Maze.make 7 7 (1, 0) (0, 0) true).grid 1 0).logo = true ∧
    ((Maze.dfs (fun _ l => l) 300 0 (Maze.make 7 7 (1, 0) (0, 0) true) 1 0).1.grid 1 0).logo
      = true ∧
    ((Maze.dfs (fun _ l => l) 300 0 (Maze.make 7 7 (1, 0) (0, 0) true) 1 0).1.grid 1 0).wallR
      = false :=
  ⟨by decide, by decide, by decide⟩

/-- C3 (amended): reserved cells are generation-inert provided generation
does not start on a reserved cell.  Construction seals every logo cell
(all four of its walls and all facing neighbour walls present); a dfs run
started on a non-logo cell, a prime run whose visited region contains no
logo cell (true right after construction with a non-reserved entry), and the
braid pass all preserve that sealing. -/
theorem reserved_cells_generation_inert :
    (∀ h w e ex p, LogoSealed (Maze.make h w e ex p).grid) ∧
    (∀ shuffle, (∀ k (l : List Pos), (shuffle k l).Perm l) →
      ∀ fuel k m y x, LogoSealed m.grid → (m.grid y x).logo = false →
        LogoSealed (Maze.dfs shuffle fuel k m y x).1.grid) ∧
    (∀ pick, (∀ k (l : List Pos), l ≠ [] → pick k l ∈ l) →
      ∀ fuel m y x, LogoSealed m.grid → VisitedNonLogo m →
        LogoSealed (Maze.prime pick fuel m y x).1.grid) ∧
    (∀ m, LogoSealed m.grid → LogoSealed (Maze.make_it_imperfect m).grid) := by
  refine ⟨logoSealed_make, ?_, ?_, logoSealed_make_it_imperfect⟩
  · intro shuffle hsh fuel k m y x hs hcur
    exact logoSealed_dfsGo shuffle hsh fuel k m y x none hs hcur
      (by intro cs hcs; cases hcs)
  · intro pick hpick fuel m y x hs hv
    exact logoSealed_primeAux pick hpick fuel 0 m y x [] [] hs hv
      (by intro c hc; cases hc)

/-- Concrete instance of C3 (amended) on a 7×7 maze with non-reserved entry. -/
theorem reserved_cells_generation_inert_witness :
    ((Maze.make 7 7 (0, 0) (1, 1) true).grid 0 0).logo = false ∧
    LogoSealed (Maze.dfs (fun _ l => l) 50 0 (Maze.make 7 7 (0, 0) (1, 1) true) 0 0).1.grid ∧
    LogoSealed (Maze.prime (fun _ l => l.headD (0, 0)) 50
      (Maze.make 7 7 (0, 0) (1, 1) true) 0 0).1.grid ∧
    LogoSealed (Maze.make_it_imperfect (Maze.make 7 7 (0, 0) (1, 1) true)).grid :=
  ⟨by decide,
   reserved_cells_generation_inert.2.1 (fun _ l => l) (fun _ l => List.Perm.refl l) 50 0 _ 0 0
     (reserved_cells_generation_inert.1 7 7 (0, 0) (1, 1) true) (by decide),
   reserved_cells_generation_inert.2.2.1 (fun _ l => l.headD (0, 0))
     (fun k l hl => by
       cases l with
       | nil => exact absurd rfl hl
       | cons a t => exact List.mem_cons_self a t)
     50 _ 0 0
     (reserved_cells_generation_inert.1 7 7 (0, 0) (1, 1) true)
     (fun a b hab => by
       obtain ⟨rfl, rfl⟩ := (make_visited 7 7 (0, 0) (1, 1) true a b).mp hab
       decide),
   reserved_cells_generation_inert.2.2.2 _
     (reserved_cells_generation_inert.1 7 7 (0, 0) (1, 1) true)⟩

end AMazeIng

namespace AMazeIng

/-! ### C6: prime connects each selection to exactly one visited neighbour -/

/-- The spec's tie-break order: the first already-visited neighbour of
`(ny, nx)` in the fixed precedence top, left, right, bottom, with the same
bounds guards the source uses. -/
def firstVisitedNbr (m : MazeState) (ny nx : Nat) : Option Side :=
  if 1 ≤ ny ∧ (m.grid (ny - 1) nx).visited then some .T
  else if 1 ≤ nx ∧ (m.grid ny (nx - 1)).visited then some .L
  else if nx + 1 < m.width ∧ (m.grid ny (nx + 1)).visited then some .R
  else if ny + 1 < m.height ∧ (m.grid (ny + 1) nx).visited then some .B
  else none

/-- The wall-pair opening toward a given side, written with the same double
write the source performs. -/
def openPair (m : MazeState) (ny nx : Nat) : Side → MazeState
  | .T => { m with grid := updateAt (updateAt m.grid ny nx (setW .T false)) (ny - 1) nx (setW .B false) }
  | .L => { m with grid := updateAt (updateAt m.grid ny nx (setW .L false)) ny (nx - 1) (setW .R false) }
  | .R => { m with grid := updateAt (updateAt m.grid ny nx (setW .R false)) ny (nx + 1) (setW .L false) }
  | .B => { m with grid := updateAt (updateAt m.grid ny nx (setW .B false)) (ny + 1) nx (setW .T false) }

/-- The matching side stored by the connected neighbour. -/
def oppositeSide : Side → Side
  | .T => .B
  | .B => .T
  | .L => .R
  | .R => .L

/-- The grid position of the neighbour a selection is connected to. -/
def nbrPos (ny nx : Nat) : Side → Pos
  | .T => (ny - 1, nx)
  | .L => (ny, nx - 1)
  | .R => (ny, nx + 1)
  | .B => (ny + 1, nx)

/-- The selected cell `(ny, nx)` has at least one already-visited neighbour
(with the source's bounds guards). -/
def HasVisitedNbr (m : MazeState) (ny nx : Nat) : Prop :=
  (1 ≤ ny ∧ (m.grid (ny - 1) nx).visited = true) ∨
  (1 ≤ nx ∧ (m.grid ny (nx - 1)).visited = true) ∨
  (nx + 1 < m.width ∧ (m.grid ny (nx + 1)).visited = true) ∨
  (ny + 1 < m.height ∧ (m.grid (ny + 1) nx).visited = true)

theorem primeConnect_eq_firstVisitedNbr (m : MazeState) (ny nx : Nat) :
    primeConnect m ny nx =
      match firstVisitedNbr m ny nx with
      | some s => openPair m ny nx s
      | none => m := by
  unfold primeConnect firstVisitedNbr
  split_ifs <;> rfl

theorem firstVisitedNbr_isSome_iff (m : MazeState) (ny nx : Nat) :
    (∃ s, firstVisitedNbr m ny nx = some s) ↔ HasVisitedNbr m ny nx := by
  unfold firstVisitedNbr HasVisitedNbr
  split_ifs with h1 h2 h3 h4 <;>
    constructor
  · exact fun _ => Or.inl h1
  · exact fun _ => ⟨.T, rfl⟩
  · exact fun _ => Or.inr (Or.inl h2)
  · exact fun _ => ⟨.L, rfl⟩
  · exact fun _ => Or.inr (Or.inr (Or.inl h3))
  · exact fun _ => ⟨.R, rfl⟩
  · exact fun _ => Or.inr (Or.inr (Or.inr h4))
  · exact fun _ => ⟨.B, rfl⟩
  · rintro ⟨s, hs⟩
    exact hs.elim
  · rintro (h | h | h | h) <;> tauto

/-- When the precedence rule selects a side, the connect step changes exactly
the two flags of that shared wall pair: the selected cell loses just the wall
toward its neighbour, the neighbour loses just the facing wall, the two cells
are distinct, and every other cell is untouched. -/
theorem primeConnect_frame (m : MazeState) (ny nx : Nat) (s : Side)
    (hf : firstVisitedNbr m ny nx = some s) :
    (ny, nx) ≠ nbrPos ny nx s ∧
    (primeConnect m ny nx).grid ny nx = setW s false (m.grid ny nx) ∧
    (primeConnect m ny nx).grid (nbrPos ny nx s).1 (nbrPos ny nx s).2 =
      setW (oppositeSide s) false (m.grid (nbrPos ny nx s).1 (nbrPos ny nx s).2) ∧
    (∀ a b, ¬(a = ny ∧ b = nx) → ¬((a, b) = nbrPos ny nx s) →
      (primeConnect m ny nx).grid a b = m.grid a b) := by
  rw [primeConnect_eq_firstVisitedNbr m ny nx, hf]
  cases s
  case T =>
    have hb : 1 ≤ ny := by
      unfold firstVisitedNbr at hf
      split_ifs at hf with h1 h2 h3 h4
      · exact h1.1
      all_goals simp_all
    have hne1 : ¬(ny = ny - 1) := by omega
    have hne2 : ¬(ny - 1 = ny) := by omega
    simp only [openPair, nbrPos, oppositeSide]
    refine ⟨fun hco => hne1 (congrArg Prod.fst hco), ?_, ?_, ?_⟩
    · dsimp only
      simp [updateAt_eval, hne1]
    · dsimp only
      simp [updateAt_eval, hne2]
    · intro a b hab hnbr
      simp only [not_and, Prod.mk.injEq, not_and] at hab hnbr
      simp only [updateAt_eval]
      split_ifs <;>
        (try casesm* _ ∧ _) <;>
        (try subst_vars) <;>
        first
          | rfl
          | exact absurd rfl (hab rfl)
          | exact absurd rfl (hnbr rfl)
  case L =>
    have hb : 1 ≤ nx := by
      unfold firstVisitedNbr at hf
      split_ifs at hf with h1 h2 h3 h4
      · simp_all
      · exact h2.1
      all_goals simp_all
    have hne1 : ¬(nx = nx - 1) := by omega
    have hne2 : ¬(nx - 1 = nx) := by omega
    simp only [openPair, nbrPos, oppositeSide]
    refine ⟨fun hco => hne1 (congrArg Prod.snd hco), ?_, ?_, ?_⟩
    · dsimp only
      simp [updateAt_eval, hne1]
    · dsimp only
      simp [updateAt_eval, hne2]
    · intro a b hab hnbr
      simp only [not_and, Prod.mk.injEq, not_and] at hab hnbr
      simp only [updateAt_eval]
      split_ifs <;>
        (try casesm* _ ∧ _) <;>
        (try subst_vars) <;>
        first
          | rfl
          | exact absurd rfl (hab rfl)
          | exact absurd rfl (hnbr rfl)
  case R =>
    have hne1 : ¬(nx = nx + 1) := by omega
    have hne2 : ¬(nx + 1 = nx) := by omega
    simp only [openPair, nbrPos, oppositeSide]
    refine ⟨fun hco => hne1 (congrArg Prod.snd hco), ?_, ?_, ?_⟩
    · dsimp only
      simp [updateAt_eval, hne1]
    · dsimp only
      simp [updateAt_eval, hne2]
    · intro a b hab hnbr
      simp only [not_and, Prod.mk.injEq, not_and] at hab hnbr
      simp only [updateAt_eval]
      split_ifs <;>
        (try casesm* _ ∧ _) <;>
        (try subst_vars) <;>
        first
          | rfl
          | exact absurd rfl (hab rfl)
          | exact absurd rfl (hnbr rfl)
  case B =>
    have hne1 : ¬(ny = ny + 1) := by omega
    have hne2 : ¬(ny + 1 = ny) := by omega
    simp only [openPair, nbrPos, oppositeSide]
    refine ⟨fun hco => hne1 (congrArg Prod.fst hco), ?_, ?_, ?_⟩
    · dsimp only
      simp [updateAt_eval, hne1]
    · dsimp only
      simp [updateAt_eval, hne2]
    · intro a b hab hnbr
      simp only [not_and, Prod.mk.injEq, not_and] at hab hnbr
      simp only [updateAt_eval]
      split_ifs <;>
        (try casesm* _ ∧ _) <;>
        (try subst_vars) <;>
        first
          | rfl
          | exact absurd rfl (hab rfl)
          | exact absurd rfl (hnbr rfl)

end AMazeIng

namespace AMazeIng

theorem primeConnect_width (m : MazeState) (ny nx : Nat) :
    (primeConnect m ny nx).width = m.width := by
  unfold primeConnect
  split_ifs <;> rfl

theorem primeConnect_height (m : MazeState) (ny nx : Nat) :
    (primeConnect m ny nx).height = m.height := by
  unfold primeConnect
  split_ifs <;> rfl

theorem markVisited_width (m : MazeState) (y x : Nat) :
    (markVisited m y x).width = m.width := rfl

theorem markVisited_height (m : MazeState) (y x : Nat) :
    (markVisited m y x).height = m.height := rfl

theorem primeStep_visited_mono (m : MazeState) (s1 s2 a b : Nat)
    (h : (m.grid a b).visited = true) :
    ((markVisited (primeConnect m s1 s2) s1 s2).grid a b).visited = true := by
  rw [markVisited_visited_eval]
  split_ifs with hh
  · rfl
  · rw [primeConnect_visited]
    exact h

theorem hasVisitedNbr_primeStep (m : MazeState) (ny nx s1 s2 : Nat)
    (h : HasVisitedNbr m ny nx) :
    HasVisitedNbr (markVisited (primeConnect m s1 s2) s1 s2) ny nx := by
  unfold HasVisitedNbr at h ⊢
  rw [markVisited_width, primeConnect_width, markVisited_height, primeConnect_height]
  rcases h with ⟨h1, h2⟩ | ⟨h1, h2⟩ | ⟨h1, h2⟩ | ⟨h1, h2⟩
  · exact Or.inl ⟨h1, primeStep_visited_mono m s1 s2 _ _ h2⟩
  · exact Or.inr (Or.inl ⟨h1, primeStep_visited_mono m s1 s2 _ _ h2⟩)
  · exact Or.inr (Or.inr (Or.inl ⟨h1, primeStep_visited_mono m s1 s2 _ _ h2⟩))
  · exact Or.inr (Or.inr (Or.inr ⟨h1, primeStep_visited_mono m s1 s2 _ _ h2⟩))

/-- Run invariant of Maze.prime: started from a visited in-bounds cell, every
cell the loop ever selects from the frontier has (at the moment of selection)
at least one already-visited neighbour. -/
theorem primeAux_selections (pick : Nat → List Pos → Pos)
    (hpick : ∀ k l, l ≠ [] → pick k l ∈ l) :
    ∀ fuel k m y x f log,
      (m.grid y x).visited = true → y < m.height → x < m.width →
      (∀ c ∈ f, HasVisitedNbr m c.1 c.2 ∧ c.1 < m.height ∧ c.2 < m.width) →
      (∀ pr ∈ log, HasVisitedNbr pr.1 pr.2.1 pr.2.2) →
      ∀ pr ∈ (primeAux pick fuel k m y x f log).2, HasVisitedNbr pr.1 pr.2.1 pr.2.2 := by
  intro fuel
  induction fuel with
  | zero => intro k m y x f log _ _ _ _ hlog; exact hlog
  | succ fuel ih =>
    intro k m y x f log hvis hy hx hfr hlog
    rw [primeAux]
    split_ifs with hcount
    · have haddinv : ∀ c ∈ primeAdds m y x f,
          HasVisitedNbr m c.1 c.2 ∧ c.1 < m.height ∧ c.2 < m.width := by
        intro c hc
        rcases primeAdds_sub m y x f c hc with hin | ⟨_, _, hpos⟩
        · exact hfr c hin
        · rcases hpos with ⟨rfl, hb⟩ | ⟨rfl, hb⟩ | ⟨rfl, hb⟩ | ⟨rfl, hb⟩
          · exact ⟨Or.inr (Or.inl ⟨by omega, by simpa using hvis⟩), by simpa using hy,
              by simpa using hb⟩
          · exact ⟨Or.inl ⟨by omega, by simpa using hvis⟩, by simpa using hb,
              by simpa using hx⟩
          · refine ⟨Or.inr (Or.inr (Or.inr ⟨?_, ?_⟩)), ?_, ?_⟩
            · show y - 1 + 1 < m.height
              omega
            · show (m.grid (y - 1 + 1) x).visited = true
              have he : y - 1 + 1 = y := by omega
              rw [he]
              exact hvis
            · show y - 1 < m.height
              omega
            · simpa using hx
          · refine ⟨Or.inr (Or.inr (Or.inl ⟨?_, ?_⟩)), ?_, ?_⟩
            · show x - 1 + 1 < m.width
              omega
            · show (m.grid y (x - 1 + 1)).visited = true
              have he : x - 1 + 1 = x := by omega
              rw [he]
              exact hvis
            · simpa using hy
            · show x - 1 < m.width
              omega
      split
      · exact hlog
      · rename_i p f1 heq
        have hsel : pick k (p :: f1) ∈ p :: f1 := hpick k _ (List.cons_ne_nil p f1)
        have hselinv := haddinv (pick k (p :: f1)) (heq ▸ hsel)
        refine ih _ _ _ _ _ _ ?_ ?_ ?_ ?_ ?_
        · rw [markVisited_visited_eval]
          simp
        · rw [markVisited_height, primeConnect_height]
          exact hselinv.2.1
        · rw [markVisited_width, primeConnect_width]
          exact hselinv.2.2
        · intro c hc
          have hcmem : c ∈ primeAdds m y x f := heq ▸ List.mem_of_mem_erase hc
          refine ⟨hasVisitedNbr_primeStep m c.1 c.2 _ _ (haddinv c hcmem).1, ?_, ?_⟩
          · rw [markVisited_height, primeConnect_height]
            exact (haddinv c hcmem).2.1
          · rw [markVisited_width, primeConnect_width]
            exact (haddinv c hcmem).2.2
        · intro pr hpr
          rcases List.mem_append.mp hpr with hpr | hpr
          · exact hlog pr hpr
          · rcases List.mem_singleton.mp hpr with rfl
            exact hselinv.1
    · exact hlog

end AMazeIng

namespace AMazeIng

/-- C6: the connect step of Maze.prime is exactly the precedence rule "first
already-visited neighbour in the order top, left, right, bottom": the if/elif
chain equals connecting toward `firstVisitedNbr`; a side is selected exactly
when some visited neighbour exists; when a side is selected, precisely the
two flags of that one shared wall pair change and every other cell is
untouched; and during any Maze.prime run started from a visited in-bounds
cell, every selected frontier cell does have a visited neighbour at selection
time, so each selection is connected to exactly one already-visited
neighbour. -/
theorem prime_connects_exactly_one :
    (∀ m ny nx, primeConnect m ny nx =
      match firstVisitedNbr m ny nx with
      | some s => openPair m ny nx s
      | none => m) ∧
    (∀ m ny nx, (∃ s, firstVisitedNbr m ny nx = some s) ↔ HasVisitedNbr m ny nx) ∧
    (∀ m ny nx s, firstVisitedNbr m ny nx = some s →
      (ny, nx) ≠ nbrPos ny nx s ∧
      (primeConnect m ny nx).grid ny nx = setW s false (m.grid ny nx) ∧
      (primeConnect m ny nx).grid (nbrPos ny nx s).1 (nbrPos ny nx s).2 =
        setW (oppositeSide s) false (m.grid (nbrPos ny nx s).1 (nbrPos ny nx s).2) ∧
      (∀ a b, ¬(a = ny ∧ b = nx) → ¬((a, b) = nbrPos ny nx s) →
        (primeConnect m ny nx).grid a b = m.grid a b)) ∧
    (∀ pick, (∀ k (l : List Pos), l ≠ [] → pick k l ∈ l) →
      ∀ fuel m y x, (m.grid y x).visited = true → y < m.height → x < m.width →
        ∀ pr ∈ (Maze.prime pick fuel m y x).2, HasVisitedNbr pr.1 pr.2.1 pr.2.2) :=
  ⟨primeConnect_eq_firstVisitedNbr, firstVisitedNbr_isSome_iff, primeConnect_frame,
   fun pick hpick fuel m y x hvis hy hx =>
     primeAux_selections pick hpick fuel 0 m y x [] [] hvis hy hx
       (fun c hc => absurd hc (List.not_mem_nil c))
       (fun pr hpr => absurd hpr (List.not_mem_nil pr))⟩

/-- Concrete instance of C6: on a 2×2 maze, the cell below the visited entry
selects its top neighbour first, and the run invariant holds for an explicit
prime run. -/
theorem prime_connects_exactly_one_witness :
    firstVisitedNbr (Maze.make 2 2 (0, 0) (1, 1) true) 1 0 = some Side.T ∧
    ((1, 0) : Pos) ≠ nbrPos 1 0 Side.T ∧
    ((Maze.make 2 2 (0, 0) (1, 1) true).grid 0 0).visited = true ∧
    (0 : Nat) < (Maze.make 2 2 (0, 0) (1, 1) true).height ∧
    (0 : Nat) < (Maze.make 2 2 (0, 0) (1, 1) true).width ∧
    (∀ pr ∈ (Maze.prime (fun _ l => l.headD (0, 0)) 10
        (Maze.make 2 2 (0, 0) (1, 1) true) 0 0).2,
      HasVisitedNbr pr.1 pr.2.1 pr.2.2) :=
  ⟨by decide, (prime_connects_exactly_one.2.2.1 (Maze.make 2 2 (0, 0) (1, 1) true) 1 0
      Side.T (by decide)).1,
   by decide, by decide, by decide,
   prime_connects_exactly_one.2.2.2 (fun _ l => l.headD (0, 0))
     (fun k l hl => by
       cases l with
       | nil => exact absurd rfl hl
       | cons a t => exact List.mem_cons_self a t)
     10 (Maze.make 2 2 (0, 0) (1, 1) true) 0 0 (by decide) (by decide) (by decide)⟩

end AMazeIng

namespace AMazeIng

/-! ### C7: spec-shaped output format -/

/-- The hex lines of the output, one list of characters per row, in row-major
order: line `y` holds, for each column `x`, the hex character of the cell's
wall digit. -/
def gridLines (m : MazeState) : List (List Char) :=
  (List.range m.height).map
    (fun y => (List.range m.width).map (fun x => hexa.getD (cellDigit (m.grid y x)) '0'))

/-- The direction character of one path step, by the row/column delta: `E`
when the column increases, `W` when it decreases, `S` when the row increases,
`N` when it decreases. -/
def dirChar (p q : Pos) : Char :=
  if p.2 < q.2 then 'E'
  else if q.2 < p.2 then 'W'
  else if p.1 < q.1 then 'S'
  else 'N'

/-- One direction character per consecutive step of a path. -/
def specDirChars : List Pos → List Char
  | [] => []
  | [_] => []
  | p :: q :: rest => dirChar p q :: specDirChars (q :: rest)

/-- Spec-shaped output: the hex lines each followed by a newline, a blank
line, entry and exit as comma-separated `column,row` lines, then, when a
solution is supplied, one direction character per consecutive path step and a
final newline. -/
def outputSpec (m : MazeState) (entry exitPos : Pos)
    (solution : Option (List Pos)) : List Char :=
  ((gridLines m).map (fun line => line ++ ['\n'])).flatten
  ++ ['\n'] ++ natChars entry.2 ++ [','] ++ natChars entry.1 ++ ['\n']
  ++ natChars exitPos.2 ++ [','] ++ natChars exitPos.1 ++ ['\n']
  ++ (match solution with
      | none => []
      | some path => specDirChars path ++ ['\n'])

/-- No two consecutive cells of `p :: path` are equal. -/
def distinctSteps : Pos → List Pos → Bool
  | _, [] => true
  | p, q :: rest => !(decide (p = q)) && distinctSteps q rest

/-- The supplied solution, if any, is empty or starts at the entry with no
repeated consecutive cell (true of any path bfs_solver returns). -/
def solOK (entry : Pos) : Option (List Pos) → Bool
  | none => true
  | some [] => true
  | some (p :: rest) => decide (p = entry) && distinctSteps p rest

theorem foldl_push (h : Nat → Char) :
    ∀ (l : List Nat) (acc : List Char),
    l.foldl (fun a2 x => a2 ++ [h x]) acc = acc ++ l.map h := by
  intro l
  induction l with
  | nil => intro acc; simp
  | cons a t ih =>
    intro acc
    rw [List.foldl_cons, ih]
    simp

theorem foldl_rows (h : Nat → Nat → Char) (w : Nat) :
    ∀ (l : List Nat) (acc : List Char),
    l.foldl
      (fun acc y => ((List.range w).foldl (fun a2 x => a2 ++ [h y x]) acc) ++ ['\n']) acc
      = acc ++ (l.map (fun y => (List.range w).map (h y) ++ ['\n'])).flatten := by
  intro l
  induction l with
  | nil => intro acc; simp
  | cons a t ih =>
    intro acc
    rw [List.foldl_cons, ih, foldl_push (h a)]
    simp

theorem solFold_eq :
    ∀ (path : List Pos) (p : Pos) (acc : List Char),
    distinctSteps p path = true →
    (path.foldl
      (fun st cel =>
        (if st.2.1 < cel.2 then st.1 ++ ['E']
         else if cel.2 < st.2.1 then st.1 ++ ['W']
         else if st.2.2 < cel.1 then st.1 ++ ['S']
         else if cel.1 < st.2.2 then st.1 ++ ['N']
         else st.1, cel.2, cel.1))
      (acc, p.2, p.1)).1 = acc ++ specDirChars (p :: path) := by
  intro path
  induction path with
  | nil => intro p acc hd; simp [specDirChars]
  | cons q rest ih =>
    intro p acc hd
    simp only [distinctSteps, Bool.and_eq_true, Bool.not_eq_true', decide_eq_false_iff_not] at hd
    obtain ⟨hne, hd2⟩ := hd
    rw [List.foldl_cons]
    dsimp only
    have hstep :
        (if p.2 < q.2 then acc ++ ['E']
         else if q.2 < p.2 then acc ++ ['W']
         else if p.1 < q.1 then acc ++ ['S']
         else if q.1 < p.1 then acc ++ ['N']
         else acc) = acc ++ [dirChar p q] := by
      obtain ⟨py, px⟩ := p
      obtain ⟨qy, qx⟩ := q
      unfold dirChar
      split_ifs <;> first
        | rfl
        | (exfalso; apply hne; simp only [Prod.mk.injEq]; constructor <;> omega)
    rw [hstep, ih q (acc ++ [dirChar p q]) hd2]
    simp [specDirChars]

theorem create_output_file_eq (m : MazeState) (entry exitPos : Pos)
    (solution : Option (List Pos)) (hs : solOK entry solution = true) :
    create_output_file m entry exitPos solution = outputSpec m entry exitPos solution := by
  cases solution with
  | none =>
    show create_output_file m entry exitPos none = outputSpec m entry exitPos none
    unfold create_output_file outputSpec gridLines
    dsimp only
    rw [foldl_rows (fun y x => hexa.getD (cellDigit (m.grid y x)) '0') m.width
      (List.range m.height) []]
    simp only [List.map_map, List.append_assoc, List.nil_append]
    rfl
  | some path =>
    cases path with
    | nil =>
      unfold create_output_file outputSpec gridLines
      dsimp only
      rw [foldl_rows (fun y x => hexa.getD (cellDigit (m.grid y x)) '0') m.width
        (List.range m.height) []]
      simp only [List.map_map, List.append_assoc, List.nil_append, List.foldl_nil,
        specDirChars]
      rfl
    | cons p rest =>
      simp only [solOK, Bool.and_eq_true, decide_eq_true_eq] at hs
      obtain ⟨hp, hd⟩ := hs
      subst hp
      unfold create_output_file outputSpec gridLines
      dsimp only
      rw [foldl_rows (fun y x => hexa.getD (cellDigit (m.grid y x)) '0') m.width
        (List.range m.height) []]
      rw [List.foldl_cons]
      dsimp only
      rw [if_neg (lt_irrefl p.2), if_neg (lt_irrefl p.2), if_neg (lt_irrefl p.1),
        if_neg (lt_irrefl p.1)]
      rw [solFold_eq rest p _ hd]
      simp only [List.map_map, List.append_assoc, List.nil_append]
      rfl

theorem cellDigit_lt (c : Cell) : cellDigit c < 16 := by
  unfold cellDigit
  split_ifs <;> decide

theorem getD_hexa_mem (d : Nat) (hd : d < 16) : hexa.getD d '0' ∈ hexa := by
  interval_cases d <;> decide

end AMazeIng

namespace AMazeIng

/-- C7: create_output_file writes exactly `height` lines of `width` hex
characters in row-major order (each cell's digit the `T=1,R=2,B=4,L=8` sum,
drawn from the hex table), then a blank line, then entry and exit each as a
comma-separated `column,row` line, then, when a solution is supplied, one
character among N, S, E, W per consecutive path step according to the
row/column delta: the function equals the spec-shaped `outputSpec` whenever
the supplied solution is absent, empty, or starts at the entry with no
repeated consecutive cell (as any bfs_solver path does). -/
theorem output_format_spec :
    (∀ m : MazeState, (gridLines m).length = m.height ∧
      ∀ line ∈ gridLines m, line.length = m.width ∧ ∀ ch ∈ line, ch ∈ hexa) ∧
    (∀ (m : MazeState) (entry exitPos : Pos) (solution : Option (List Pos)),
      solOK entry solution = true →
      create_output_file m entry exitPos solution = outputSpec m entry exitPos solution) := by
  constructor
  · intro m
    constructor
    · simp [gridLines]
    · intro line hline
      simp only [gridLines, List.mem_map, List.mem_range] at hline
      obtain ⟨y, hy, rfl⟩ := hline
      constructor
      · simp
      · intro ch hch
        simp only [List.mem_map, List.mem_range] at hch
        obtain ⟨x, hx, rfl⟩ := hch
        exact getD_hexa_mem _ (cellDigit_lt _)
  · exact create_output_file_eq

/-- Concrete instance of C7: a 2×2 maze with a two-cell solution starting at
the entry satisfies the precondition, and the written file equals the
spec-shaped output. -/
theorem output_format_spec_witness :
    solOK (0, 0) (some [((0, 0) : Pos), (0, 1)]) = true ∧
    create_output_file (Maze.make 2 2 (0, 0) (1, 1) true) (0, 0) (1, 1)
        (some [((0, 0) : Pos), (0, 1)])
      = outputSpec (Maze.make 2 2 (0, 0) (1, 1) true) (0, 0) (1, 1)
        (some [((0, 0) : Pos), (0, 1)]) :=
  ⟨by decide,
   output_format_spec.2 (Maze.make 2 2 (0, 0) (1, 1) true) (0, 0) (1, 1)
     (some [((0, 0) : Pos), (0, 1)]) (by decide)⟩

end AMazeIng

namespace AMazeIng

/-! ### C5: the termination count of the generators -/

/-- The finite set of in-bounds visited cells. -/
def visitedFinset (m : MazeState) : Finset Pos :=
  (Finset.range m.height ×ˢ Finset.range m.width).filter
    (fun p => (m.grid p.1 p.2).visited = true)

/-- The Python counter `visited_count` agrees with the number of in-bounds
visited cells. -/
def CountConsistent (m : MazeState) : Prop :=
  m.visitedCount = (visitedFinset m).card

theorem mem_visitedFinset (m : MazeState) (p : Pos) :
    p ∈ visitedFinset m ↔
      p.1 < m.height ∧ p.2 < m.width ∧ (m.grid p.1 p.2).visited = true := by
  unfold visitedFinset
  simp [Finset.mem_filter, Finset.mem_product, Finset.mem_range, and_assoc]

theorem visitedFinset_card_le (m : MazeState) :
    (visitedFinset m).card ≤ cellsCount m := by
  have h1 := Finset.card_filter_le
    (Finset.range m.height ×ˢ Finset.range m.width)
    (fun p : Pos => (m.grid p.1 p.2).visited = true)
  have h2 : (Finset.range m.height ×ˢ Finset.range m.width).card = m.height * m.width := by
    rw [Finset.card_product, Finset.card_range, Finset.card_range]
  have h3 : m.height * m.width = m.width * m.height := Nat.mul_comm _ _
  unfold cellsCount
  unfold visitedFinset
  omega

theorem full_visited (m : MazeState) (hc : CountConsistent m)
    (hfull : cellsCount m ≤ m.visitedCount) :
    ∀ a b, a < m.height → b < m.width → (m.grid a b).visited = true := by
  intro a b ha hb
  have hsub : visitedFinset m ⊆ Finset.range m.height ×ˢ Finset.range m.width :=
    Finset.filter_subset _ _
  have h2 : (Finset.range m.height ×ˢ Finset.range m.width).card = m.height * m.width := by
    rw [Finset.card_product, Finset.card_range, Finset.card_range]
  have hcard : (Finset.range m.height ×ˢ Finset.range m.width).card ≤
      (visitedFinset m).card := by
    have h3 : m.height * m.width = m.width * m.height := Nat.mul_comm _ _
    unfold CountConsistent at hc
    unfold cellsCount at hfull
    omega
  have heqs : visitedFinset m = Finset.range m.height ×ˢ Finset.range m.width :=
    Finset.eq_of_subset_of_card_le hsub hcard
  have hm : ((a, b) : Pos) ∈ visitedFinset m := by
    rw [heqs, Finset.mem_product, Finset.mem_range, Finset.mem_range]
    exact ⟨ha, hb⟩
  exact ((mem_visitedFinset m (a, b)).mp hm).2.2

theorem count_lt_of_unvisited (m : MazeState) (hc : CountConsistent m)
    (a b : Nat) (ha : a < m.height) (hb : b < m.width)
    (hunv : (m.grid a b).visited = false) :
    m.visitedCount < cellsCount m := by
  by_contra hcon
  push_neg at hcon
  have := full_visited m hc hcon a b ha hb
  rw [this] at hunv
  exact Bool.noConfusion hunv

theorem card_mono_of_visited_mono (m1 m2 : MazeState)
    (hw : m2.width = m1.width) (hh : m2.height = m1.height)
    (hmono : ∀ a b, (m1.grid a b).visited = true → (m2.grid a b).visited = true) :
    (visitedFinset m1).card ≤ (visitedFinset m2).card := by
  apply Finset.card_le_card
  intro p hp
  rw [mem_visitedFinset] at hp ⊢
  exact ⟨by rw [hh]; exact hp.1, by rw [hw]; exact hp.2.1, hmono p.1 p.2 hp.2.2⟩

/-- An admissible generation step target: one grid step from `(y, x)`, in
bounds, not a logo cell. -/
def NbrOK (m : MazeState) (y x ny nx : Nat) : Prop :=
  AdjShape y x ny nx ∧ ny < m.height ∧ nx < m.width ∧ (m.grid ny nx).logo = false

theorem NbrOK_transfer {m1 m2 : MazeState} (hw : m2.width = m1.width)
    (hh : m2.height = m1.height)
    (hl : ∀ a b, (m2.grid a b).logo = (m1.grid a b).logo)
    {y x ny nx : Nat} (h : NbrOK m1 y x ny nx) : NbrOK m2 y x ny nx := by
  obtain ⟨h1, h2, h3, h4⟩ := h
  exact ⟨h1, by rw [hh]; exact h2, by rw [hw]; exact h3, by rw [hl]; exact h4⟩

/-- Reachability through non-logo cells: every initially visited cell is
reachable, and reachability extends along one admissible in-bounds non-logo
grid step. -/
inductive ReachNL (m : MazeState) : Pos → Prop
  | base (p : Pos) : (m.grid p.1 p.2).visited = true → ReachNL m p
  | step (p q : Pos) : ReachNL m p → AdjShape p.1 p.2 q.1 q.2 →
      q.1 < m.height → q.2 < m.width → (m.grid q.1 q.2).logo = false →
      ReachNL m q

theorem dfsChoices_length_le (m : MazeState) (y x : Nat) :
    (dfsChoices m y x).length ≤ 4 := by
  unfold dfsChoices
  split_ifs <;> simp

/-- Every member of the choices list is an admissible unvisited neighbour. -/
theorem dfsChoices_props (m : MazeState) (y x : Nat)
    (hy : y < m.height) (hx : x < m.width) :
    ∀ c ∈ dfsChoices m y x, NbrOK m y x c.1 c.2 ∧ (m.grid c.1 c.2).visited = false := by
  intro c hc
  unfold dfsChoices at hc
  simp only [List.mem_append] at hc
  rcases hc with ((h | h) | h) | h <;>
    (split_ifs at h with hcond <;>
      simp only [List.mem_singleton, List.not_mem_nil] at h) <;> subst h
  · exact ⟨⟨Or.inl ⟨rfl, rfl⟩, hy, hcond.1, Bool.eq_false_iff.mpr hcond.2.2⟩,
      Bool.eq_false_iff.mpr hcond.2.1⟩
  · exact ⟨⟨Or.inr (Or.inl ⟨rfl, rfl⟩), hcond.1, hx, Bool.eq_false_iff.mpr hcond.2.2⟩,
      Bool.eq_false_iff.mpr hcond.2.1⟩
  · refine ⟨⟨Or.inr (Or.inr (Or.inl ⟨by omega, rfl⟩)), by omega, hx,
      Bool.eq_false_iff.mpr hcond.2.2⟩, Bool.eq_false_iff.mpr hcond.2.1⟩
  · refine ⟨⟨Or.inr (Or.inr (Or.inr ⟨rfl, by omega⟩)), hy, by omega,
      Bool.eq_false_iff.mpr hcond.2.2⟩, Bool.eq_false_iff.mpr hcond.2.1⟩

/-- Every admissible unvisited neighbour is collected into the choices list. -/
theorem dfsChoices_complete (m : MazeState) (y x ny nx : Nat)
    (hok : NbrOK m y x ny nx) (hunv : (m.grid ny nx).visited = false) :
    ((ny, nx) : Pos) ∈ dfsChoices m y x := by
  obtain ⟨hadj, hby, hbx, hlg⟩ := hok
  unfold dfsChoices
  simp only [List.mem_append]
  rcases hadj with ⟨h1, h2⟩ | ⟨h1, h2⟩ | ⟨h1, h2⟩ | ⟨h1, h2⟩
  · subst h1; subst h2
    refine Or.inl (Or.inl (Or.inl ?_))
    rw [if_pos ⟨hbx, by simp [hunv], by simp [hlg]⟩]
    exact List.mem_singleton.mpr rfl
  · subst h1; subst h2
    refine Or.inl (Or.inl (Or.inr ?_))
    rw [if_pos ⟨hby, by simp [hunv], by simp [hlg]⟩]
    exact List.mem_singleton.mpr rfl
  · subst h2
    have hy1 : 1 ≤ y := by omega
    have hyy : y - 1 = ny := by omega
    refine Or.inl (Or.inr ?_)
    rw [if_pos ⟨hy1, by rw [hyy]; simp [hunv], by rw [hyy]; simp [hlg]⟩]
    rw [List.mem_singleton, Prod.mk.injEq]
    exact ⟨hyy.symm, rfl⟩
  · subst h1
    have hx1 : 1 ≤ x := by omega
    have hxx : x - 1 = nx := by omega
    refine Or.inr ?_
    rw [if_pos ⟨hx1, by rw [hxx]; simp [hunv], by rw [hxx]; simp [hlg]⟩]
    rw [List.mem_singleton, Prod.mk.injEq]
    exact ⟨rfl, hxx.symm⟩

end AMazeIng

namespace AMazeIng

theorem dfsOpenWalls_visited (g : Grid) (y x ny nx a b : Nat) :
    ((dfsOpenWalls g y x ny nx) a b).visited = (g a b).visited := by
  unfold dfsOpenWalls
  split_ifs <;> (try simp only [updateAt2_visited]) <;> rfl

theorem dfsVisit_visited_eval (m : MazeState) (y x ny nx a b : Nat) :
    ((dfsVisit m y x ny nx).grid a b).visited =
      if a = ny ∧ b = nx then true else (m.grid a b).visited := by
  unfold dfsVisit
  dsimp only
  rw [updateAt_eval]
  split_ifs with h
  · rfl
  · rw [dfsOpenWalls_visited]

theorem visitedFinset_dfsVisit (m : MazeState) (y x ny nx : Nat)
    (hby : ny < m.height) (hbx : nx < m.width) :
    visitedFinset (dfsVisit m y x ny nx) = insert ((ny, nx) : Pos) (visitedFinset m) := by
  ext p
  obtain ⟨pa, pb⟩ := p
  rw [mem_visitedFinset, Finset.mem_insert, mem_visitedFinset]
  show pa < m.height ∧ pb < m.width ∧ _ ↔ _
  rw [dfsVisit_visited_eval]
  constructor
  · rintro ⟨h1, h2, h3⟩
    by_cases hp : pa = ny ∧ pb = nx
    · exact Or.inl (by rw [Prod.mk.injEq]; exact hp)
    · rw [if_neg hp] at h3
      exact Or.inr ⟨h1, h2, h3⟩
  · rintro (hp | ⟨h1, h2, h3⟩)
    · rw [Prod.mk.injEq] at hp
      refine ⟨by rw [hp.1]; exact hby, by rw [hp.2]; exact hbx, ?_⟩
      rw [if_pos hp]
    · refine ⟨h1, h2, ?_⟩
      split_ifs with hp
      · rfl
      · exact h3

theorem countConsistent_dfsVisit (m : MazeState) (y x ny nx : Nat)
    (hc : CountConsistent m) (hby : ny < m.height) (hbx : nx < m.width)
    (hunv : (m.grid ny nx).visited = false) :
    CountConsistent (dfsVisit m y x ny nx) := by
  have hnm : ((ny, nx) : Pos) ∉ visitedFinset m := by
    rw [mem_visitedFinset]
    rintro ⟨_, _, hv⟩
    rw [hunv] at hv
    exact Bool.noConfusion hv
  unfold CountConsistent at hc ⊢
  rw [visitedFinset_dfsVisit m y x ny nx hby hbx, Finset.card_insert_of_not_mem hnm]
  show m.visitedCount + 1 = _
  omega

/-- The conclusions a completed dfs call guarantees relative to its initial
state: dimensions and logo flags unchanged, visited flags monotone, the
counter consistent, every visited cell inside the invariant set `P`, and
every newly visited cell with all its admissible neighbours visited. -/
def DfsPost (m R : MazeState) (P : Pos → Prop) : Prop :=
  (R.width = m.width ∧ R.height = m.height) ∧
  (∀ a b, (R.grid a b).logo = (m.grid a b).logo) ∧
  (∀ a b, (m.grid a b).visited = true → (R.grid a b).visited = true) ∧
  CountConsistent R ∧
  (∀ a b, (R.grid a b).visited = true → P (a, b)) ∧
  (∀ a b, (R.grid a b).visited = true → (m.grid a b).visited = false →
    ∀ ny nx, NbrOK m a b ny nx → (R.grid ny nx).visited = true)

theorem DfsPost.stay (m : MazeState) (P : Pos → Prop)
    (hc : CountConsistent m)
    (hsound : ∀ a b, (m.grid a b).visited = true → P (a, b)) :
    DfsPost m m P := by
  refine ⟨⟨rfl, rfl⟩, fun a b => rfl, fun a b h => h, hc, hsound, ?_⟩
  intro a b hv hnv
  rw [hv] at hnv
  exact Bool.noConfusion hnv

theorem DfsPost.comp {m1 m2 m3 : MazeState} {P : Pos → Prop}
    (h12 : DfsPost m1 m2 P) (h23 : DfsPost m2 m3 P) : DfsPost m1 m3 P := by
  obtain ⟨⟨w12, h12d⟩, l12, v12, c12, s12, cl12⟩ := h12
  obtain ⟨⟨w23, h23d⟩, l23, v23, c23, s23, cl23⟩ := h23
  refine ⟨⟨w23.trans w12, h23d.trans h12d⟩, fun a b => (l23 a b).trans (l12 a b),
    fun a b h => v23 a b (v12 a b h), c23, s23, ?_⟩
  intro a b hv3 hnv1 ny nx hok
  by_cases hv2 : (m2.grid a b).visited = true
  · exact v23 ny nx (cl12 a b hv2 hnv1 ny nx hok)
  · refine cl23 a b hv3 (Bool.eq_false_iff.mpr hv2) ny nx ?_
    exact NbrOK_transfer w12 h12d l12 hok

end AMazeIng

namespace AMazeIng

theorem AdjShape_ne {y x ny nx : Nat} (h : AdjShape y x ny nx) : ¬(ny = y ∧ nx = x) := by
  rcases h with ⟨h1, h2⟩ | ⟨h1, h2⟩ | ⟨h1, h2⟩ | ⟨h1, h2⟩ <;> rintro ⟨rfl, rfl⟩ <;> omega

theorem dfsVisit_visited_mono (m : MazeState) (y x ny nx a b : Nat)
    (h : (m.grid a b).visited = true) :
    ((dfsVisit m y x ny nx).grid a b).visited = true := by
  rw [dfsVisit_visited_eval]
  split_ifs with hp
  · rfl
  · exact h

/-- The master postcondition of a dfs call, by induction on fuel: with enough
fuel (depth bound `5 U + 6` where `U` bounds the number of still-unvisited
cells), the run is monotone and count-consistent, visits only cells of any
invariant set `P` closed under admissible steps, visits every admissible
neighbour of the entry cell, and leaves every newly visited cell with all its
admissible neighbours visited. -/
theorem dfsGo_post (shuffle : Nat → List Pos → List Pos)
    (hsh : ∀ k l, (shuffle k l).Perm l) (P : Pos → Prop) :
    ∀ fuel k m y x ph U,
    CountConsistent m →
    (m.grid y x).visited = true → y < m.height → x < m.width →
    P (y, x) →
    (∀ a b, (m.grid a b).visited = true → P (a, b)) →
    (∀ p q : Pos, P p → AdjShape p.1 p.2 q.1 q.2 → q.1 < m.height → q.2 < m.width →
      (m.grid q.1 q.2).logo = false → P q) →
    cellsCount m - m.visitedCount ≤ U →
    (ph = none → 5 * U + 6 ≤ fuel) →
    (∀ cs, ph = some cs → 5 * U + cs.length + 1 ≤ fuel ∧
      ∀ c ∈ cs, NbrOK m y x c.1 c.2) →
    DfsPost m (dfsGo shuffle fuel k m y x ph).1 P ∧
    (ph = none → ∀ ny nx, NbrOK m y x ny nx →
      ((dfsGo shuffle fuel k m y x ph).1.grid ny nx).visited = true) ∧
    (∀ cs, ph = some cs → ∀ c ∈ cs,
      ((dfsGo shuffle fuel k m y x ph).1.grid c.1 c.2).visited = true) := by
  intro fuel
  induction fuel with
  | zero =>
    intro k m y x ph U hc hvis hy hx hP hsound hPcl hU hreqn hreqs
    cases ph with
    | none => exact absurd (hreqn rfl) (by omega)
    | some cs => exact absurd (hreqs cs rfl).1 (by omega)
  | succ fuel ih =>
    intro k m y x ph U hc hvis hy hx hP hsound hPcl hU hreqn hreqs
    match ph with
    | none =>
      have hfuel : 5 * U + 6 ≤ fuel + 1 := hreqn rfl
      rw [dfsGo]
      split
      · next hemp =>
        refine ⟨DfsPost.stay m P hc hsound, ?_, ?_⟩
        · intro _ ny nx hok
          by_cases hv : (m.grid ny nx).visited = true
          · exact hv
          · have := dfsChoices_complete m y x ny nx hok (Bool.eq_false_iff.mpr hv)
            rw [hemp] at this
            exact absurd this (List.not_mem_nil _)
        · intro cs hcs
          exact Option.noConfusion hcs
      · next hemp =>
        have hlen : (shuffle k (dfsChoices m y x)).length = (dfsChoices m y x).length :=
          (hsh k (dfsChoices m y x)).length_eq
        have hlen4 := dfsChoices_length_le m y x
        obtain ⟨hpost, _, hsome⟩ := ih (k + 1) m y x (some (shuffle k (dfsChoices m y x))) U
          hc hvis hy hx hP hsound hPcl hU
          (fun h => Option.noConfusion h)
          (by
            intro cs hcs
            obtain rfl := Option.some.inj hcs
            refine ⟨by omega, ?_⟩
            intro c hcmem
            have hcmem2 : c ∈ dfsChoices m y x := ((hsh k _).mem_iff).mp hcmem
            exact (dfsChoices_props m y x hy hx c hcmem2).1)
        refine ⟨hpost, ?_, ?_⟩
        · intro _ ny nx hok
          by_cases hv : (m.grid ny nx).visited = true
          · exact hpost.2.2.1 ny nx hv
          · have hmem : ((ny, nx) : Pos) ∈ dfsChoices m y x :=
              dfsChoices_complete m y x ny nx hok (Bool.eq_false_iff.mpr hv)
            have hmem2 : ((ny, nx) : Pos) ∈ shuffle k (dfsChoices m y x) :=
              ((hsh k _).mem_iff).mpr hmem
            exact hsome _ rfl (ny, nx) hmem2
        · intro cs hcs
          exact Option.noConfusion hcs
    | some [] =>
      rw [dfsGo]
      refine ⟨DfsPost.stay m P hc hsound, ?_, ?_⟩
      · intro h
        exact Option.noConfusion h
      · intro cs hcs
        obtain rfl := Option.some.inj hcs
        intro c hcmem
        exact absurd hcmem (List.not_mem_nil _)
    | some (c :: rest) =>
      obtain ⟨hlen, hmem⟩ := hreqs (c :: rest) rfl
      have hokc : NbrOK m y x c.1 c.2 := hmem c (List.mem_cons_self c rest)
      rw [dfsGo]
      split
      · next hvc =>
        -- the head choice is already visited: skip it
        obtain ⟨hpost, _, hsome⟩ := ih k m y x (some rest) U
          hc hvis hy hx hP hsound hPcl hU
          (fun h => Option.noConfusion h)
          (by
            intro cs hcs
            obtain rfl := Option.some.inj hcs
            refine ⟨by simp only [List.length_cons] at hlen; omega, ?_⟩
            intro d hd
            exact hmem d (List.mem_cons_of_mem c hd))
        refine ⟨hpost, ?_, ?_⟩
        · intro h
          exact Option.noConfusion h
        · intro cs hcs
          obtain rfl := Option.some.inj hcs
          intro d hd
          rcases List.mem_cons.mp hd with rfl | hd2
          · exact hpost.2.2.1 d.1 d.2 hvc
          · exact hsome _ rfl d hd2
      · next hvc =>
        have hunv : (m.grid c.1 c.2).visited = false := Bool.eq_false_iff.mpr hvc
        have hcnt : m.visitedCount < cellsCount m :=
          count_lt_of_unvisited m hc c.1 c.2 hokc.2.1 hokc.2.2.1 hunv
        have hU1 : 1 ≤ U := by omega
        have hc1 : CountConsistent (dfsVisit m y x c.1 c.2) :=
          countConsistent_dfsVisit m y x c.1 c.2 hc hokc.2.1 hokc.2.2.1 hunv
        have hvisc1 : ((dfsVisit m y x c.1 c.2).grid c.1 c.2).visited = true := by
          rw [dfsVisit_visited_eval, if_pos ⟨rfl, rfl⟩]
        have hPc : P (c.1, c.2) :=
          hPcl (y, x) (c.1, c.2) hP hokc.1 hokc.2.1 hokc.2.2.1 hokc.2.2.2
        have hsound1 : ∀ a b, ((dfsVisit m y x c.1 c.2).grid a b).visited = true →
            P (a, b) := by
          intro a b hv
          rw [dfsVisit_visited_eval] at hv
          by_cases hab : a = c.1 ∧ b = c.2
          · obtain ⟨rfl, rfl⟩ := hab
            exact hPc
          · rw [if_neg hab] at hv
            exact hsound a b hv
        have hPcl1 : ∀ p q : Pos, P p → AdjShape p.1 p.2 q.1 q.2 →
            q.1 < (dfsVisit m y x c.1 c.2).height → q.2 < (dfsVisit m y x c.1 c.2).width →
            ((dfsVisit m y x c.1 c.2).grid q.1 q.2).logo = false → P q := by
          intro p q hp hadj hq1 hq2 hlg
          rw [dfsVisit_logo] at hlg
          exact hPcl p q hp hadj hq1 hq2 hlg
        have hU' : cellsCount (dfsVisit m y x c.1 c.2) -
            (dfsVisit m y x c.1 c.2).visitedCount ≤ U - 1 := by
          have h1 : cellsCount (dfsVisit m y x c.1 c.2) = cellsCount m := rfl
          have h2 : (dfsVisit m y x c.1 c.2).visitedCount = m.visitedCount + 1 := rfl
          omega
        have hvisyx1 : ((dfsVisit m y x c.1 c.2).grid y x).visited = true := by
          rw [dfsVisit_visited_eval,
            if_neg (fun h => AdjShape_ne hokc.1 ⟨h.1.symm, h.2.symm⟩)]
          exact hvis
        dsimp only
        split
        · next hguard =>
          -- the counter is still below cells_count: recurse into the child
          obtain ⟨hch_post, hch_none, _⟩ := ih k (dfsVisit m y x c.1 c.2) c.1 c.2 none (U - 1)
            hc1 hvisc1 hokc.2.1 hokc.2.2.1 hPc hsound1 hPcl1 hU'
            (by intro _; simp only [List.length_cons] at hlen; omega)
            (fun cs hcs => Option.noConfusion hcs)
          obtain ⟨⟨hchw, hchh⟩, hchl, hchv, hchc, hchs, hchcl⟩ := hch_post
          have hcoU : cellsCount (dfsGo shuffle fuel k (dfsVisit m y x c.1 c.2) c.1 c.2 none).1 -
              (dfsGo shuffle fuel k (dfsVisit m y x c.1 c.2) c.1 c.2 none).1.visitedCount ≤ U - 1 := by
            have hcells : cellsCount (dfsGo shuffle fuel k (dfsVisit m y x c.1 c.2) c.1 c.2 none).1 =
                cellsCount (dfsVisit m y x c.1 c.2) := by
              unfold cellsCount
              rw [hchw, hchh]
            have hcards := card_mono_of_visited_mono (dfsVisit m y x c.1 c.2)
              (dfsGo shuffle fuel k (dfsVisit m y x c.1 c.2) c.1 c.2 none).1 hchw hchh hchv
            unfold CountConsistent at hc1 hchc
            have h1 : cellsCount (dfsVisit m y x c.1 c.2) = cellsCount m := rfl
            have h2 : (dfsVisit m y x c.1 c.2).visitedCount = m.visitedCount + 1 := rfl
            omega
          obtain ⟨hco_post, _, hco_some⟩ := ih
            (dfsGo shuffle fuel k (dfsVisit m y x c.1 c.2) c.1 c.2 none).2
            (dfsGo shuffle fuel k (dfsVisit m y x c.1 c.2) c.1 c.2 none).1 y x (some rest) (U - 1)
            hchc
            (hchv y x hvisyx1)
            (by rw [hchh]; exact hy)
            (by rw [hchw]; exact hx)
            hP hchs
            (by
              intro p q hp hadj hq1 hq2 hlg
              rw [hchl, dfsVisit_logo] at hlg
              rw [hchh] at hq1
              rw [hchw] at hq2
              exact hPcl p q hp hadj hq1 hq2 hlg)
            hcoU
            (fun h => Option.noConfusion h)
            (by
              intro cs hcs
              obtain rfl := Option.some.inj hcs
              refine ⟨by simp only [List.length_cons] at hlen; omega, ?_⟩
              intro d hd
              refine NbrOK_transfer ?_ ?_ ?_ (hmem d (List.mem_cons_of_mem c hd))
              · rw [hchw]; rfl
              · rw [hchh]; rfl
              · intro a b
                rw [hchl, dfsVisit_logo])
          have hpost23 : DfsPost (dfsVisit m y x c.1 c.2)
              (dfsGo shuffle fuel
                (dfsGo shuffle fuel k (dfsVisit m y x c.1 c.2) c.1 c.2 none).2
                (dfsGo shuffle fuel k (dfsVisit m y x c.1 c.2) c.1 c.2 none).1
                y x (some rest)).1 P :=
            DfsPost.comp ⟨⟨hchw, hchh⟩, hchl, hchv, hchc, hchs, hchcl⟩ hco_post
          obtain ⟨⟨h23w, h23h⟩, h23l, h23v, h23c, h23s, h23cl⟩ := hpost23
          refine ⟨⟨⟨by rw [h23w]; rfl, by rw [h23h]; rfl⟩,
            (by intro a b; rw [h23l, dfsVisit_logo]),
            (fun a b hv => h23v a b (dfsVisit_visited_mono m y x c.1 c.2 a b hv)),
            h23c, h23s, ?_⟩, ?_, ?_⟩
          · -- closure for cells newly visited relative to m
            intro a b hvR hnvm ny nx hok
            by_cases hab : a = c.1 ∧ b = c.2
            · obtain ⟨rfl, rfl⟩ := hab
              have hok1 : NbrOK (dfsVisit m y x c.1 c.2) c.1 c.2 ny nx :=
                @NbrOK_transfer m (dfsVisit m y x c.1 c.2) rfl rfl
                  (fun u v => dfsVisit_logo m y x c.1 c.2 u v) _ _ ny nx hok
              have := hch_none rfl ny nx hok1
              exact hco_post.2.2.1 ny nx this
            · have hnv1 : ((dfsVisit m y x c.1 c.2).grid a b).visited = false := by
                rw [dfsVisit_visited_eval, if_neg hab]
                exact hnvm
              refine h23cl a b hvR hnv1 ny nx ?_
              exact @NbrOK_transfer m (dfsVisit m y x c.1 c.2) rfl rfl
                (fun u v => dfsVisit_logo m y x c.1 c.2 u v) _ _ ny nx hok
          · intro h
            exact Option.noConfusion h
          · intro cs hcs
            obtain rfl := Option.some.inj hcs
            intro d hd
            rcases List.mem_cons.mp hd with rfl | hd2
            · exact h23v d.1 d.2 hvisc1
            · exact hco_some _ rfl d hd2
        · next hguard =>
          -- the counter reached cells_count: the grid is fully visited
          have hfull : ∀ a b, a < (dfsVisit m y x c.1 c.2).height →
              b < (dfsVisit m y x c.1 c.2).width →
              ((dfsVisit m y x c.1 c.2).grid a b).visited = true :=
            full_visited _ hc1 (by omega)
          obtain ⟨hco_post, _, hco_some⟩ := ih k (dfsVisit m y x c.1 c.2) y x (some rest) (U - 1)
            hc1 hvisyx1 hy hx hP hsound1 hPcl1 hU'
            (fun h => Option.noConfusion h)
            (by
              intro cs hcs
              obtain rfl := Option.some.inj hcs
              refine ⟨by simp only [List.length_cons] at hlen; omega, ?_⟩
              intro d hd
              exact @NbrOK_transfer m (dfsVisit m y x c.1 c.2) rfl rfl
                (fun u v => dfsVisit_logo m y x c.1 c.2 u v) _ _ _ _
                (hmem d (List.mem_cons_of_mem c hd)))
          obtain ⟨⟨h2w, h2h⟩, h2l, h2v, h2c, h2s, h2cl⟩ := hco_post
          refine ⟨⟨⟨by rw [h2w]; rfl, by rw [h2h]; rfl⟩,
            (by intro a b; rw [h2l, dfsVisit_logo]),
            (fun a b hv => h2v a b (dfsVisit_visited_mono m y x c.1 c.2 a b hv)),
            h2c, h2s, ?_⟩, ?_, ?_⟩
          · intro a b hvR hnvm ny nx hok
            by_cases hab : a = c.1 ∧ b = c.2
            · obtain ⟨rfl, rfl⟩ := hab
              exact h2v ny nx (hfull ny nx hok.2.1 hok.2.2.1)
            · have hnv1 : ((dfsVisit m y x c.1 c.2).grid a b).visited = false := by
                rw [dfsVisit_visited_eval, if_neg hab]
                exact hnvm
              refine h2cl a b hvR hnv1 ny nx ?_
              exact @NbrOK_transfer m (dfsVisit m y x c.1 c.2) rfl rfl
                (fun u v => dfsVisit_logo m y x c.1 c.2 u v) _ _ ny nx hok
          · intro h
            exact Option.noConfusion h
          · intro cs hcs
            obtain rfl := Option.some.inj hcs
            intro d hd
            rcases List.mem_cons.mp hd with rfl | hd2
            · exact h2v d.1 d.2 hvisc1
            · exact hco_some _ rfl d hd2

end AMazeIng

namespace AMazeIng

theorem primeConnect_count (m : MazeState) (ny nx : Nat) :
    (primeConnect m ny nx).visitedCount = m.visitedCount := by
  unfold primeConnect
  split_ifs <;> rfl

theorem primeStep_count (m : MazeState) (s1 s2 : Nat) :
    (markVisited (primeConnect m s1 s2) s1 s2).visitedCount = m.visitedCount + 1 := by
  show (primeConnect m s1 s2).visitedCount + 1 = _
  rw [primeConnect_count]

theorem primeStep_visited_eval (m : MazeState) (s1 s2 a b : Nat) :
    ((markVisited (primeConnect m s1 s2) s1 s2).grid a b).visited =
      if a = s1 ∧ b = s2 then true else (m.grid a b).visited := by
  rw [markVisited_visited_eval]
  split_ifs with h
  · rfl
  · rw [primeConnect_visited]

theorem primeStep_logo (m : MazeState) (s1 s2 a b : Nat) :
    ((markVisited (primeConnect m s1 s2) s1 s2).grid a b).logo = (m.grid a b).logo := by
  rw [markVisited_logo, primeConnect_logo]

theorem primeStep_width (m : MazeState) (s1 s2 : Nat) :
    (markVisited (primeConnect m s1 s2) s1 s2).width = m.width := by
  rw [markVisited_width, primeConnect_width]

theorem primeStep_height (m : MazeState) (s1 s2 : Nat) :
    (markVisited (primeConnect m s1 s2) s1 s2).height = m.height := by
  rw [markVisited_height, primeConnect_height]

theorem visitedFinset_primeStep (m : MazeState) (s1 s2 : Nat)
    (hb1 : s1 < m.height) (hb2 : s2 < m.width) :
    visitedFinset (markVisited (primeConnect m s1 s2) s1 s2) =
      insert ((s1, s2) : Pos) (visitedFinset m) := by
  ext p
  obtain ⟨pa, pb⟩ := p
  rw [mem_visitedFinset, Finset.mem_insert, mem_visitedFinset, primeStep_width,
    primeStep_height]
  show pa < m.height ∧ pb < m.width ∧ _ ↔ _
  rw [primeStep_visited_eval]
  constructor
  · rintro ⟨h1, h2, h3⟩
    by_cases hp : pa = s1 ∧ pb = s2
    · exact Or.inl (by rw [Prod.mk.injEq]; exact hp)
    · rw [if_neg hp] at h3
      exact Or.inr ⟨h1, h2, h3⟩
  · rintro (hp | ⟨h1, h2, h3⟩)
    · rw [Prod.mk.injEq] at hp
      refine ⟨by rw [hp.1]; exact hb1, by rw [hp.2]; exact hb2, ?_⟩
      rw [if_pos hp]
    · refine ⟨h1, h2, ?_⟩
      split_ifs with hp
      · rfl
      · exact h3

theorem countConsistent_primeStep (m : MazeState) (s1 s2 : Nat)
    (hc : CountConsistent m) (hb1 : s1 < m.height) (hb2 : s2 < m.width)
    (hunv : (m.grid s1 s2).visited = false) :
    CountConsistent (markVisited (primeConnect m s1 s2) s1 s2) := by
  have hnm : ((s1, s2) : Pos) ∉ visitedFinset m := by
    rw [mem_visitedFinset]
    rintro ⟨_, _, hv⟩
    rw [hunv] at hv
    exact Bool.noConfusion hv
  unfold CountConsistent at hc ⊢
  rw [visitedFinset_primeStep m s1 s2 hb1 hb2, Finset.card_insert_of_not_mem hnm,
    primeStep_count]
  omega

theorem insertPos_mem_super (l : List Pos) (p c : Pos) (h : c ∈ l) : c ∈ insertPos l p :=
  (insertPos_mem_iff l p c).mpr (Or.inl h)

theorem mem_cond_insert_super (cond : Prop) [Decidable cond] (f : List Pos) (p c : Pos)
    (h : c ∈ f) : c ∈ (if cond then insertPos f p else f) := by
  split_ifs
  · exact insertPos_mem_super f p c h
  · exact h

theorem primeAdds_super (m : MazeState) (y x : Nat) (f : List Pos) (c : Pos)
    (h : c ∈ f) : c ∈ primeAdds m y x f := by
  unfold primeAdds
  exact mem_cond_insert_super _ _ _ _
    (mem_cond_insert_super _ _ _ _
      (mem_cond_insert_super _ _ _ _
        (mem_cond_insert_super _ _ _ _ h)))

theorem insertPos_nodup (l : List Pos) (p : Pos) (h : l.Nodup) : (insertPos l p).Nodup := by
  unfold insertPos
  split_ifs with hp
  · exact h
  · rw [List.nodup_append]
    exact ⟨h, List.nodup_singleton p, by
      intro a ha hb
      rw [List.mem_singleton] at hb
      rw [hb] at ha
      exact hp ha⟩

theorem cond_insert_nodup (cond : Prop) [Decidable cond] (f : List Pos) (p : Pos)
    (h : f.Nodup) : (if cond then insertPos f p else f).Nodup := by
  split_ifs
  · exact insertPos_nodup f p h
  · exact h

theorem primeAdds_nodup (m : MazeState) (y x : Nat) (f : List Pos) (h : f.Nodup) :
    (primeAdds m y x f).Nodup := by
  unfold primeAdds
  exact cond_insert_nodup _ _ _ (cond_insert_nodup _ _ _ (cond_insert_nodup _ _ _
    (cond_insert_nodup _ _ _ h)))

/-- Every admissible unvisited neighbour of the current cell is in the
frontier after the four add statements. -/
theorem primeAdds_complete (m : MazeState) (y x ny nx : Nat) (f : List Pos)
    (hy : y < m.height) (hx : x < m.width)
    (hok : NbrOK m y x ny nx) (hunv : (m.grid ny nx).visited = false) :
    ((ny, nx) : Pos) ∈ primeAdds m y x f := by
  obtain ⟨hadj, hby, hbx, hlg⟩ := hok
  unfold primeAdds
  rcases hadj with ⟨h1, h2⟩ | ⟨h1, h2⟩ | ⟨h1, h2⟩ | ⟨h1, h2⟩
  · subst h1; subst h2
    refine mem_cond_insert_super _ _ _ _
      (mem_cond_insert_super _ _ _ _ (mem_cond_insert_super _ _ _ _ ?_))
    rw [if_pos ⟨hbx, by simp [hunv], by simp [hlg]⟩]
    exact (insertPos_mem_iff f _ _).mpr (Or.inr rfl)
  · subst h1; subst h2
    refine mem_cond_insert_super _ _ _ _ (mem_cond_insert_super _ _ _ _ ?_)
    rw [if_pos ⟨hby, by simp [hunv], by simp [hlg]⟩]
    exact (insertPos_mem_iff _ _ _).mpr (Or.inr rfl)
  · subst h2
    have hy1 : 1 ≤ y := by omega
    have hyy : y - 1 = ny := by omega
    refine mem_cond_insert_super _ _ _ _ ?_
    rw [if_pos ⟨hy1, by rw [hyy]; simp [hunv], by rw [hyy]; simp [hlg]⟩]
    refine (insertPos_mem_iff _ _ _).mpr (Or.inr ?_)
    rw [Prod.mk.injEq]
    exact ⟨hyy.symm, rfl⟩
  · subst h1
    have hx1 : 1 ≤ x := by omega
    have hxx : x - 1 = nx := by omega
    rw [if_pos ⟨hx1, by rw [hxx]; simp [hunv], by rw [hxx]; simp [hlg]⟩]
    refine (insertPos_mem_iff _ _ _).mpr (Or.inr ?_)
    rw [Prod.mk.injEq]
    exact ⟨rfl, hxx.symm⟩

end AMazeIng

namespace AMazeIng

/-- The master postcondition of a prime run, by induction on fuel: with fuel
exceeding the number of unvisited cells, the run is monotone and
count-consistent, visits only cells of any invariant set `P` closed under
admissible steps, and ends with every admissible neighbour of every visited
cell visited (the frontier invariant guarantees closure at both exits). -/
theorem primeAux_post (pick : Nat → List Pos → Pos)
    (hpick : ∀ k l, l ≠ [] → pick k l ∈ l) (P : Pos → Prop) :
    ∀ fuel k m y x f log,
    CountConsistent m →
    (m.grid y x).visited = true → y < m.height → x < m.width → P (y, x) →
    (∀ a b, (m.grid a b).visited = true → P (a, b)) →
    (∀ p q : Pos, P p → AdjShape p.1 p.2 q.1 q.2 → q.1 < m.height → q.2 < m.width →
      (m.grid q.1 q.2).logo = false → P q) →
    f.Nodup →
    (∀ c ∈ f, (m.grid c.1 c.2).visited = false ∧ c.1 < m.height ∧ c.2 < m.width ∧
      (m.grid c.1 c.2).logo = false ∧ P c) →
    (∀ a b ny nx, (m.grid a b).visited = true → NbrOK m a b ny nx →
      (m.grid ny nx).visited = false → ((ny, nx) : Pos) ∈ f ∨ (a = y ∧ b = x)) →
    cellsCount m - m.visitedCount + 1 ≤ fuel →
    ((primeAux pick fuel k m y x f log).1.width = m.width ∧
     (primeAux pick fuel k m y x f log).1.height = m.height) ∧
    (∀ a b, (m.grid a b).visited = true →
      ((primeAux pick fuel k m y x f log).1.grid a b).visited = true) ∧
    CountConsistent (primeAux pick fuel k m y x f log).1 ∧
    (∀ a b, ((primeAux pick fuel k m y x f log).1.grid a b).visited = true → P (a, b)) ∧
    (∀ a b ny nx, ((primeAux pick fuel k m y x f log).1.grid a b).visited = true →
      NbrOK (primeAux pick fuel k m y x f log).1 a b ny nx →
      ((primeAux pick fuel k m y x f log).1.grid ny nx).visited = true) := by
  intro fuel
  induction fuel with
  | zero =>
    intro k m y x f log hc hvis hy hx hP hsound hPcl hnd hf hcov hfuel
    exact absurd hfuel (by omega)
  | succ fuel ih =>
    intro k m y x f log hc hvis hy hx hP hsound hPcl hnd hf hcov hfuel
    rw [primeAux]
    split_ifs with hcount
    · have haddinv : ∀ c ∈ primeAdds m y x f,
          (m.grid c.1 c.2).visited = false ∧ c.1 < m.height ∧ c.2 < m.width ∧
          (m.grid c.1 c.2).logo = false ∧ P c := by
        intro c hcm
        rcases primeAdds_sub m y x f c hcm with hin | ⟨hlg, hunv, hcase⟩
        · exact hf c hin
        · have hshape : AdjShape y x c.1 c.2 ∧ c.1 < m.height ∧ c.2 < m.width := by
            rcases hcase with ⟨rfl, hb⟩ | ⟨rfl, hb⟩ | ⟨rfl, hb⟩ | ⟨rfl, hb⟩
            · exact ⟨Or.inl ⟨rfl, rfl⟩, hy, hb⟩
            · exact ⟨Or.inr (Or.inl ⟨rfl, rfl⟩), hb, hx⟩
            · exact ⟨Or.inr (Or.inr (Or.inl ⟨by omega, rfl⟩)), by omega, hx⟩
            · exact ⟨Or.inr (Or.inr (Or.inr ⟨rfl, by omega⟩)), hy, by omega⟩
          exact ⟨hunv, hshape.2.1, hshape.2.2, hlg,
            hPcl (y, x) c hP hshape.1 hshape.2.1 hshape.2.2 hlg⟩
      have hcov2 : ∀ a b ny nx, (m.grid a b).visited = true → NbrOK m a b ny nx →
          (m.grid ny nx).visited = false → ((ny, nx) : Pos) ∈ primeAdds m y x f := by
        intro a b ny nx hv hok hunv
        rcases hcov a b ny nx hv hok hunv with hin | ⟨rfl, rfl⟩
        · exact primeAdds_super _ _ _ _ _ hin
        · exact primeAdds_complete m a b ny nx f hy hx hok hunv
      split
      · rename_i hadds
        refine ⟨⟨rfl, rfl⟩, fun a b h => h, hc, hsound, ?_⟩
        intro a b ny nx hv hok
        by_cases hq : (m.grid ny nx).visited = true
        · exact hq
        · have hmem := hcov2 a b ny nx hv hok (Bool.eq_false_iff.mpr hq)
          rw [hadds] at hmem
          exact absurd hmem (List.not_mem_nil _)
      · rename_i p f1 hadds
        have hselmem : pick k (p :: f1) ∈ p :: f1 := hpick k _ (List.cons_ne_nil p f1)
        have hselmem2 : pick k (p :: f1) ∈ primeAdds m y x f := by rw [hadds]; exact hselmem
        obtain ⟨hselunv, hselb1, hselb2, hsellogo, hselP⟩ :=
          haddinv (pick k (p :: f1)) hselmem2
        have hnd1 : (p :: f1).Nodup := by
          rw [← hadds]
          exact primeAdds_nodup m y x f hnd
        have hc1 : CountConsistent
            (markVisited (primeConnect m (pick k (p :: f1)).1 (pick k (p :: f1)).2)
              (pick k (p :: f1)).1 (pick k (p :: f1)).2) :=
          countConsistent_primeStep m _ _ hc hselb1 hselb2 hselunv
        obtain ⟨hdim, hmono, hcons, hsnd, hclos⟩ := ih (k + 1)
          (markVisited (primeConnect m (pick k (p :: f1)).1 (pick k (p :: f1)).2)
            (pick k (p :: f1)).1 (pick k (p :: f1)).2)
          (pick k (p :: f1)).1 (pick k (p :: f1)).2
          ((p :: f1).erase (pick k (p :: f1)))
          (log ++ [(m, pick k (p :: f1))])
          hc1
          (by rw [primeStep_visited_eval, if_pos ⟨rfl, rfl⟩])
          (by rw [primeStep_height]; exact hselb1)
          (by rw [primeStep_width]; exact hselb2)
          hselP
          (by
            intro a b hv
            rw [primeStep_visited_eval] at hv
            by_cases hab : a = (pick k (p :: f1)).1 ∧ b = (pick k (p :: f1)).2
            · obtain ⟨rfl, rfl⟩ := hab
              exact hselP
            · rw [if_neg hab] at hv
              exact hsound a b hv)
          (by
            intro q r hq hadj h1 h2 hlg
            rw [primeStep_logo] at hlg
            rw [primeStep_height] at h1
            rw [primeStep_width] at h2
            exact hPcl q r hq hadj h1 h2 hlg)
          (hnd1.erase _)
          (by
            intro c hcm
            have hcm2 := (List.Nodup.mem_erase_iff hnd1).mp hcm
            obtain ⟨hne, hcin⟩ := hcm2
            have hcin2 : c ∈ primeAdds m y x f := by rw [hadds]; exact hcin
            obtain ⟨hu, hb1, hb2, hl, hp⟩ := haddinv c hcin2
            refine ⟨?_, by rw [primeStep_height]; exact hb1,
              by rw [primeStep_width]; exact hb2,
              by rw [primeStep_logo]; exact hl, hp⟩
            rw [primeStep_visited_eval, if_neg ?_]
            · exact hu
            · intro hcomp
              exact hne (Prod.ext_iff.mpr hcomp)
          )
          (by
            intro a b ny nx hv1 hok1 hunv1
            have hok0 : NbrOK m a b ny nx := by
              refine @NbrOK_transfer
                (markVisited (primeConnect m (pick k (p :: f1)).1 (pick k (p :: f1)).2)
                  (pick k (p :: f1)).1 (pick k (p :: f1)).2) m
                (by rw [primeStep_width]) (by rw [primeStep_height])
                (fun u v => (primeStep_logo m _ _ u v).symm) _ _ _ _ hok1
            rw [primeStep_visited_eval] at hunv1
            by_cases hns : ny = (pick k (p :: f1)).1 ∧ nx = (pick k (p :: f1)).2
            · rw [if_pos hns] at hunv1
              exact absurd hunv1 (by simp)
            · rw [if_neg hns] at hunv1
              rw [primeStep_visited_eval] at hv1
              by_cases hab : a = (pick k (p :: f1)).1 ∧ b = (pick k (p :: f1)).2
              · exact Or.inr hab
              · rw [if_neg hab] at hv1
                have hmem := hcov2 a b ny nx hv1 hok0 hunv1
                rw [hadds] at hmem
                refine Or.inl ((List.Nodup.mem_erase_iff hnd1).mpr ⟨?_, hmem⟩)
                intro hcomp
                exact hns ⟨congrArg Prod.fst hcomp, congrArg Prod.snd hcomp⟩)
          (by
            have h1 : cellsCount (markVisited
                (primeConnect m (pick k (p :: f1)).1 (pick k (p :: f1)).2)
                (pick k (p :: f1)).1 (pick k (p :: f1)).2) = cellsCount m := by
              unfold cellsCount
              rw [primeStep_width, primeStep_height]
            have h2 := primeStep_count m (pick k (p :: f1)).1 (pick k (p :: f1)).2
            omega)
        refine ⟨⟨by rw [hdim.1, primeStep_width], by rw [hdim.2, primeStep_height]⟩,
          ?_, hcons, hsnd, hclos⟩
        intro a b hv
        exact hmono a b (primeStep_visited_mono m _ _ a b hv)
    · refine ⟨⟨rfl, rfl⟩, fun a b h => h, hc, hsound, ?_⟩
      intro a b ny nx hv hok
      exact full_visited m hc (by omega) ny nx hok.2.1 hok.2.2.1

end AMazeIng

namespace AMazeIng

/-- A completed dfs run from the unique visited cell marks exactly the
reachable cells. -/
theorem dfs_visited_iff (shuffle : Nat → List Pos → List Pos)
    (hsh : ∀ k l, (shuffle k l).Perm l)
    (fuel k : Nat) (m : MazeState) (y x : Nat)
    (hc : CountConsistent m)
    (hvone : ∀ a b, (m.grid a b).visited = true ↔ a = y ∧ b = x)
    (hy : y < m.height) (hx : x < m.width)
    (hfuel : 5 * (cellsCount m - m.visitedCount) + 6 ≤ fuel) :
    ((Maze.dfs shuffle fuel k m y x).1.width = m.width ∧
     (Maze.dfs shuffle fuel k m y x).1.height = m.height) ∧
    CountConsistent (Maze.dfs shuffle fuel k m y x).1 ∧
    (∀ c : Pos, ((Maze.dfs shuffle fuel k m y x).1.grid c.1 c.2).visited = true ↔
      ReachNL m c) := by
  have hvis : (m.grid y x).visited = true := (hvone y x).mpr ⟨rfl, rfl⟩
  obtain ⟨hpost, hnone, _⟩ := dfsGo_post shuffle hsh (ReachNL m) fuel k m y x none
    (cellsCount m - m.visitedCount)
    hc hvis hy hx (ReachNL.base (y, x) hvis)
    (fun a b h => ReachNL.base (a, b) h)
    (fun p q hp hadj h1 h2 hlg => ReachNL.step p q hp hadj h1 h2 hlg)
    (Nat.le_refl _)
    (fun _ => hfuel)
    (fun cs hcs => Option.noConfusion hcs)
  obtain ⟨hdim, _, hmono, hcons, hsound, hclos⟩ := hpost
  refine ⟨hdim, hcons, ?_⟩
  intro c
  constructor
  · exact fun h => hsound c.1 c.2 h
  · intro hr
    induction hr with
    | base p hp => exact hmono p.1 p.2 hp
    | step p q hp hadj h1 h2 hlg ihp =>
      have hok : NbrOK m p.1 p.2 q.1 q.2 := ⟨hadj, h1, h2, hlg⟩
      by_cases hvp : (m.grid p.1 p.2).visited = true
      · obtain ⟨hp1, hp2⟩ := (hvone p.1 p.2).mp hvp
        rw [hp1, hp2] at hok
        exact hnone rfl q.1 q.2 hok
      · exact hclos p.1 p.2 ihp (Bool.eq_false_iff.mpr hvp) q.1 q.2 hok

/-- A completed prime run from the unique visited cell marks exactly the
reachable cells. -/
theorem prime_visited_iff (pick : Nat → List Pos → Pos)
    (hpick : ∀ k l, l ≠ [] → pick k l ∈ l)
    (fuel : Nat) (m : MazeState) (y x : Nat)
    (hc : CountConsistent m)
    (hvone : ∀ a b, (m.grid a b).visited = true ↔ a = y ∧ b = x)
    (hy : y < m.height) (hx : x < m.width)
    (hfuel : cellsCount m - m.visitedCount + 1 ≤ fuel) :
    ((Maze.prime pick fuel m y x).1.width = m.width ∧
     (Maze.prime pick fuel m y x).1.height = m.height) ∧
    CountConsistent (Maze.prime pick fuel m y x).1 ∧
    (∀ c : Pos, ((Maze.prime pick fuel m y x).1.grid c.1 c.2).visited = true ↔
      ReachNL m c) := by
  have hvis : (m.grid y x).visited = true := (hvone y x).mpr ⟨rfl, rfl⟩
  obtain ⟨hdim, hmono, hcons, hsound, hclos⟩ := primeAux_post pick hpick (ReachNL m)
    fuel 0 m y x [] []
    hc hvis hy hx (ReachNL.base (y, x) hvis)
    (fun a b h => ReachNL.base (a, b) h)
    (fun p q hp hadj h1 h2 hlg => ReachNL.step p q hp hadj h1 h2 hlg)
    List.nodup_nil
    (fun c hcm => absurd hcm (List.not_mem_nil c))
    (fun a b ny nx hv _ _ => Or.inr ((hvone a b).mp hv))
    hfuel
  refine ⟨hdim, hcons, ?_⟩
  intro c
  constructor
  · exact fun h => hsound c.1 c.2 h
  · intro hr
    induction hr with
    | base p hp => exact hmono p.1 p.2 hp
    | step p q hp hadj h1 h2 hlg ihp =>
      refine hclos p.1 p.2 q.1 q.2 ihp ⟨hadj, ?_, ?_, ?_⟩
      · rw [hdim.2]; exact h1
      · rw [hdim.1]; exact h2
      · show ((primeAux pick fuel 0 m y x [] []).1.grid q.1 q.2).logo = false
        rw [primeAux_logo]
        exact hlg

/-- When the visited flags mark exactly the reachable set, the counter counts
the reachable in-bounds cells. -/
theorem count_eq_reach_card (m F : MazeState)
    (hw : F.width = m.width) (hh : F.height = m.height)
    (hcons : CountConsistent F)
    (hiff : ∀ c : Pos, (F.grid c.1 c.2).visited = true ↔ ReachNL m c) :
    F.visitedCount =
      Set.ncard { c : Pos | c.1 < m.height ∧ c.2 < m.width ∧ ReachNL m c } := by
  have hcons2 : F.visitedCount = (visitedFinset F).card := hcons
  rw [hcons2, ← Set.ncard_coe_Finset]
  congr 1
  ext p
  simp only [Finset.coe_filter, mem_visitedFinset, Set.mem_setOf_eq, Finset.mem_coe]
  rw [hw, hh]
  constructor
  · rintro ⟨h1, h2, h3⟩
    exact ⟨h1, h2, (hiff p).mp h3⟩
  · rintro ⟨h1, h2, h3⟩
    exact ⟨h1, h2, (hiff p).mpr h3⟩

theorem reachNL_nonlogo (m : MazeState)
    (hstart : ∀ a b, (m.grid a b).visited = true → (m.grid a b).logo = false) :
    ∀ c : Pos, ReachNL m c → (m.grid c.1 c.2).logo = false := by
  intro c hr
  induction hr with
  | base p hp => exact hstart p.1 p.2 hp
  | step p q _ _ _ _ hlg _ => exact hlg

end AMazeIng

namespace AMazeIng

/-- C5: a generation run started at the single visited cell terminates with
the visited counter equal to the number of non-reserved cells reachable from
that cell: for any shuffle oracle, a dfs run with sufficient fuel (the code's
recursion has no fuel; fuel here only bounds the modelled call depth) marks
exactly the reachable cells and its counter equals the cardinality of the
in-bounds reachable set, the same holds for a prime run under any pick oracle
— at both of its exits, counter saturation and frontier exhaustion — and
every reachable cell is non-reserved whenever the initially visited cells
are. -/
theorem generation_terminates_at_reachable_count :
    (∀ (shuffle : Nat → List Pos → List Pos), (∀ k l, (shuffle k l).Perm l) →
      ∀ fuel k m y x, CountConsistent m →
        (∀ a b, (m.grid a b).visited = true ↔ a = y ∧ b = x) →
        y < m.height → x < m.width →
        5 * (cellsCount m - m.visitedCount) + 6 ≤ fuel →
        (∀ c : Pos, ((Maze.dfs shuffle fuel k m y x).1.grid c.1 c.2).visited = true ↔
          ReachNL m c) ∧
        (Maze.dfs shuffle fuel k m y x).1.visitedCount =
          Set.ncard { c : Pos | c.1 < m.height ∧ c.2 < m.width ∧ ReachNL m c }) ∧
    (∀ (pick : Nat → List Pos → Pos), (∀ k l, l ≠ [] → pick k l ∈ l) →
      ∀ fuel m y x, CountConsistent m →
        (∀ a b, (m.grid a b).visited = true ↔ a = y ∧ b = x) →
        y < m.height → x < m.width →
        cellsCount m - m.visitedCount + 1 ≤ fuel →
        (∀ c : Pos, ((Maze.prime pick fuel m y x).1.grid c.1 c.2).visited = true ↔
          ReachNL m c) ∧
        (Maze.prime pick fuel m y x).1.visitedCount =
          Set.ncard { c : Pos | c.1 < m.height ∧ c.2 < m.width ∧ ReachNL m c }) ∧
    (∀ m : MazeState, (∀ a b, (m.grid a b).visited = true → (m.grid a b).logo = false) →
      ∀ c : Pos, ReachNL m c → (m.grid c.1 c.2).logo = false) := by
  refine ⟨?_, ?_, reachNL_nonlogo⟩
  · intro shuffle hsh fuel k m y x hc hvone hy hx hfuel
    obtain ⟨hdim, hcons, hiff⟩ :=
      dfs_visited_iff shuffle hsh fuel k m y x hc hvone hy hx hfuel
    exact ⟨hiff, count_eq_reach_card m _ hdim.1 hdim.2 hcons hiff⟩
  · intro pick hpick fuel m y x hc hvone hy hx hfuel
    obtain ⟨hdim, hcons, hiff⟩ :=
      prime_visited_iff pick hpick fuel m y x hc hvone hy hx hfuel
    exact ⟨hiff, count_eq_reach_card m _ hdim.1 hdim.2 hcons hiff⟩

/-- Concrete instance of C5: on a freshly constructed 2×2 maze with entry
(0,0), the hypotheses hold, a dfs run marks exactly the reachable cells, a
prime run's counter equals the reachable count, and reachable cells are
non-reserved. -/
theorem generation_terminates_at_reachable_count_witness :
    CountConsistent (Maze.make 2 2 (0, 0) (1, 1) true) ∧
    (∀ c : Pos,
      ((Maze.dfs (fun _ l => l) 25 0 (Maze.make 2 2 (0, 0) (1, 1) true) 0 0).1.grid
        c.1 c.2).visited = true ↔ ReachNL (Maze.make 2 2 (0, 0) (1, 1) true) c) ∧
    (Maze.prime (fun _ l => l.headD (0, 0)) 10
        (Maze.make 2 2 (0, 0) (1, 1) true) 0 0).1.visitedCount =
      Set.ncard { c : Pos | c.1 < (Maze.make 2 2 (0, 0) (1, 1) true).height ∧
        c.2 < (Maze.make 2 2 (0, 0) (1, 1) true).width ∧
        ReachNL (Maze.make 2 2 (0, 0) (1, 1) true) c } ∧
    (∀ c : Pos, ReachNL (Maze.make 2 2 (0, 0) (1, 1) true) c →
      ((Maze.make 2 2 (0, 0) (1, 1) true).grid c.1 c.2).logo = false) :=
  ⟨by unfold CountConsistent; decide,
   (generation_terminates_at_reachable_count.1 (fun _ l => l)
     (fun k l => List.Perm.refl l) 25 0 (Maze.make 2 2 (0, 0) (1, 1) true) 0 0
     (by unfold CountConsistent; decide)
     (fun a b => make_visited 2 2 (0, 0) (1, 1) true a b)
     (by decide) (by decide) (by decide)).1,
   (generation_terminates_at_reachable_count.2.1 (fun _ l => l.headD (0, 0))
     (fun k l hl => by
       cases l with
       | nil => exact absurd rfl hl
       | cons a t => exact List.mem_cons_self a t)
     10 (Maze.make 2 2 (0, 0) (1, 1) true) 0 0
     (by unfold CountConsistent; decide)
     (fun a b => make_visited 2 2 (0, 0) (1, 1) true a b)
     (by decide) (by decide) (by decide)).2,
   generation_terminates_at_reachable_count.2.2 (Maze.make 2 2 (0, 0) (1, 1) true)
     (by
       intro a b hv
       obtain ⟨rfl, rfl⟩ := (make_visited 2 2 (0, 0) (1, 1) true a b).mp hv
       decide)⟩

end AMazeIng

namespace AMazeIng

/-! ### C2: BFS shortest paths -/

/-- An open-wall walk of `L` edges from `s`, each step moving to a walkable
neighbour (`get_neighbors`). -/
inductive Walk (m : MazeState) (s : Pos) : Pos → Nat → Prop
  | nil : Walk m s s 0
  | snoc (u v : Pos) (L : Nat) : Walk m s u L → v ∈ get_neighbors m u.1 u.2 →
      Walk m s v (L + 1)

theorem resetVisited_visited (m : MazeState) (a b : Nat) :
    ((resetVisited m).grid a b).visited = false := rfl

theorem setVisitedFlag_visited_eval (m : MazeState) (y x a b : Nat) :
    ((setVisitedFlag m y x).grid a b).visited =
      if a = y ∧ b = x then true else (m.grid a b).visited := by
  unfold setVisitedFlag
  dsimp only
  rw [updateAt_eval]
  split_ifs with h
  · rfl
  · rfl

theorem setVisitedFlag_width (m : MazeState) (y x : Nat) :
    (setVisitedFlag m y x).width = m.width := rfl

theorem setVisitedFlag_height (m : MazeState) (y x : Nat) :
    (setVisitedFlag m y x).height = m.height := rfl

theorem setVisitedFlag_walls (m : MazeState) (y x a b : Nat) :
    ((setVisitedFlag m y x).grid a b).wallT = (m.grid a b).wallT ∧
    ((setVisitedFlag m y x).grid a b).wallB = (m.grid a b).wallB ∧
    ((setVisitedFlag m y x).grid a b).wallL = (m.grid a b).wallL ∧
    ((setVisitedFlag m y x).grid a b).wallR = (m.grid a b).wallR := by
  unfold setVisitedFlag
  dsimp only
  rw [updateAt_eval]
  split_ifs with h
  · obtain ⟨rfl, rfl⟩ := h
    exact ⟨rfl, rfl, rfl, rfl⟩
  · exact ⟨rfl, rfl, rfl, rfl⟩

theorem get_neighbors_setVisitedFlag (m : MazeState) (u v y x : Nat) :
    get_neighbors (setVisitedFlag m u v) y x = get_neighbors m y x := by
  unfold get_neighbors
  obtain ⟨hT, hB, hL, hR⟩ := setVisitedFlag_walls m u v y x
  rw [hT, hB, hL, hR, setVisitedFlag_width, setVisitedFlag_height]

theorem get_neighbors_resetVisited (m : MazeState) (y x : Nat) :
    get_neighbors (resetVisited m) y x = get_neighbors m y x := rfl

theorem get_neighbors_bounds (m : MazeState) (y x : Nat)
    (hy : y < m.height) (hx : x < m.width) :
    ∀ c ∈ get_neighbors m y x, c.1 < m.height ∧ c.2 < m.width := by
  intro c hc
  unfold get_neighbors at hc
  simp only [List.mem_append] at hc
  rcases hc with ((h | h) | h) | h <;>
    (split_ifs at h with hcond <;>
      simp only [List.mem_singleton, List.not_mem_nil] at h) <;> subst h
  · exact ⟨hy, hcond.2⟩
  · exact ⟨hcond.2, hx⟩
  · exact ⟨hy, by omega⟩
  · exact ⟨by omega, hx⟩

theorem visitedFinset_setVisitedFlag (m : MazeState) (y x : Nat)
    (hby : y < m.height) (hbx : x < m.width) :
    visitedFinset (setVisitedFlag m y x) = insert ((y, x) : Pos) (visitedFinset m) := by
  ext p
  obtain ⟨pa, pb⟩ := p
  rw [mem_visitedFinset, Finset.mem_insert, mem_visitedFinset, setVisitedFlag_width,
    setVisitedFlag_height]
  show pa < m.height ∧ pb < m.width ∧ _ ↔ _
  rw [setVisitedFlag_visited_eval]
  constructor
  · rintro ⟨h1, h2, h3⟩
    by_cases hp : pa = y ∧ pb = x
    · exact Or.inl (by rw [Prod.mk.injEq]; exact hp)
    · rw [if_neg hp] at h3
      exact Or.inr ⟨h1, h2, h3⟩
  · rintro (hp | ⟨h1, h2, h3⟩)
    · rw [Prod.mk.injEq] at hp
      refine ⟨by rw [hp.1]; exact hby, by rw [hp.2]; exact hbx, ?_⟩
      rw [if_pos hp]
    · refine ⟨h1, h2, ?_⟩
      split_ifs with hp
      · rfl
      · exact h3

theorem bfsInit_visited (m : MazeState) (e : Pos) (a b : Nat) :
    ((setVisitedFlag (resetVisited m) e.1 e.2).grid a b).visited = true ↔
      a = e.1 ∧ b = e.2 := by
  rw [setVisitedFlag_visited_eval]
  split_ifs with h
  · exact ⟨fun _ => h, fun _ => rfl⟩
  · rw [resetVisited_visited]
    exact ⟨fun hf => Bool.noConfusion hf, fun hh => absurd hh h⟩

theorem chainToStart_cons (parent : Pos → Option Pos) (fuel : Nat) (p : Pos) :
    ∃ t, chainToStart parent fuel p = p :: t := by
  cases fuel with
  | zero => exact ⟨[], rfl⟩
  | succ fuel => exact ⟨_, rfl⟩

end AMazeIng

namespace AMazeIng

/-- Loop-entry invariant of bfs_solver, relative to the original maze `M`,
the start cell, and a ghost distance labelling `D`. -/
structure BfsInv (M : MazeState) (start : Pos) (D : Pos → Nat)
    (m : MazeState) (parent : Pos → Option Pos) (q : List Pos) : Prop where
  gn : ∀ y x, get_neighbors m y x = get_neighbors M y x
  wd : m.width = M.width
  ht : m.height = M.height
  bounds : ∀ v : Pos, (m.grid v.1 v.2).visited = true → v.1 < M.height ∧ v.2 < M.width
  startVis : (m.grid start.1 start.2).visited = true
  startD : D start = 0
  startPar : parent start = none
  qVis : ∀ v ∈ q, (m.grid v.1 v.2).visited = true
  par : ∀ v : Pos, (m.grid v.1 v.2).visited = true → v ≠ start →
    ∃ u, parent v = some u ∧ (m.grid u.1 u.2).visited = true ∧
      D v = D u + 1 ∧ v ∈ get_neighbors M u.1 u.2
  ord : ∃ d q1 q2, q = q1 ++ q2 ∧ (∀ v ∈ q1, D v = d) ∧ (∀ v ∈ q2, D v = d + 1) ∧
    (∀ v : Pos, (m.grid v.1 v.2).visited = true → D v ≤ d + 1)
  cov : ∀ v : Pos, (m.grid v.1 v.2).visited = true →
    ∀ w ∈ get_neighbors M v.1 v.2, (m.grid w.1 w.2).visited = false → v ∈ q
  proc : ∀ v : Pos, (m.grid v.1 v.2).visited = true → v ∉ q →
    ∀ w ∈ get_neighbors M v.1 v.2, (m.grid w.1 w.2).visited = true ∧ D w ≤ D v + 1
  dcard : ∀ v : Pos, (m.grid v.1 v.2).visited = true → D v + 1 ≤ (visitedFinset m).card

/-- Mid-iteration invariant while the dequeued cell `curr` still has the
suffix `pending` of its neighbour list to inspect. -/
structure BfsMid (M : MazeState) (start curr : Pos) (D : Pos → Nat)
    (m : MazeState) (parent : Pos → Option Pos) (q : List Pos)
    (pending : List Pos) : Prop where
  gn : ∀ y x, get_neighbors m y x = get_neighbors M y x
  wd : m.width = M.width
  ht : m.height = M.height
  bounds : ∀ v : Pos, (m.grid v.1 v.2).visited = true → v.1 < M.height ∧ v.2 < M.width
  startVis : (m.grid start.1 start.2).visited = true
  startD : D start = 0
  startPar : parent start = none
  currVis : (m.grid curr.1 curr.2).visited = true
  qVis : ∀ v ∈ q, (m.grid v.1 v.2).visited = true
  par : ∀ v : Pos, (m.grid v.1 v.2).visited = true → v ≠ start →
    ∃ u, parent v = some u ∧ (m.grid u.1 u.2).visited = true ∧
      D v = D u + 1 ∧ v ∈ get_neighbors M u.1 u.2
  pend : ∀ w ∈ pending, w ∈ get_neighbors M curr.1 curr.2
  ord2 : ∃ q1 q2, q = q1 ++ q2 ∧ (∀ v ∈ q1, D v = D curr) ∧
    (∀ v ∈ q2, D v = D curr + 1)
  vd : ∀ v : Pos, (m.grid v.1 v.2).visited = true → D v ≤ D curr + 1
  cov2 : ∀ v : Pos, (m.grid v.1 v.2).visited = true →
    ∀ w ∈ get_neighbors M v.1 v.2, (m.grid w.1 w.2).visited = false →
      v ∈ q ∨ (v = curr ∧ w ∈ pending)
  proc2 : ∀ v : Pos, (m.grid v.1 v.2).visited = true → v ∉ q → v ≠ curr →
    ∀ w ∈ get_neighbors M v.1 v.2, (m.grid w.1 w.2).visited = true ∧ D w ≤ D v + 1
  done : ∀ w ∈ get_neighbors M curr.1 curr.2,
    w ∈ pending ∨ ((m.grid w.1 w.2).visited = true ∧ D w ≤ D curr + 1)
  dcard : ∀ v : Pos, (m.grid v.1 v.2).visited = true → D v + 1 ≤ (visitedFinset m).card

/-- Dequeuing the head of the queue turns the loop invariant into the
mid-iteration invariant with the full neighbour list pending. -/
theorem BfsInv.pop {M : MazeState} {start : Pos} {D : Pos → Nat} {m : MazeState}
    {parent : Pos → Option Pos} {curr : Pos} {rest : List Pos}
    (h : BfsInv M start D m parent (curr :: rest)) :
    BfsMid M start curr D m parent rest (get_neighbors M curr.1 curr.2) := by
  have hcv : (m.grid curr.1 curr.2).visited = true :=
    h.qVis curr (List.mem_cons_self curr rest)
  obtain ⟨d, q1, q2, hq, h1, h2, hvd⟩ := h.ord
  have hord2 : (∃ r1 r2, rest = r1 ++ r2 ∧ (∀ v ∈ r1, D v = D curr) ∧
      (∀ v ∈ r2, D v = D curr + 1)) ∧ (d ≤ D curr) := by
    cases q1 with
    | nil =>
      rw [List.nil_append] at hq
      cases q2 with
      | nil => simp at hq
      | cons a t =>
        rw [List.cons.injEq] at hq
        obtain ⟨rfl, rfl⟩ := hq
        have hda : D curr = d + 1 := h2 curr (List.mem_cons_self _ _)
        refine ⟨⟨rest, [], by simp, ?_, fun v hv => absurd hv (List.not_mem_nil v)⟩,
          by omega⟩
        intro v hv
        rw [h2 v (List.mem_cons_of_mem _ hv), hda]
    | cons a t =>
      rw [List.cons_append, List.cons.injEq] at hq
      obtain ⟨rfl, rfl⟩ := hq
      have hda : D curr = d := h1 curr (List.mem_cons_self _ _)
      refine ⟨⟨t, q2, rfl, ?_, ?_⟩, by omega⟩
      · intro v hv
        rw [h1 v (List.mem_cons_of_mem _ hv), hda]
      · intro v hv
        rw [h2 v hv, hda]
  refine ⟨h.gn, h.wd, h.ht, h.bounds, h.startVis, h.startD, h.startPar, hcv,
    fun v hv => h.qVis v (List.mem_cons_of_mem _ hv), h.par,
    fun w hw => hw, hord2.1, ?_, ?_, ?_, fun w hw => Or.inl hw, h.dcard⟩
  · intro v hv
    have := hvd v hv
    omega
  · intro v hv w hw hwu
    rcases List.mem_cons.mp (h.cov v hv w hw hwu) with hvc | hvr
    · exact Or.inr ⟨hvc, by rw [← hvc]; exact hw⟩
    · exact Or.inl hvr
  · intro v hv hvq hvc w hw
    refine h.proc v hv ?_ w hw
    intro hmem
    rcases List.mem_cons.mp hmem with h' | h'
    · exact hvc h'
    · exact hvq h'

/-- With no pending neighbours left, the mid-iteration invariant restores the
loop invariant. -/
theorem BfsMid.unpop {M : MazeState} {start curr : Pos} {D : Pos → Nat}
    {m : MazeState} {parent : Pos → Option Pos} {q : List Pos}
    (h : BfsMid M start curr D m parent q []) :
    BfsInv M start D m parent q := by
  obtain ⟨r1, r2, hq, h1, h2⟩ := h.ord2
  refine ⟨h.gn, h.wd, h.ht, h.bounds, h.startVis, h.startD, h.startPar, h.qVis, h.par,
    ⟨D curr, r1, r2, hq, h1, h2, h.vd⟩, ?_, ?_, h.dcard⟩
  · intro v hv w hw hwu
    rcases h.cov2 v hv w hw hwu with hvq | ⟨_, hwp⟩
    · exact hvq
    · exact absurd hwp (List.not_mem_nil w)
  · intro v hv hvq w hw
    by_cases hvc : v = curr
    · rcases h.done w (by rw [← hvc]; exact hw) with hwp | hfact
      · exact absurd hwp (List.not_mem_nil w)
      · rw [hvc]
        exact hfact
    · exact h.proc2 v hv hvq hvc w hw

end AMazeIng

namespace AMazeIng

/-- Folding the neighbour-inspection step over the pending list preserves the
mid-iteration invariant (for a suitably extended distance labelling) and
empties the pending list. -/
theorem bfs_fold_inv (M : MazeState) (start curr : Pos) :
    ∀ (pending : List Pos) (D : Pos → Nat) (m : MazeState)
      (parent : Pos → Option Pos) (q : List Pos),
    BfsMid M start curr D m parent q pending →
    ∃ D2, BfsMid M start curr D2
      (pending.foldl (bfsExpandStep curr) (m, parent, q)).1
      (pending.foldl (bfsExpandStep curr) (m, parent, q)).2.1
      (pending.foldl (bfsExpandStep curr) (m, parent, q)).2.2 [] := by
  intro pending
  induction pending with
  | nil => intro D m parent q h; exact ⟨D, h⟩
  | cons n pending ih =>
    intro D m parent q h
    have hnnb : n ∈ get_neighbors M curr.1 curr.2 := h.pend n (List.mem_cons_self _ _)
    rw [List.foldl_cons]
    by_cases hvn : (m.grid n.1 n.2).visited = true
    · have hstep : bfsExpandStep curr (m, parent, q) n = (m, parent, q) := by
        unfold bfsExpandStep
        rw [if_pos hvn]
      rw [hstep]
      refine ih D m parent q ⟨h.gn, h.wd, h.ht, h.bounds, h.startVis, h.startD,
        h.startPar, h.currVis, h.qVis, h.par,
        (fun w hw => h.pend w (List.mem_cons_of_mem _ hw)), h.ord2, h.vd, ?_, h.proc2,
        ?_, h.dcard⟩
      · intro v hv w hw hwu
        rcases h.cov2 v hv w hw hwu with hq | ⟨hvc, hwp⟩
        · exact Or.inl hq
        · rcases List.mem_cons.mp hwp with rfl | hwp2
          · rw [hwu] at hvn
            exact Bool.noConfusion hvn
          · exact Or.inr ⟨hvc, hwp2⟩
      · intro w hw
        rcases h.done w hw with hwp | hfact
        · rcases List.mem_cons.mp hwp with rfl | hwp2
          · exact Or.inr ⟨hvn, h.vd w hvn⟩
          · exact Or.inl hwp2
        · exact Or.inr hfact
    · have hstep : bfsExpandStep curr (m, parent, q) n =
          (setVisitedFlag m n.1 n.2,
           fun p => if p = n then some curr else parent p, q ++ [n]) := by
        unfold bfsExpandStep
        rw [if_neg hvn]
      rw [hstep]
      have hcb := h.bounds curr h.currVis
      have hnb : n.1 < M.height ∧ n.2 < M.width := by
        have := get_neighbors_bounds M curr.1 curr.2 hcb.1 hcb.2 n hnnb
        exact this
      have hnbm : n.1 < m.height ∧ n.2 < m.width := by
        rw [h.wd, h.ht]
        exact hnb
      have hnfin : visitedFinset (setVisitedFlag m n.1 n.2) =
          insert n (visitedFinset m) := by
        rw [visitedFinset_setVisitedFlag m n.1 n.2 hnbm.1 hnbm.2]
      have hnnotin : n ∉ visitedFinset m := by
        rw [mem_visitedFinset]
        rintro ⟨_, _, hv⟩
        exact hvn hv
      have hncard : (visitedFinset (setVisitedFlag m n.1 n.2)).card =
          (visitedFinset m).card + 1 := by
        rw [hnfin, Finset.card_insert_of_not_mem hnnotin]
      have hmono : ∀ v : Pos, (m.grid v.1 v.2).visited = true →
          ((setVisitedFlag m n.1 n.2).grid v.1 v.2).visited = true := by
        intro v hv
        rw [setVisitedFlag_visited_eval]
        split_ifs with hp
        · rfl
        · exact hv
      have hne_of_vis : ∀ v : Pos, (m.grid v.1 v.2).visited = true → v ≠ n := by
        intro v hv hvn2
        rw [hvn2] at hv
        exact hvn hv
      have hnvis : ((setVisitedFlag m n.1 n.2).grid n.1 n.2).visited = true := by
        rw [setVisitedFlag_visited_eval, if_pos ⟨rfl, rfl⟩]
      have heval : ∀ v : Pos, ((setVisitedFlag m n.1 n.2).grid v.1 v.2).visited = true →
          v = n ∨ (m.grid v.1 v.2).visited = true := by
        intro v hv
        rw [setVisitedFlag_visited_eval] at hv
        by_cases hp : v.1 = n.1 ∧ v.2 = n.2
        · left
          obtain ⟨a, b⟩ := v
          obtain ⟨c, d⟩ := n
          rw [Prod.mk.injEq]
          exact hp
        · rw [if_neg hp] at hv
          exact Or.inr hv
      have hcurr_ne : curr ≠ n := hne_of_vis curr h.currVis
      refine ih (fun p => if p = n then D curr + 1 else D p) _ _ _
        ⟨?_, ?_, ?_, ?_, ?_, ?_, ?_, ?_, ?_, ?_, ?_, ?_, ?_, ?_, ?_, ?_, ?_⟩
      · intro y x
        rw [get_neighbors_setVisitedFlag]
        exact h.gn y x
      · rw [setVisitedFlag_width]; exact h.wd
      · rw [setVisitedFlag_height]; exact h.ht
      · intro v hv
        rcases heval v hv with rfl | hv2
        · exact hnb
        · exact h.bounds v hv2
      · exact hmono start h.startVis
      · rw [if_neg (hne_of_vis start h.startVis)]
        exact h.startD
      · rw [if_neg (hne_of_vis start h.startVis)]
        exact h.startPar
      · exact hmono curr h.currVis
      · intro v hv
        rcases List.mem_append.mp hv with hv2 | hv2
        · exact hmono v (h.qVis v hv2)
        · rw [List.mem_singleton] at hv2
          rw [hv2]
          exact hnvis
      · intro v hv hvs
        rcases heval v hv with rfl | hv2
        · refine ⟨curr, by rw [if_pos rfl], hmono curr h.currVis, ?_, hnnb⟩
          rw [if_pos rfl, if_neg hcurr_ne]
        · obtain ⟨u, hu1, hu2, hu3, hu4⟩ := h.par v hv2 hvs
          refine ⟨u, ?_, hmono u hu2, ?_, hu4⟩
          · rw [if_neg (hne_of_vis v hv2)]
            exact hu1
          · rw [if_neg (hne_of_vis v hv2), if_neg (hne_of_vis u hu2)]
            exact hu3
      · intro w hw
        exact h.pend w (List.mem_cons_of_mem _ hw)
      · obtain ⟨q1, q2, hq, h1, h2⟩ := h.ord2
        refine ⟨q1, q2 ++ [n], by rw [hq, List.append_assoc], ?_, ?_⟩
        · intro v hv
          rw [if_neg (hne_of_vis v (h.qVis v (hq ▸ List.mem_append_left q2 hv))),
            if_neg hcurr_ne]
          exact h1 v hv
        · intro v hv
          rcases List.mem_append.mp hv with hv2 | hv2
          · rw [if_neg (hne_of_vis v (h.qVis v (hq ▸ List.mem_append_right q1 hv2))),
              if_neg hcurr_ne]
            exact h2 v hv2
          · rw [List.mem_singleton] at hv2
            rw [hv2, if_pos rfl, if_neg hcurr_ne]
      · intro v hv
        rw [if_neg hcurr_ne]
        rcases heval v hv with rfl | hv2
        · rw [if_pos rfl]
        · rw [if_neg (hne_of_vis v hv2)]
          exact h.vd v hv2
      · intro v hv w hw hwu
        have hwu2 : (m.grid w.1 w.2).visited = false := by
          rw [setVisitedFlag_visited_eval] at hwu
          split_ifs at hwu with hp
          · exact hwu
        rcases heval v hv with rfl | hv2
        · exact Or.inl (List.mem_append_right q (List.mem_singleton.mpr rfl))
        · rcases h.cov2 v hv2 w hw hwu2 with hq | ⟨hvc, hwp⟩
          · exact Or.inl (List.mem_append_left _ hq)
          · rcases List.mem_cons.mp hwp with rfl | hwp2
            · exfalso
              rw [setVisitedFlag_visited_eval, if_pos ⟨rfl, rfl⟩] at hwu
              exact absurd hwu (by decide)
            · exact Or.inr ⟨hvc, hwp2⟩
      · intro v hv hvq hvc w hw
        have hvq2 : v ∉ q := fun hmem => hvq (List.mem_append_left _ hmem)
        have hvn2 : v ≠ n := fun hmem => hvq (by
          rw [hmem]
          exact List.mem_append_right q (List.mem_singleton.mpr rfl))
        have hv2 : (m.grid v.1 v.2).visited = true := by
          rcases heval v hv with rfl | hv2
          · exact absurd rfl hvn2
          · exact hv2
        obtain ⟨hw1, hw2⟩ := h.proc2 v hv2 hvq2 hvc w hw
        refine ⟨hmono w hw1, ?_⟩
        rw [if_neg (hne_of_vis w hw1), if_neg (hne_of_vis v hv2)]
        exact hw2
      · intro w hw
        rcases h.done w hw with hwp | ⟨hfact1, hfact2⟩
        · rcases List.mem_cons.mp hwp with rfl | hwp2
          · refine Or.inr ⟨hnvis, ?_⟩
            rw [if_pos rfl, if_neg hcurr_ne]
          · exact Or.inl hwp2
        · refine Or.inr ⟨hmono w hfact1, ?_⟩
          rw [if_neg (hne_of_vis w hfact1), if_neg hcurr_ne]
          exact hfact2
      · intro v hv
        rw [hncard]
        rcases heval v hv with rfl | hv2
        · rw [if_pos rfl]
          have := h.dcard curr h.currVis
          omega
        · rw [if_neg (hne_of_vis v hv2)]
          have := h.dcard v hv2
          omega

end AMazeIng

namespace AMazeIng

/-- Distance lower bounds along any open-wall walk: a visited endpoint has
label at most the walk length, an unvisited endpoint forces the walk past the
whole frontier, whose labels are at least the current cell's. -/
theorem bfs_walk_bound {M : MazeState} {start curr : Pos} {D : Pos → Nat}
    {m : MazeState} {parent : Pos → Option Pos} {q : List Pos} {pending : List Pos}
    (h : BfsMid M start curr D m parent q pending) :
    ∀ L (v : Pos), Walk M start v L →
      ((m.grid v.1 v.2).visited = true → D v ≤ L) ∧
      ((m.grid v.1 v.2).visited = false → D curr + 1 ≤ L) := by
  have hqlev : ∀ v ∈ q, D curr ≤ D v := by
    obtain ⟨q1, q2, hq, h1, h2⟩ := h.ord2
    intro v hv
    rw [hq] at hv
    rcases List.mem_append.mp hv with hv2 | hv2
    · rw [h1 v hv2]
    · rw [h2 v hv2]; omega
  intro L v hw
  induction hw with
  | nil =>
    refine ⟨fun _ => by rw [h.startD], fun hf => ?_⟩
    rw [h.startVis] at hf
    exact Bool.noConfusion hf
  | snoc u v L hwu hnb ihw =>
    constructor
    · intro hvv
      by_cases hvu : (m.grid u.1 u.2).visited = true
      · by_cases huq : u ∈ q
        · have h1 := h.vd v hvv
          have h2 := hqlev u huq
          have h3 := ihw.1 hvu
          omega
        · by_cases huc : u = curr
          · have h1 := h.vd v hvv
            have h3 := ihw.1 hvu
            rw [huc] at h3
            omega
          · have h2 := (h.proc2 u hvu huq huc v hnb).2
            have h3 := ihw.1 hvu
            omega
      · have h1 := h.vd v hvv
        have h2 := ihw.2 (Bool.eq_false_iff.mpr hvu)
        omega
    · intro hvv
      by_cases hvu : (m.grid u.1 u.2).visited = true
      · rcases h.cov2 u hvu v hnb hvv with huq | ⟨huc, _⟩
        · have h2 := hqlev u huq
          have h3 := ihw.1 hvu
          omega
        · have h3 := ihw.1 hvu
          rw [huc] at h3
          omega
      · have h2 := ihw.2 (Bool.eq_false_iff.mpr hvu)
        omega

/-- The parent chain of a visited cell has exactly its label plus one cells,
starts at the cell, ends at the start, and steps to a walkable neighbour with
label one less at every link. -/
theorem bfs_chain_ok {M : MazeState} {start curr : Pos} {D : Pos → Nat}
    {m : MazeState} {parent : Pos → Option Pos} {q : List Pos} {pending : List Pos}
    (h : BfsMid M start curr D m parent q pending) :
    ∀ dv fuel (v : Pos), (m.grid v.1 v.2).visited = true → D v = dv → dv < fuel →
      (chainToStart parent fuel v).length = dv + 1 ∧
      (chainToStart parent fuel v).head? = some v ∧
      (chainToStart parent fuel v).getLast? = some start ∧
      List.Chain' (fun a b : Pos => a ∈ get_neighbors M b.1 b.2 ∧ D a = D b + 1)
        (chainToStart parent fuel v) := by
  intro dv
  induction dv with
  | zero =>
    intro fuel v hv hD hf
    have hvs : v = start := by
      by_contra hne
      obtain ⟨u, _, _, hDu, _⟩ := h.par v hv hne
      omega
    subst hvs
    cases fuel with
    | zero => omega
    | succ fuel =>
      have hch : chainToStart parent (fuel + 1) v = [v] := by
        rw [chainToStart, h.startPar]
      rw [hch]
      exact ⟨rfl, rfl, rfl, List.chain'_singleton v⟩
  | succ dv ihd =>
    intro fuel v hv hD hf
    have hne : v ≠ start := by
      intro he
      rw [he, h.startD] at hD
      exact absurd hD (by omega)
    obtain ⟨u, hu1, hu2, hu3, hu4⟩ := h.par v hv hne
    have hDu : D u = dv := by omega
    cases fuel with
    | zero => omega
    | succ fuel =>
      have hch : chainToStart parent (fuel + 1) v =
          v :: chainToStart parent fuel u := by
        rw [chainToStart, hu1]
      rw [hch]
      obtain ⟨hlen, hhd, hlast, hchain⟩ := ihd fuel u hu2 hDu (by omega)
      obtain ⟨t, ht⟩ := chainToStart_cons parent fuel u
      refine ⟨?_, rfl, ?_, ?_⟩
      · rw [List.length_cons, hlen]
      · rw [ht] at hlast ⊢
        rw [List.getLast?_cons_cons]
        exact hlast
      · rw [ht] at hchain ⊢
        exact List.Chain'.cons ⟨hu4, hu3⟩ hchain

theorem chain_lt_all (D : Pos → Nat) :
    ∀ (l : List Pos) (a : Pos), List.Chain' (fun u v : Pos => D v < D u) (a :: l) →
      ∀ c ∈ l, D c < D a := by
  intro l
  induction l with
  | nil => intro a _ c hc; exact absurd hc (List.not_mem_nil c)
  | cons b t ih =>
    intro a hl c hc
    rw [List.chain'_cons] at hl
    rcases List.mem_cons.mp hc with rfl | hc2
    · exact hl.1
    · exact Nat.lt_trans (ih b hl.2 c hc2) hl.1

theorem chain_strict_nodup (D : Pos → Nat) :
    ∀ l : List Pos, List.Chain' (fun u v : Pos => D v < D u) l → l.Nodup := by
  intro l
  induction l with
  | nil => intro _; exact List.nodup_nil
  | cons a t ih =>
    intro hl
    rw [List.nodup_cons]
    have ht : List.Chain' (fun u v : Pos => D v < D u) t := (List.chain'_cons'.mp hl).2
    refine ⟨?_, ih ht⟩
    intro hmem
    have := chain_lt_all D t a hl a hmem
    omega

end AMazeIng

namespace AMazeIng

/-- Whenever the BFS loop returns a path under the loop invariant, the path
runs from the start to the target along walkable neighbours, repeats no cell,
and its length is minimal among open-wall walks. -/
theorem bfsLoop_post (M : MazeState) (start endP : Pos) :
    ∀ fuel (D : Pos → Nat) m parent q l,
    BfsInv M start D m parent q →
    bfsLoop endP fuel m parent q = some l →
    l.head? = some start ∧ l.getLast? = some endP ∧
    List.Chain' (fun a b : Pos => b ∈ get_neighbors M a.1 a.2) l ∧
    l.Nodup ∧
    (∀ L, Walk M start endP L → l.length ≤ L + 1) := by
  intro fuel
  induction fuel with
  | zero =>
    intro D m parent q l _ hsome
    exact Option.noConfusion hsome
  | succ fuel ih =>
    intro D m parent q l hinv hsome
    cases q with
    | nil =>
      rw [bfsLoop] at hsome
      exact Option.noConfusion hsome
    | cons curr rest =>
      rw [bfsLoop] at hsome
      dsimp only at hsome
      split_ifs at hsome with hend
      · have hl : (chainToStart parent (cellsCount m + 1) endP).reverse = l :=
          Option.some.inj hsome
        have hmid := hinv.pop
        have hvend : (m.grid endP.1 endP.2).visited = true := hend ▸ hmid.currVis
        have hdlt : D endP < cellsCount m + 1 := by
          have h1 := hmid.dcard endP hvend
          have h2 := visitedFinset_card_le m
          have h3 : cellsCount m = cellsCount M := by
            unfold cellsCount
            rw [hmid.wd, hmid.ht]
          omega
        obtain ⟨hlen, hhd, hlast, hchain⟩ :=
          bfs_chain_ok hmid (D endP) (cellsCount m + 1) endP hvend rfl hdlt
        have hnodup : (chainToStart parent (cellsCount m + 1) endP).Nodup := by
          refine chain_strict_nodup D _ (hchain.imp ?_)
          intro a b hab
          omega
        rw [← hl]
        refine ⟨?_, ?_, ?_, ?_, ?_⟩
        · rw [List.head?_reverse]
          exact hlast
        · rw [List.getLast?_reverse]
          exact hhd
        · rw [List.chain'_reverse]
          refine hchain.imp ?_
          intro a b hab
          exact hab.1
        · rw [List.nodup_reverse]
          exact hnodup
        · intro L hwalk
          have hmin := (bfs_walk_bound hmid L endP hwalk).1 hvend
          rw [List.length_reverse, hlen]
          omega
      · have hmid := hinv.pop
        rw [hinv.gn curr.1 curr.2] at hsome
        obtain ⟨D2, hmid2⟩ := bfs_fold_inv M start curr
          (get_neighbors M curr.1 curr.2) D m parent rest hmid
        exact ih D2 _ _ _ l hmid2.unpop hsome

end AMazeIng

namespace AMazeIng

theorem bfs_solver_post (m : MazeState) (start endP : Pos) (path : List Pos)
    (h1 : start.1 < m.height) (h2 : start.2 < m.width)
    (hsome : Maze.bfs_solver m start endP = some path) :
    path.head? = some start ∧ path.getLast? = some endP ∧
    List.Chain' (fun a b : Pos => b ∈ get_neighbors m a.1 a.2) path ∧
    path.Nodup ∧
    (∀ L, Walk m start endP L → path.length ≤ L + 1) := by
  unfold Maze.bfs_solver at hsome
  dsimp only at hsome
  have hstartvis : ((setVisitedFlag (resetVisited m) start.1 start.2).grid
      start.1 start.2).visited = true :=
    (bfsInit_visited m start start.1 start.2).mpr ⟨rfl, rfl⟩
  have hisstart : ∀ v : Pos,
      ((setVisitedFlag (resetVisited m) start.1 start.2).grid v.1 v.2).visited = true →
      v = start := by
    intro v hv
    exact Prod.ext_iff.mpr ((bfsInit_visited m start v.1 v.2).mp hv)
  refine bfsLoop_post m start endP (cellsCount m + 1) (fun _ => 0)
    (setVisitedFlag (resetVisited m) start.1 start.2) (fun _ => none) [start] path
    ⟨?_, rfl, rfl, ?_, hstartvis, rfl, rfl, ?_, ?_, ?_, ?_, ?_, ?_⟩ hsome
  · intro y x
    rw [get_neighbors_setVisitedFlag, get_neighbors_resetVisited]
  · intro v hv
    obtain rfl := hisstart v hv
    exact ⟨h1, h2⟩
  · intro v hv
    rw [List.mem_singleton] at hv
    rw [hv]
    exact hstartvis
  · intro v hv hne
    exact absurd (hisstart v hv) hne
  · exact ⟨0, [start], [], rfl, fun v _ => rfl,
      fun v hv => absurd hv (List.not_mem_nil v), fun v _ => Nat.zero_le 1⟩
  · intro v hv w hw hwu
    rw [hisstart v hv]
    exact List.mem_singleton.mpr rfl
  · intro v hv hvq
    exact absurd (List.mem_singleton.mpr (hisstart v hv)) hvq
  · intro v hv
    have hmem : start ∈ visitedFinset (setVisitedFlag (resetVisited m) start.1 start.2) := by
      rw [mem_visitedFinset]
      exact ⟨h1, h2, hstartvis⟩
    exact Finset.card_pos.mpr ⟨start, hmem⟩

/-- C2: whenever bfs_solver returns a path for in-bounds start and end, the
path begins at the start, ends at the end, steps only between walkable
neighbours (no wall on the shared side, in bounds), repeats no cell, and its
edge count is minimal: its length is at most one more than the edge count of
any open-wall walk from start to end. -/
theorem bfs_solver_shortest :
    ∀ (m : MazeState) (start endP : Pos) (path : List Pos),
    start.1 < m.height → start.2 < m.width →
    endP.1 < m.height → endP.2 < m.width →
    Maze.bfs_solver m start endP = some path →
    path.head? = some start ∧ path.getLast? = some endP ∧
    List.Chain' (fun a b : Pos => b ∈ get_neighbors m a.1 a.2) path ∧
    path.Nodup ∧
    (∀ L, Walk m start endP L → path.length ≤ L + 1) :=
  fun m start endP path h1 h2 _ _ hsome => bfs_solver_post m start endP path h1 h2 hsome

/-- Concrete instance of C2: on a fully carved 2×2 maze, the solver's path
from (0,0) to (1,1) satisfies all five properties. -/
theorem bfs_solver_shortest_witness :
    Maze.bfs_solver
      ((Maze.dfs (fun _ l => l) 25 0 (Maze.make 2 2 (0, 0) (1, 1) true) 0 0).1)
      (0, 0) (1, 1) = some [(0, 0), (0, 1), (1, 1)] ∧
    (([(0, 0), (0, 1), (1, 1)] : List Pos).head? = some ((0, 0) : Pos) ∧
     ([(0, 0), (0, 1), (1, 1)] : List Pos).getLast? = some ((1, 1) : Pos) ∧
     List.Chain' (fun a b : Pos => b ∈ get_neighbors
        ((Maze.dfs (fun _ l => l) 25 0 (Maze.make 2 2 (0, 0) (1, 1) true) 0 0).1) a.1 a.2)
       [(0, 0), (0, 1), (1, 1)] ∧
     ([(0, 0), (0, 1), (1, 1)] : List Pos).Nodup ∧
     (∀ L, Walk ((Maze.dfs (fun _ l => l) 25 0 (Maze.make 2 2 (0, 0) (1, 1) true) 0 0).1)
        (0, 0) (1, 1) L → ([(0, 0), (0, 1), (1, 1)] : List Pos).length ≤ L + 1)) :=
  ⟨by decide,
   bfs_solver_shortest _ (0, 0) (1, 1) [(0, 0), (0, 1), (1, 1)]
     (by decide) (by decide) (by decide) (by decide) (by decide)⟩

end AMazeIng
